import Mathlib

/-!
# HAR 1.2 codec (`har.go`): data model, `Dump` and `NewLog`

The Go source declares seventeen record types with `json` struct tags and two
functions, `Dump` (a call to `json.MarshalIndent` followed by `io.Copy`) and
`NewLog` (a `json.Decoder.Decode` into `map[string]json.RawMessage` followed by
`json.Unmarshal` of the entry at key `"log"`).

The record declarations are embedded as schema values (`LogT`, `EntryT`, ...)
listing, in source order, the wire key, the `omitempty` flag and the Go type of
every field.  `encode` and `decode` are the reflection-driven walks that
`encoding/json` performs over such a type; `render` and `parseValue` are its
lexical layer; `marshalTime` and `unmarshalTime` are the `time.Time` JSON
methods.  Library behaviour is the one of the Go 1.20+ standard library on a
64-bit platform.  The grammar of JSON texts is written down a second time,
after RFC 8259 and without reference to the reader, as the texts of
well-formed syntax trees (`Tree`).

Conventions of the embedding:
* Go strings are Lean strings (the text is assumed to be valid UTF-8);
* `int`, `int64`, `uint64` and `time.Duration` values are `Int`s, the range of
  the machine type being checked where Go checks it;
* a `time.Time` is the civil reading of the instant in its own zone together
  with the zone offset in seconds;
* a nil slice and an empty slice are different values, as in Go;
* an error is recorded by kind only.
-/

namespace Har

/-! ## JSON values -/

/-- A JSON value.  A number keeps its literal text, as the decoder of
`encoding/json` does until the target type is known. -/
inductive JSON where
  | null
  | bool (b : Bool)
  | num (lit : List Char)
  | str (s : String)
  | arr (xs : List JSON)
  | obj (kvs : List (String × JSON))

/-- Error kinds, by the call that reports the error. -/
inductive Err where
  | badSyntax      -- Decoder.Decode found no complete JSON value at the head of the
                   -- input: a json.SyntaxError, io.ErrUnexpectedEOF or io.EOF
  | unexpectedEnd  -- json.Unmarshal of no bytes: "unexpected end of JSON input"
  | typeMismatch   -- json.UnmarshalTypeError
  | badTime        -- error returned by a time.Time JSON method
  | unsupported    -- a value that does not have the shape of its type
  | writeFailed    -- error returned by the io.Writer
  deriving DecidableEq, Repr

/-! ## time.Time -/

/-- A `time.Time`: the date and clock shown in the zone of the value, and the
offset of that zone in seconds east of UTC. -/
structure Time where
  year : Int
  month : Nat
  day : Nat
  hour : Nat
  minute : Nat
  second : Nat
  nano : Nat
  offset : Int
  deriving DecidableEq, Repr

/-- The zero `time.Time`: January 1, year 1, 00:00:00 UTC. -/
def Time.zero : Time := ⟨1, 1, 1, 0, 0, 0, 0, 0⟩

/-! ## Go types and values -/

mutual
/-- The Go types that occur in the declarations of `har.go`. -/
inductive Ty where
  | string
  | bool
  | int64
  | int
  | uint64
  | duration
  | time
  | ptr (t : Ty)
  | slice (t : Ty)
  | struct (fs : Fields)
/-- The fields of a struct type, in declaration order: wire key, `omitempty`
flag, type. -/
inductive Fields where
  | nil
  | cons (key : String) (om : Bool) (t : Ty) (rest : Fields)
end

/-- A Go value of one of the types of `Ty`. -/
inductive Val where
  | str (s : String)
  | bool (b : Bool)
  | int (i : Int)
  | time (t : Time)
  | nilPtr
  | ptr (v : Val)
  | nilSlice
  | slice (xs : List Val)
  | struct (fs : List Val)

/-- Build a field list from (key, omitempty, type) triples. -/
def mkFields : List (String × Bool × Ty) → Fields
  | [] => .nil
  | (k, om, t) :: rest => .cons k om t (mkFields rest)

/-! ## The records of `har.go`

Each definition lists the fields of the Go struct of the same name, in source
order, with the key and the `omitempty` flag of the struct tag. -/

/-- Go struct `Creator`: Name, Version, Comment. -/
def CreatorT : Ty := .struct (mkFields [
  ("name", false, .string),
  ("version", false, .string),
  ("comment", true, .string)])

/-- Go struct `Browser`: Name, Version, Comment. -/
def BrowserT : Ty := .struct (mkFields [
  ("name", false, .string),
  ("version", false, .string),
  ("comment", true, .string)])

/-- Go struct `PageTimings`: OnContentLoad, OnLoad, Comment. -/
def PageTimingsT : Ty := .struct (mkFields [
  ("onContentLoad", true, .duration),
  ("onLoad", true, .duration),
  ("comment", true, .string)])

/-- Go struct `Page`: StartedDateTime, Id, Title, PageTimings, Comment. -/
def PageT : Ty := .struct (mkFields [
  ("startedDateTime", false, .ptr .time),
  ("id", false, .string),
  ("title", false, .string),
  ("pageTimings", true, PageTimingsT),
  ("comment", true, .string)])

/-- Go struct `Cookie`: Name, Value, Path, Domain, Expires, HTTPOnly, Secure,
Comment. -/
def CookieT : Ty := .struct (mkFields [
  ("name", false, .string),
  ("value", false, .string),
  ("path", true, .string),
  ("domain", true, .string),
  ("expires", false, .ptr .time),
  ("httpOnly", false, .bool),
  ("secure", false, .bool),
  ("comment", true, .string)])

/-- Go struct `Header`: Name, Value, Comment. -/
def HeaderT : Ty := .struct (mkFields [
  ("name", false, .string),
  ("value", false, .string),
  ("comment", true, .string)])

/-- Go struct `QueryString`: Name, Value, Comment. -/
def QueryStringT : Ty := .struct (mkFields [
  ("name", false, .string),
  ("value", false, .string),
  ("comment", true, .string)])

/-- Go struct `Param`: Name, Value, FileName, ContentType, Comment. -/
def ParamT : Ty := .struct (mkFields [
  ("name", false, .string),
  ("value", true, .string),
  ("fileName", true, .string),
  ("contentType", true, .string),
  ("comment", true, .string)])

/-- Go struct `PostData`: MimeType, Params, Text, Comment. -/
def PostDataT : Ty := .struct (mkFields [
  ("mimeType", true, .string),
  ("params", false, .slice ParamT),
  ("text", false, .string),
  ("comment", true, .string)])

/-- Go struct `Content`: Size, Compression, MimeType, Text, Encoding,
Comment. -/
def ContentT : Ty := .struct (mkFields [
  ("size", false, .int64),
  ("compression", false, .int64),
  ("mimeType", true, .string),
  ("text", true, .string),
  ("encoding", true, .string),
  ("comment", true, .string)])

/-- Go struct `CacheDetails`: Expires, LastAccess, ETag, HitCount, Comment. -/
def CacheDetailsT : Ty := .struct (mkFields [
  ("expires", true, .ptr .time),
  ("lastAccess", true, .ptr .time),
  ("eTag", false, .string),
  ("hitCount", false, .uint64),
  ("comment", true, .string)])

/-- Go struct `Cache`: BeforeRequest, AfterRequest, Comment. -/
def CacheT : Ty := .struct (mkFields [
  ("beforeRequest", true, .ptr CacheDetailsT),
  ("afterRequest", true, .ptr CacheDetailsT),
  ("comment", true, .string)])

/-- Go struct `Timings`: Blocked, DNS, Connect, Send, Wait, Receive, SSL,
Comment. -/
def TimingsT : Ty := .struct (mkFields [
  ("blocked", true, .ptr .int64),
  ("dns", true, .ptr .int64),
  ("connect", true, .ptr .int64),
  ("send", false, .int64),
  ("wait", false, .int64),
  ("receive", false, .int64),
  ("ssl", true, .ptr .int64),
  ("comment", true, .string)])

/-- Go struct `Request`: Method, URL, HTTPVersion, Cookies, Headers,
QueryString, PostData, HeadersSize, BodySize, Comment. -/
def RequestT : Ty := .struct (mkFields [
  ("method", false, .string),
  ("url", false, .string),
  ("httpVersion", false, .string),
  ("cookies", false, .slice CookieT),
  ("headers", false, .slice HeaderT),
  ("queryString", false, .slice QueryStringT),
  ("postData", true, .ptr PostDataT),
  ("headersSize", false, .int64),
  ("bodySize", false, .int64),
  ("comment", true, .string)])

/-- Go struct `Response`: Status, StatusText, HTTPVersion, Cookies, Headers,
Content, RedirectURL, HeadersSize, BodySize, Comment. -/
def ResponseT : Ty := .struct (mkFields [
  ("status", false, .int),
  ("statusText", false, .string),
  ("httpVersion", false, .string),
  ("cookies", false, .slice CookieT),
  ("headers", false, .slice HeaderT),
  ("content", false, ContentT),
  ("redirectURL", false, .string),
  ("headersSize", false, .int64),
  ("bodySize", false, .int64),
  ("comment", true, .string)])

/-- Go struct `Entry`: Pageref, StartedDateTime, Time, Request, Response,
Cache, Timings, ServerIPAddress, Connection, Comment. -/
def EntryT : Ty := .struct (mkFields [
  ("pageref", true, .string),
  ("startedDateTime", false, .ptr .time),
  ("time", false, .duration),
  ("request", false, RequestT),
  ("response", false, ResponseT),
  ("cache", false, .ptr CacheT),
  ("timings", false, TimingsT),
  ("serverIPAddress", true, .string),
  ("connection", true, .string),
  ("comment", true, .string)])

/-- Go struct `Log`: Version, Creator, Browser, Pages, Entries, Comment. -/
def LogT : Ty := .struct (mkFields [
  ("version", false, .string),
  ("creator", false, CreatorT),
  ("browser", true, .ptr BrowserT),
  ("pages", true, .slice PageT),
  ("entries", false, .slice EntryT),
  ("comment", true, .string)])

/-! ## Decimal numbers (`strconv`) -/

/-- The character of a decimal digit. -/
def digitChar (d : Nat) : Char := Char.ofNat (48 + d % 10)

/-- Whether a character is one of `0` .. `9`. -/
def isDigit (c : Char) : Bool := decide (48 ≤ c.toNat) && decide (c.toNat ≤ 57)

/-- The digits of `n`, most significant first, prepended to `acc`. -/
def natDigitsAux : Nat → Nat → List Char → List Char
  | 0, n, acc => digitChar n :: acc
  | fuel + 1, n, acc =>
    if n < 10 then digitChar n :: acc
    else natDigitsAux fuel (n / 10) (digitChar n :: acc)

/-- Decimal text of a natural number. -/
def natLit (n : Nat) : List Char := natDigitsAux n n []

/-- Decimal text of an integer, as `strconv.AppendInt(_, i, 10)` writes it. -/
def intLit : Int → List Char
  | .ofNat n => natLit n
  | .negSucc n => '-' :: natLit (n + 1)

/-- Value of a run of decimal digits, `none` when a character is no digit. -/
def parseDigits : List Char → Nat → Option Nat
  | [], acc => some acc
  | c :: cs, acc =>
    if isDigit c then parseDigits cs (acc * 10 + (c.toNat - 48)) else none

/-- Go `strconv.ParseUint(s, 10, 64)`: no sign, at least one digit, below
2^64. -/
def parseUint (s : List Char) : Option Nat :=
  match s with
  | [] => none
  | _ => (parseDigits s 0).bind fun n => if n < 2 ^ 64 then some n else none

/-- Go `strconv.ParseInt(s, 10, 64)`: optional sign, digits, range of int64. -/
def parseInt (s : List Char) : Option Int :=
  match s with
  | [] => none
  | c :: r =>
    if c = '-' then
      (parseUint r).bind fun n => if n ≤ 2 ^ 63 then some (-(n : Int)) else none
    else if c = '+' then
      (parseUint r).bind fun n => if n < 2 ^ 63 then some (n : Int) else none
    else
      (parseUint (c :: r)).bind fun n => if n < 2 ^ 63 then some (n : Int) else none

/-- Go `time.Millisecond`: a `time.Duration` counts nanoseconds. -/
def Millisecond : Int := 1000000

/-! ## `time.Time` as JSON (RFC 3339) -/

/-- Go `isLeap`. -/
def isLeap (year : Int) : Bool :=
  decide (year % 4 = 0) && (decide (year % 100 ≠ 0) || decide (year % 400 = 0))

/-- Go `daysIn`: the number of days of a month of a year. -/
def daysIn (month : Nat) (year : Int) : Nat :=
  if month = 2 then (if isLeap year then 29 else 28)
  else if month = 4 ∨ month = 6 ∨ month = 9 ∨ month = 11 then 30
  else 31

/-- Go `appendInt(b, n, 2)` for `n` below 100. -/
def pad2 (n : Nat) : List Char := [digitChar (n / 10), digitChar n]

/-- Go `appendInt(b, n, 4)` for `n` below 10000. -/
def pad4 (n : Nat) : List Char :=
  [digitChar (n / 1000), digitChar (n / 100), digitChar (n / 10), digitChar n]

/-- The nine digits of a nanosecond count. -/
def pad9 (n : Nat) : List Char :=
  [digitChar (n / 100000000), digitChar (n / 10000000), digitChar (n / 1000000),
   digitChar (n / 100000), digitChar (n / 10000), digitChar (n / 1000),
   digitChar (n / 100), digitChar (n / 10), digitChar n]

/-- Remove the trailing zeros of a digit string. -/
def trimZeros (l : List Char) : List Char :=
  (l.reverse.dropWhile (fun c => c = '0')).reverse

/-- Go `appendNano` with the layout `.999999999`: nothing for a zero count,
otherwise a period and the digits without trailing zeros. -/
def fmtNano (n : Nat) : List Char :=
  if n % 1000000000 = 0 then [] else '.' :: trimZeros (pad9 n)

/-- The zone of Go `appendFormatRFC3339`: `Z` for offset zero, otherwise sign,
hours and minutes of the offset truncated to minutes. -/
def fmtZone (offset : Int) : List Char :=
  if offset = 0 then ['Z']
  else
    let zone := offset.natAbs / 60
    (if offset ≤ -60 then '-' else '+') :: (pad2 (zone / 60) ++ ':' :: pad2 (zone % 60))

/-- Go `Time.appendFormatRFC3339(b, true)` for a year of four digits. -/
def fmtTime (t : Time) : List Char :=
  pad4 t.year.toNat ++ '-' :: pad2 t.month ++ '-' :: pad2 t.day ++ 'T' ::
    pad2 t.hour ++ ':' :: pad2 t.minute ++ ':' :: pad2 t.second ++
    fmtNano t.nano ++ fmtZone t.offset

/-- Go `Time.MarshalJSON` (`appendStrictRFC3339`): the year must have exactly
four digits and the hour of a written zone must be below 24. -/
def marshalTime (t : Time) : Except Err String :=
  if t.year < 0 ∨ 9999 < t.year then .error .badTime
  else if t.offset ≠ 0 ∧ 24 ≤ t.offset.natAbs / 60 / 60 then .error .badTime
  else .ok (String.mk (fmtTime t))

/-- Go `getnum(s, true)`: exactly two digits. -/
def getnum2 : List Char → Option (Nat × List Char)
  | a :: b :: r =>
    if isDigit a && isDigit b then some ((a.toNat - 48) * 10 + (b.toNat - 48), r) else none
  | _ => none

/-- Go `getnum(s, false)`: one digit, or two when the second character is a
digit as well. -/
def getnum12 : List Char → Option (Nat × List Char)
  | [] => none
  | [a] => if isDigit a then some (a.toNat - 48, []) else none
  | a :: b :: r =>
    if isDigit a then
      (if isDigit b then some ((a.toNat - 48) * 10 + (b.toNat - 48), r)
       else some (a.toNat - 48, b :: r))
    else none

/-- The four digits of the year (layout element `2006`). -/
def getYear : List Char → Option (Nat × List Char)
  | a :: b :: c :: d :: r => (parseDigits [a, b, c, d] 0).map fun y => (y, r)
  | _ => none

/-- Go `skip` for a one-character literal of the layout. -/
def expectChar (c : Char) : List Char → Option (List Char)
  | [] => none
  | d :: r => if d = c then some r else none

/-- The fractional second that Go `Parse` accepts after the seconds although
the layout has none: a period or comma and a run of digits, of which
`parseNanoseconds` keeps nine. -/
def getFrac : List Char → Nat × List Char
  | [] => (0, [])
  | [c] => (0, [c])
  | c :: d :: r =>
    if (c = '.' ∨ c = ',') ∧ isDigit d = true then
      let ds := (d :: r).takeWhile isDigit
      let kept := ds.take 9
      (((parseDigits kept 0).getD 0) * 10 ^ (9 - kept.length), (d :: r).dropWhile isDigit)
    else (0, c :: d :: r)

/-- The zone of the layout element `Z07:00` in Go `Parse`: `Z`, or a sign, two
digits, a colon and two digits, with hours up to 24 and minutes up to 60. -/
def getZone : List Char → Option (Int × List Char)
  | [] => none
  | c :: r =>
    if c = 'Z' then some (0, r)
    else match r with
      | h1 :: h2 :: col :: m1 :: m2 :: rest =>
        if col = ':' then
          (getnum2 [h1, h2]).bind fun hr =>
          (getnum2 [m1, m2]).bind fun mm =>
            if 24 < hr.1 ∨ 60 < mm.1 then none
            else if c = '+' then some ((((hr.1 * 60 + mm.1) * 60 : Nat) : Int), rest)
            else if c = '-' then some (-(((hr.1 * 60 + mm.1) * 60 : Nat) : Int), rest)
            else none
        else none
      | _ => none

/-- The date of the layout, `2006-01-02`, and the `T` after it. -/
def getDate (s : List Char) : Option ((Nat × Nat × Nat) × List Char) :=
  (getYear s).bind fun y =>
  (expectChar '-' y.2).bind fun s1 =>
  (getnum2 s1).bind fun m =>
  (expectChar '-' m.2).bind fun s2 =>
  (getnum2 s2).bind fun d =>
  (expectChar 'T' d.2).map fun s3 => ((y.1, m.1, d.1), s3)

/-- The clock of the layout, `15:04:05`, with the optional fraction. -/
def getClock (s : List Char) : Option ((Nat × Nat × Nat × Nat) × List Char) :=
  (getnum12 s).bind fun h =>
  (expectChar ':' h.2).bind fun s1 =>
  (getnum2 s1).bind fun m =>
  (expectChar ':' m.2).bind fun s2 =>
  (getnum2 s2).map fun sec => ((h.1, m.1, sec.1, (getFrac sec.2).1), (getFrac sec.2).2)

/-- Go `time.Parse(time.RFC3339, s)`, which is what `Time.UnmarshalJSON`
accepts (`parseStrictRFC3339` falls back to it and returns its result): date,
clock and zone with nothing after them, the month from 1 to 12, the day within
the month, the hour below 24, minute and second below 60. -/
def parseTime (s : List Char) : Option Time :=
  (getDate s).bind fun d =>
  (getClock d.2).bind fun c =>
  (getZone c.2).bind fun z =>
    if z.2 ≠ [] then none
    else if d.1.2.1 < 1 ∨ 12 < d.1.2.1 ∨ 24 ≤ c.1.1 ∨ 60 ≤ c.1.2.1 ∨ 60 ≤ c.1.2.2.1 then none
    else if d.1.2.2 < 1 ∨ daysIn d.1.2.1 d.1.1 < d.1.2.2 then none
    else some ⟨d.1.1, d.1.2.1, d.1.2.2, c.1.1, c.1.2.1, c.1.2.2.1, c.1.2.2.2, z.1⟩

/-- Go `Time.UnmarshalJSON` on the text of a JSON string. -/
def unmarshalTime (s : String) : Except Err Time :=
  match parseTime s.data with
  | some t => .ok t
  | none => .error .badTime

/-! ## Values of a type -/

mutual
/-- The zero value of a Go type. -/
def zero : Ty → Val
  | .string => .str ""
  | .bool => .bool false
  | .int64 => .int 0
  | .int => .int 0
  | .uint64 => .int 0
  | .duration => .int 0
  | .time => .time Time.zero
  | .ptr _ => .nilPtr
  | .slice _ => .nilSlice
  | .struct fs => .struct (zeroFields fs)
/-- The zero values of the fields of a struct. -/
def zeroFields : Fields → List Val
  | .nil => []
  | .cons _ _ t rest => zero t :: zeroFields rest
end

/-- Whether an integer is a value of the signed 64-bit types. -/
def inInt64 (i : Int) : Bool := decide (-(2 ^ 63) ≤ i) && decide (i < 2 ^ 63)

/-- Whether an integer is a value of `uint64`. -/
def inUint64 (i : Int) : Bool := decide (0 ≤ i) && decide (i < 2 ^ 64)

mutual
/-- Whether a value is a value of the given Go type. -/
def hasType : Ty → Val → Bool
  | .string, .str _ => true
  | .bool, .bool _ => true
  | .int64, .int i => inInt64 i
  | .int, .int i => inInt64 i
  | .uint64, .int i => inUint64 i
  | .duration, .int i => inInt64 i
  | .time, .time _ => true
  | .ptr _, .nilPtr => true
  | .ptr t, .ptr v => hasType t v
  | .slice _, .nilSlice => true
  | .slice t, .slice xs => xs.all (hasType t)
  | .struct fs, .struct vs => hasFieldTypes fs vs
  | _, _ => false
/-- Whether a list of values fills the fields of a struct, one for one. -/
def hasFieldTypes : Fields → List Val → Bool
  | .nil, [] => true
  | .cons _ _ t rest, v :: vs => hasType t v && hasFieldTypes rest vs
  | _, _ => false
end

/-- Go `isEmptyValue`, the test behind `omitempty`: false, 0, a nil pointer,
and a slice or string of length zero.  A struct is never empty. -/
def isEmptyValue : Val → Bool
  | .str s => s.data.isEmpty
  | .bool b => !b
  | .int i => decide (i = 0)
  | .nilPtr => true
  | .nilSlice => true
  | .slice xs => xs.isEmpty
  | _ => false

/-- The wire keys of the fields of a struct. -/
def Fields.keys : Fields → List String
  | .nil => []
  | .cons k _ _ rest => k :: rest.keys

/-- Case folding of one character of a key: ASCII letters to upper case, and
the two non-ASCII characters whose simple fold is an ASCII letter (U+017F to
`S`, U+212A to `K`). -/
def foldChar (c : Char) : Char :=
  if 97 ≤ c.toNat ∧ c.toNat ≤ 122 then Char.ofNat (c.toNat - 32)
  else if c.toNat = 0x17F then 'S'
  else if c.toNat = 0x212A then 'K'
  else c

/-- Go `foldName` of `encoding/json`, for comparison with ASCII field names. -/
def foldName (s : String) : List Char := s.data.map foldChar

/-- Position of the first element satisfying a test. -/
def indexWhere (p : String → Bool) : List String → Option Nat
  | [] => none
  | k :: ks => if p k then some 0 else (indexWhere p ks).map (· + 1)

/-- The field a key of a JSON object is stored in: the field with exactly this
key or, failing that, the first field whose key is equal under case folding. -/
def fieldIndex (fs : Fields) (key : String) : Option Nat :=
  match indexWhere (fun k => decide (k = key)) fs.keys with
  | some i => some i
  | none => indexWhere (fun k => decide (foldName k = foldName key)) fs.keys

/-! ## `json.Marshal`: from a value to a JSON value -/

/-- Apply a fallible function to every element, stopping at the first
error. -/
def mapE (f : Val → Except Err JSON) : List Val → Except Err (List JSON)
  | [] => .ok []
  | v :: vs =>
    match f v with
    | .error e => .error e
    | .ok j =>
      match mapE f vs with
      | .error e => .error e
      | .ok js => .ok (j :: js)

mutual
/-- The JSON value `encoding/json` writes for a value of a type.  A nil
pointer and a nil slice are `null`; a struct is an object with its fields in
declaration order, a field tagged `omitempty` being left out when its value
is empty; the only failure is the one of `Time.MarshalJSON`. -/
def encode : Ty → Val → Except Err JSON
  | .string, .str s => .ok (.str s)
  | .bool, .bool b => .ok (.bool b)
  | .int64, .int i => .ok (.num (intLit i))
  | .int, .int i => .ok (.num (intLit i))
  | .uint64, .int i => .ok (.num (intLit i))
  | .duration, .int i => .ok (.num (intLit i))
  | .time, .time t =>
    match marshalTime t with
    | .error e => .error e
    | .ok s => .ok (.str s)
  | .ptr _, .nilPtr => .ok .null
  | .ptr t, .ptr v => encode t v
  | .slice _, .nilSlice => .ok .null
  | .slice t, .slice xs =>
    match mapE (encode t) xs with
    | .error e => .error e
    | .ok js => .ok (.arr js)
  | .struct fs, .struct vs =>
    match encodeFields fs vs with
    | .error e => .error e
    | .ok kvs => .ok (.obj kvs)
  | _, _ => .error .unsupported
/-- The members of the object written for a struct. -/
def encodeFields : Fields → List Val → Except Err (List (String × JSON))
  | .nil, [] => .ok []
  | .cons k om t rest, v :: vs =>
    if om && isEmptyValue v then encodeFields rest vs
    else
      match encode t v with
      | .error e => .error e
      | .ok j =>
        match encodeFields rest vs with
        | .error e => .error e
        | .ok kvs => .ok ((k, j) :: kvs)
  | _, _ => .error .unsupported
end

/-! ## `json.Unmarshal`: from a JSON value into a value -/

/-- Decode the elements of a JSON array into a slice: element `i` is decoded
into the element the slice already has at `i`, or into a zero value. -/
def decodeElems (f : Val → JSON → Except Err Val) (z : Val) :
    List Val → List JSON → Except Err (List Val)
  | _, [] => .ok []
  | [], x :: xs =>
    match f z x with
    | .error e => .error e
    | .ok v =>
      match decodeElems f z [] xs with
      | .error e => .error e
      | .ok vs => .ok (v :: vs)
  | o :: os, x :: xs =>
    match f o x with
    | .error e => .error e
    | .ok v =>
      match decodeElems f z os xs with
      | .error e => .error e
      | .ok vs => .ok (v :: vs)

/-- Store the members of a JSON object one after the other, stopping at the
first error. -/
def foldE (f : List Val → String × JSON → Except Err (List Val)) :
    List Val → List (String × JSON) → Except Err (List Val)
  | vs, [] => .ok vs
  | vs, kv :: kvs =>
    match f vs kv with
    | .error e => .error e
    | .ok vs2 => foldE f vs2 kvs

/-- The value a pointer variable points to, or `z` when it is nil. -/
def pointee (z : Val) : Val → Val
  | .ptr v => v
  | _ => z

/-- The elements a slice variable holds. -/
def elements : Val → List Val
  | .slice xs => xs
  | _ => []

/-- The field values a struct variable holds. -/
def fieldsOf (zs : List Val) : Val → List Val
  | .struct vs => vs
  | _ => zs

mutual
/-- Decode a JSON value into a variable of a type holding `cur`.  JSON `null`
sets a pointer or slice to nil and leaves every other variable as it is; a
JSON value of another kind than the type takes is an error; a number must be
accepted by `strconv.ParseInt` (`ParseUint` for `uint64`); a member of an
object whose key matches no field is skipped. -/
def decode : Ty → Val → JSON → Except Err Val
  | .string, cur, j =>
    match j with
    | .null => .ok cur
    | .str s => .ok (.str s)
    | _ => .error .typeMismatch
  | .bool, cur, j =>
    match j with
    | .null => .ok cur
    | .bool b => .ok (.bool b)
    | _ => .error .typeMismatch
  | .int64, cur, j =>
    match j with
    | .null => .ok cur
    | .num lit => match parseInt lit with
      | some i => .ok (.int i)
      | none => .error .typeMismatch
    | _ => .error .typeMismatch
  | .int, cur, j =>
    match j with
    | .null => .ok cur
    | .num lit => match parseInt lit with
      | some i => .ok (.int i)
      | none => .error .typeMismatch
    | _ => .error .typeMismatch
  | .duration, cur, j =>
    match j with
    | .null => .ok cur
    | .num lit => match parseInt lit with
      | some i => .ok (.int i)
      | none => .error .typeMismatch
    | _ => .error .typeMismatch
  | .uint64, cur, j =>
    match j with
    | .null => .ok cur
    | .num lit => match parseUint lit with
      | some n => .ok (.int n)
      | none => .error .typeMismatch
    | _ => .error .typeMismatch
  | .time, cur, j =>
    match j with
    | .null => .ok cur
    | .str s => match unmarshalTime s with
      | .ok t => .ok (.time t)
      | .error e => .error e
    | _ => .error .typeMismatch
  | .ptr t, cur, j =>
    match j with
    | .null => .ok .nilPtr
    | _ =>
      match decode t (pointee (zero t) cur) j with
      | .ok v => .ok (.ptr v)
      | .error e => .error e
  | .slice t, cur, j =>
    match j with
    | .null => .ok .nilSlice
    | .arr xs =>
      match decodeElems (decode t) (zero t) (elements cur) xs with
      | .ok vs => .ok (.slice vs)
      | .error e => .error e
    | _ => .error .typeMismatch
  | .struct fs, cur, j =>
    match j with
    | .null => .ok cur
    | .obj kvs =>
      match foldE (fun vs kv =>
          match fieldIndex fs kv.1 with
          | none => .ok vs
          | some i => decodeAt fs i vs kv.2)
        (fieldsOf (zeroFields fs) cur) kvs with
      | .ok vs => .ok (.struct vs)
      | .error e => .error e
    | _ => .error .typeMismatch
/-- Decode a JSON value into field number `i` of a struct. -/
def decodeAt : Fields → Nat → List Val → JSON → Except Err (List Val)
  | .cons _ _ t _, 0, v :: vs, j =>
    match decode t v j with
    | .ok v2 => .ok (v2 :: vs)
    | .error e => .error e
  | .cons _ _ _ rest, i + 1, v :: vs, j =>
    match decodeAt rest i vs j with
    | .ok vs2 => .ok (v :: vs2)
    | .error e => .error e
  | _, _, vs, _ => .ok vs
end

/-! ## The text of a JSON value (`json.MarshalIndent(_, "", "  ")`) -/

/-- The quotation mark. -/
def dq : Char := Char.ofNat 34

/-- The backslash. -/
def bs : Char := Char.ofNat 92

/-- Lower-case hexadecimal digit of a value below 16. -/
def hexChar (d : Nat) : Char :=
  if d % 16 < 10 then Char.ofNat (48 + d % 16) else Char.ofNat (87 + d % 16)

/-- One character of a string as `encoding/json` writes it with HTML escaping
on: quotation mark and backslash behind a backslash, the short escapes for
backspace, form feed, line feed, carriage return and tab, `\u00xx` for the
other control characters and for `<`, `>`, `&`, `\u202x` for U+2028 and
U+2029, and every other character as it is. -/
def quoteChar (c : Char) : List Char :=
  let n := c.toNat
  if n = 34 ∨ n = 92 then [bs, c]
  else if n = 8 then [bs, 'b']
  else if n = 12 then [bs, 'f']
  else if n = 10 then [bs, 'n']
  else if n = 13 then [bs, 'r']
  else if n = 9 then [bs, 't']
  else if n < 32 ∨ n = 60 ∨ n = 62 ∨ n = 38 then
    [bs, 'u', '0', '0', hexChar (n / 16), hexChar n]
  else if n = 0x2028 ∨ n = 0x2029 then [bs, 'u', '2', '0', '2', hexChar n]
  else [c]

/-- The characters of a string between its quotation marks. -/
def quoteBody : List Char → List Char
  | [] => []
  | c :: cs => quoteChar c ++ quoteBody cs

/-- A string as a JSON string literal. -/
def quote (s : String) : List Char := dq :: (quoteBody s.data ++ [dq])

/-- Line break followed by the indentation of a nesting depth, two spaces a
level. -/
def newline (depth : Nat) : List Char := '\n' :: List.replicate (2 * depth) ' '

mutual
/-- The indented text of a JSON value that starts at nesting depth `d`: an
empty array or object is written closed at once, a non-empty one has each
element on a line of its own, a colon is followed by a space. -/
def render : Nat → JSON → List Char
  | _, .null => ['n', 'u', 'l', 'l']
  | _, .bool b => if b then ['t', 'r', 'u', 'e'] else ['f', 'a', 'l', 's', 'e']
  | _, .num lit => lit
  | _, .str s => quote s
  | _, .arr [] => ['[', ']']
  | d, .arr (x :: xs) =>
    '[' :: (newline (d + 1) ++ render (d + 1) x ++ renderElems d xs)
  | _, .obj [] => [Char.ofNat 123, Char.ofNat 125]
  | d, .obj ((k, x) :: kvs) =>
    Char.ofNat 123 :: (newline (d + 1) ++ quote k ++ ':' :: ' ' :: render (d + 1) x ++
      renderMembers d kvs)
/-- The elements of an array after the first, and the closing bracket. -/
def renderElems : Nat → List JSON → List Char
  | d, [] => newline d ++ [']']
  | d, x :: xs => ',' :: (newline (d + 1) ++ render (d + 1) x ++ renderElems d xs)
/-- The members of an object after the first, and the closing brace. -/
def renderMembers : Nat → List (String × JSON) → List Char
  | d, [] => newline d ++ [Char.ofNat 125]
  | d, (k, x) :: kvs =>
    ',' :: (newline (d + 1) ++ quote k ++ ':' :: ' ' :: render (d + 1) x ++
      renderMembers d kvs)
end

/-! ## Reading the text of a JSON value (the scanner of `encoding/json`) -/

/-- Value of a hexadecimal digit of either case. -/
def hexVal (c : Char) : Option Nat :=
  let n := c.toNat
  if 48 ≤ n ∧ n ≤ 57 then some (n - 48)
  else if 97 ≤ n ∧ n ≤ 102 then some (n - 87)
  else if 65 ≤ n ∧ n ≤ 70 then some (n - 55)
  else none

/-- Go `getu4` on the four characters after `\u`. -/
def hex4 (a b c d : Char) : Option Nat :=
  match hexVal a, hexVal b, hexVal c, hexVal d with
  | some x, some y, some z, some w => some (((x * 16 + y) * 16 + z) * 16 + w)
  | _, _, _, _ => none

/-- The low half of a surrogate pair, when the text goes on with a `\u`
escape of a value in DC00..DFFF. -/
def lowSurrogate : List Char → Option (Nat × List Char)
  | b :: u :: g1 :: g2 :: g3 :: g4 :: r =>
    if b = bs ∧ u = 'u' then
      match hex4 g1 g2 g3 g4 with
      | some m => if 0xDC00 ≤ m ∧ m < 0xE000 then some (m, r) else none
      | none => none
    else none
  | _ => none

/-- The character of a one-letter escape. -/
def simpleEscape (e : Char) : Option Char :=
  if e = dq then some dq
  else if e = bs then some bs
  else if e = '/' then some '/'
  else if e = 'b' then some (Char.ofNat 8)
  else if e = 'f' then some (Char.ofNat 12)
  else if e = 'n' then some (Char.ofNat 10)
  else if e = 'r' then some (Char.ofNat 13)
  else if e = 't' then some (Char.ofNat 9)
  else none

/-- Read a string literal after its opening quotation mark (scanner states
`stateInString` .. `stateInStringEscU123`, then `unquote`): a raw control
character or an unknown escape is an error; a `\u` escape of a high surrogate
followed by one of a low surrogate is the character of the pair, any other
surrogate escape is U+FFFD.  The first argument bounds the number of
characters read. -/
def parseStringBody : Nat → List Char → Option (List Char × List Char)
  | 0, _ => none
  | _ + 1, [] => none
  | fuel + 1, c :: r =>
    if c = dq then some ([], r)
    else if c = bs then
      match r with
      | [] => none
      | e :: r2 =>
        if e = 'u' then
          match r2 with
          | h1 :: h2 :: h3 :: h4 :: r3 =>
            match hex4 h1 h2 h3 h4 with
            | none => none
            | some n =>
              if 0xD800 ≤ n ∧ n < 0xE000 then
                match (if n < 0xDC00 then lowSurrogate r3 else none) with
                | some (m, r4) =>
                  (parseStringBody fuel r4).map fun p =>
                    (Char.ofNat ((n - 0xD800) * 1024 + (m - 0xDC00) + 0x10000) :: p.1, p.2)
                | none =>
                  (parseStringBody fuel r3).map fun p => (Char.ofNat 0xFFFD :: p.1, p.2)
              else (parseStringBody fuel r3).map fun p => (Char.ofNat n :: p.1, p.2)
          | _ => none
        else
          match simpleEscape e with
          | none => none
          | some x => (parseStringBody fuel r2).map fun p => (x :: p.1, p.2)
    else if c.toNat < 32 then none
    else (parseStringBody fuel r).map fun p => (c :: p.1, p.2)

/-- The digits a number literal must have at this place: at least one. -/
def scanDigits (s : List Char) : Option (List Char × List Char) :=
  match s.takeWhile isDigit with
  | [] => none
  | ds => some (ds, s.dropWhile isDigit)

/-- The integer part of a number literal: a single `0`, or a digit from 1 to 9
and the digits that follow it. -/
def scanIntPart : List Char → Option (List Char × List Char)
  | [] => none
  | c :: r =>
    if c = '0' then some (['0'], r)
    else if isDigit c then some (c :: r.takeWhile isDigit, r.dropWhile isDigit)
    else none

/-- The optional fraction of a number literal. -/
def scanFrac : List Char → Option (List Char × List Char)
  | [] => some ([], [])
  | c :: r =>
    if c = '.' then (scanDigits r).map fun p => (c :: p.1, p.2)
    else some ([], c :: r)

/-- The optional exponent of a number literal. -/
def scanExp : List Char → Option (List Char × List Char)
  | [] => some ([], [])
  | c :: r =>
    if c = 'e' ∨ c = 'E' then
      match r with
      | [] => none
      | g :: r2 =>
        if g = '+' ∨ g = '-' then (scanDigits r2).map fun p => (c :: g :: p.1, p.2)
        else (scanDigits r).map fun p => (c :: p.1, p.2)
    else some ([], c :: r)

/-- A number literal that starts after an optional minus sign. -/
def scanUnsigned (s : List Char) : Option (List Char × List Char) :=
  (scanIntPart s).bind fun a =>
  (scanFrac a.2).bind fun b =>
  (scanExp b.2).map fun c => (a.1 ++ b.1 ++ c.1, c.2)

/-- A number literal of JSON and the text after it. -/
def scanNumber : List Char → Option (List Char × List Char)
  | [] => none
  | c :: r =>
    if c = '-' then (scanUnsigned r).map fun p => (c :: p.1, p.2)
    else scanUnsigned (c :: r)

/-- Whether a character is JSON white space. -/
def isSpace (c : Char) : Bool :=
  decide (c = ' ') || decide (c = '\t') || decide (c = '\r') || decide (c = '\n')

/-- Drop leading white space. -/
def skipWs (s : List Char) : List Char := s.dropWhile isSpace

/-- Read the given characters, one for one. -/
def expectChars : List Char → List Char → Option (List Char)
  | [], s => some s
  | _ :: _, [] => none
  | c :: cs, d :: s => if c = d then expectChars cs s else none

/-- Go `maxNestingDepth` of the scanner. -/
def maxNestingDepth : Nat := 10000

mutual
/-- Read one JSON value at the head of a text, after optional white space,
and return it with the text that follows it.  The first argument bounds the
number of nested calls, the second counts the arrays and objects that are
open; opening one more than `maxNestingDepth` is an error. -/
def parseValue : Nat → Nat → List Char → Option (JSON × List Char)
  | 0, _, _ => none
  | fuel + 1, d, s =>
    match skipWs s with
    | [] => none
    | c :: r =>
      if c = Char.ofNat 123 then
        if maxNestingDepth ≤ d then none
        else
          match skipWs r with
          | [] => none
          | c2 :: r2 =>
            if c2 = Char.ofNat 125 then some (.obj [], r2)
            else (parseMembers fuel (d + 1) (c2 :: r2)).map fun p => (.obj p.1, p.2)
      else if c = '[' then
        if maxNestingDepth ≤ d then none
        else
          match skipWs r with
          | [] => none
          | c2 :: r2 =>
            if c2 = ']' then some (.arr [], r2)
            else (parseElems fuel (d + 1) (c2 :: r2)).map fun p => (.arr p.1, p.2)
      else if c = dq then
        (parseStringBody r.length r).map fun p => (.str (String.mk p.1), p.2)
      else if c = 't' then (expectChars ['r', 'u', 'e'] r).map fun r2 => (.bool true, r2)
      else if c = 'f' then
        (expectChars ['a', 'l', 's', 'e'] r).map fun r2 => (.bool false, r2)
      else if c = 'n' then (expectChars ['u', 'l', 'l'] r).map fun r2 => (.null, r2)
      else (scanNumber (c :: r)).map fun p => (.num p.1, p.2)
/-- Read the elements of an array up to and including its closing bracket. -/
def parseElems : Nat → Nat → List Char → Option (List JSON × List Char)
  | 0, _, _ => none
  | fuel + 1, d, s =>
    match parseValue fuel d s with
    | none => none
    | some (v, r) =>
      match skipWs r with
      | [] => none
      | c :: r2 =>
        if c = ',' then (parseElems fuel d r2).map fun p => (v :: p.1, p.2)
        else if c = ']' then some ([v], r2)
        else none
/-- Read the members of an object up to and including its closing brace. -/
def parseMembers : Nat → Nat → List Char → Option (List (String × JSON) × List Char)
  | 0, _, _ => none
  | fuel + 1, d, s =>
    match skipWs s with
    | [] => none
    | q :: r =>
      if q = dq then
        match parseStringBody r.length r with
        | none => none
        | some (k, r2) =>
          match skipWs r2 with
          | [] => none
          | col :: r3 =>
            if col = ':' then
              match parseValue fuel d r3 with
              | none => none
              | some (v, r4) =>
                match skipWs r4 with
                | [] => none
                | c :: r5 =>
                  if c = ',' then
                    (parseMembers fuel d r5).map fun p => ((String.mk k, v) :: p.1, p.2)
                  else if c = Char.ofNat 125 then some ([(String.mk k, v)], r5)
                  else none
            else none
      else none
end

/-- The first JSON value of a text, as `json.Decoder.Decode` reads it: what
follows the value is not looked at. -/
def firstValue (s : List Char) : Option JSON :=
  (parseValue (2 * s.length + 2) 0 s).map fun p => p.1

/-! ## The two functions of `har.go` -/

/-- An `io.Writer`: it either takes every write or refuses every write; the
bytes taken so far are kept. -/
structure Writer where
  accepts : Bool
  written : List Char

/-- The call `io.Copy(w, bytes.NewBuffer(data))`. -/
def Writer.copy (w : Writer) (data : List Char) : Writer × Option Err :=
  if w.accepts then (⟨w.accepts, w.written ++ data⟩, none) else (w, some .writeFailed)

/-- The call `json.MarshalIndent(&root, "", "  ")` where `root` is the map
with the single entry `"log"` holding the `*Log` given to `Dump`. -/
def marshalIndent (log : Val) : Except Err (List Char) :=
  match encode (.ptr LogT) log with
  | .error e => .error e
  | .ok j => .ok (render 0 (.obj [("log", j)]))

/-- Go `Dump(w io.Writer, log *Log) error`: the writer after the call and the
error returned (`none` for nil). -/
def Dump (w : Writer) (log : Val) : Writer × Option Err :=
  match marshalIndent log with
  | .error e => (w, some e)
  | .ok data =>
    match w.copy data with
    | (w2, some e) => (w2, some e)
    | (w2, none) => (w2, none)

/-- The entry of a Go map after the members of an object have been stored in
it in order: the last member with the key. -/
def lookupLast (key : String) : List (String × JSON) → Option JSON
  | [] => none
  | kv :: kvs =>
    match lookupLast key kvs with
    | some v => some v
    | none => if kv.1 = key then some kv.2 else none

/-- The call `dec.Decode(&root)` with `root` a nil `map[string]json.RawMessage`:
the members of the object at the head of the input.  When the input does not
start with a complete JSON value the call fails (with a `json.SyntaxError`,
`io.ErrUnexpectedEOF` or `io.EOF`, all recorded as `badSyntax`); JSON `null`
leaves the map nil; any other value is a type error; text after the value is
not read. -/
def decodeRoot (r : List Char) : Except Err (List (String × JSON)) :=
  match firstValue r with
  | none => .error .badSyntax
  | some (.obj kvs) => .ok kvs
  | some .null => .ok []
  | some _ => .error .typeMismatch

/-- The call `json.Unmarshal(root["log"], &log)` with `log` a zero `Log`.  A
key that is not in the map gives a nil `RawMessage`, and `Unmarshal` of no
bytes fails with "unexpected end of JSON input". -/
def unmarshalLog (raw : Option JSON) : Except Err Val :=
  match raw with
  | none => .error .unexpectedEnd
  | some j => decode LogT (zero LogT) j

/-- Go `NewLog(r io.Reader) (*Log, error)` on a reader that yields the given
text: the pointer returned (`nilPtr` for nil) and the error (`none` for
nil). -/
def NewLog (r : List Char) : Val × Option Err :=
  match decodeRoot r with
  | .error e => (.nilPtr, some e)
  | .ok root =>
    match unmarshalLog (lookupLast "log" root) with
    | .error e => (.nilPtr, some e)
    | .ok log => (.ptr log, none)

/-! ## Reading and setting the fields of a record by wire key -/

/-- The value of the field with the given key in a struct value. -/
def field (T : Ty) (key : String) (v : Val) : Option Val :=
  match T, v with
  | .struct fs, .struct vs =>
    match indexWhere (fun k => decide (k = key)) fs.keys with
    | some i => vs.get? i
    | none => none
  | _, _ => none

/-- A struct value with the field of the given key replaced. -/
def withField (T : Ty) (key : String) (x : Val) (v : Val) : Val :=
  match T, v with
  | .struct fs, .struct vs =>
    match indexWhere (fun k => decide (k = key)) fs.keys with
    | some i => .struct (vs.set i x)
    | none => v
  | _, _ => v

/-- The value of a member of a JSON object: the first member with the key. -/
def member (key : String) : JSON → Option JSON
  | .obj kvs => (kvs.find? fun kv => decide (kv.1 = key)).map fun kv => kv.2
  | _ => none

/-! ## Predicates on JSON values -/

mutual
/-- Whether some object inside a JSON value has a member with the key. -/
def hasKey (key : String) : JSON → Bool
  | .arr xs => hasKeyElems key xs
  | .obj kvs => hasKeyMembers key kvs
  | _ => false
/-- Whether `hasKey` holds of an element. -/
def hasKeyElems (key : String) : List JSON → Bool
  | [] => false
  | x :: xs => hasKey key x || hasKeyElems key xs
/-- Whether a member has the key or `hasKey` holds of its value. -/
def hasKeyMembers (key : String) : List (String × JSON) → Bool
  | [] => false
  | (k, x) :: kvs => decide (k = key) || hasKey key x || hasKeyMembers key kvs
end

/-- Whether a JSON value is `null`. -/
def JSON.isNull : JSON → Bool
  | .null => true
  | _ => false

/-- Whether a JSON value is an object. -/
def JSON.isObj : JSON → Bool
  | .obj _ => true
  | _ => false

/-- Whether a text consists of one well-formed JSON object, white space
aside. -/
def isObjectText (s : List Char) : Bool :=
  match parseValue (2 * s.length + 2) 0 s with
  | some (.obj _, rest) => (skipWs rest).isEmpty
  | _ => false

/-- Whether a number literal is a plain integer: digits only, after an
optional sign (JSON itself allows only the minus sign). -/
def isPlainInt (lit : List Char) : Bool :=
  match lit with
  | [] => false
  | c :: r =>
    if c = '-' ∨ c = '+' then !r.isEmpty && r.all isDigit else (c :: r).all isDigit

/-- The value of a plain integer literal. -/
def plainIntValue (lit : List Char) : Option Int :=
  match lit with
  | [] => none
  | c :: r =>
    if c = '-' then (parseDigits r 0).map fun n => -(n : Int)
    else if c = '+' then (parseDigits r 0).map fun n => (n : Int)
    else (parseDigits (c :: r) 0).map fun n => (n : Int)

/-- Whether a type is one of the integer types (`int`, `int64`, `uint64`,
`time.Duration`). -/
def Ty.isInteger : Ty → Bool
  | .int64 => true
  | .int => true
  | .uint64 => true
  | .duration => true
  | _ => false

/-- Whether a JSON value has another JSON type than the one a Go type takes:
string for `string` and `time.Time`, boolean for `bool`, number for the
integer types, array for a slice, object for a struct.  `null` is right for a
pointer and a slice; for the other types it counts as a conflict when
`nullCounts` is set. -/
def kindConflict (nullCounts : Bool) : Ty → JSON → Bool
  | .ptr _, _ => false
  | .slice _, .null => false
  | .slice _, .arr _ => false
  | _, .null => nullCounts
  | .string, .str _ => false
  | .time, .str _ => false
  | .bool, .bool _ => false
  | .int64, .num _ => false
  | .int, .num _ => false
  | .uint64, .num _ => false
  | .duration, .num _ => false
  | .struct _, .obj _ => false
  | _, _ => true

/-- Whether a JSON value is a number that is not a plain integer, at a place
of integer type. -/
def fractional : Ty → JSON → Bool
  | t, .num lit => t.isInteger && !isPlainInt lit
  | _, _ => false

mutual
/-- Whether a test holds somewhere in a JSON value read as a value of a type:
of the value itself, of the value a non-null JSON value gives a pointer, of an
element of an array read as a slice, or of a member of an object read into
the field its key selects. -/
def somewhere (p : Ty → JSON → Bool) : Ty → JSON → Bool
  | .ptr t, j => p (.ptr t) j || (!j.isNull && somewhere p t j)
  | .slice t, j =>
    p (.slice t) j ||
      (match j with
       | .arr xs => xs.any (somewhere p t)
       | _ => false)
  | .struct fs, j =>
    p (.struct fs) j ||
      (match j with
       | .obj kvs => kvs.any fun kv =>
          match fieldIndex fs kv.1 with
          | none => false
          | some i => somewhereAt p fs i kv.2
       | _ => false)
  | t, j => p t j
/-- The test `somewhere` for field number `i` of a struct. -/
def somewhereAt (p : Ty → JSON → Bool) : Fields → Nat → JSON → Bool
  | .nil, _, _ => false
  | .cons _ _ t _, 0, j => somewhere p t j
  | .cons _ _ _ rest, i + 1, j => somewhereAt p rest i j
end

/-! ## Optional fields -/

/-- The `omitempty` flag and the type of the field with the given key. -/
def fieldSpec : Fields → String → Option (Bool × Ty)
  | .nil, _ => none
  | .cons k om t rest, key => if k = key then some (om, t) else fieldSpec rest key

mutual
/-- Whether every field whose key is in `keys` is unset (holds an empty
value), in a value and in every record inside it. -/
def unset (keys : List String) : Ty → Val → Bool
  | .ptr t, .ptr v => unset keys t v
  | .slice t, .slice xs => xs.all (unset keys t)
  | .struct fs, .struct vs => unsetFields keys fs vs
  | _, _ => true
/-- The test `unset` for the fields of a struct. -/
def unsetFields (keys : List String) : Fields → List Val → Bool
  | .cons k _ t rest, v :: vs =>
    (!keys.contains k || isEmptyValue v) && unset keys t v && unsetFields keys rest vs
  | _, _ => true
end

mutual
/-- Whether every field with the given key, in a type and in every record
type inside it, is tagged `omitempty`. -/
def tagsOmit (key : String) : Ty → Bool
  | .ptr t => tagsOmit key t
  | .slice t => tagsOmit key t
  | .struct fs => tagsOmitFields key fs
  | _ => true
/-- The test `tagsOmit` for the fields of a struct. -/
def tagsOmitFields (key : String) : Fields → Bool
  | .nil => true
  | .cons k om t rest => (!decide (k = key) || om) && tagsOmit key t && tagsOmitFields key rest
end

/-- The value a variable of a type holds after JSON `null` has been decoded
into it: nil for a pointer and for a slice, the value it held before for every
other type. -/
def afterNull : Ty → Val → Val
  | .ptr _, _ => .nilPtr
  | .slice _, _ => .nilSlice
  | _, cur => cur

/-- The result of a computation that succeeded. -/
def okValue {α : Type} : Except Err α → Option α
  | .ok a => some a
  | .error _ => none

/-! ## Sample values -/

/-- A `Log` whose only content is one zero `Entry`. -/
def oneEntryLog : Val := withField LogT "entries" (.slice [zero EntryT]) (zero LogT)

/-- A `Log` whose only content is one zero `Page`. -/
def onePageLog : Val := withField LogT "pages" (.slice [zero PageT]) (zero LogT)

/-- A `Log` with one `Entry` whose `Time` is one millisecond. -/
def oneMillisecondLog : Val :=
  withField LogT "entries"
    (.slice [withField EntryT "time" (.int Millisecond) (zero EntryT)]) (zero LogT)

/-- The document `{"log":{"entries":[{"time":1500}]}}`: one entry that took
1500 milliseconds, in the units of HAR 1.2. -/
def duration1500Text : List Char :=
  "\x7b\"log\":\x7b\"entries\":[\x7b\"time\":1500\x7d]\x7d\x7d".data

/-- A `Log` with one `Page` started on January 1 of the year 10000, UTC. -/
def year10000Log : Val :=
  withField LogT "pages"
    (.slice [withField PageT "startedDateTime"
      (.ptr (.time ⟨10000, 1, 1, 0, 0, 0, 0, 0⟩)) (zero PageT)]) (zero LogT)

/-! ## The timestamps inside a value -/

mutual
/-- Whether a test holds of every `time.Time` inside a value. -/
def allTimes (p : Time → Bool) : Val → Bool
  | .time t => p t
  | .ptr v => allTimes p v
  | .slice xs => allTimesList p xs
  | .struct vs => allTimesList p vs
  | _ => true
/-- Whether `allTimes` holds of every value of a list. -/
def allTimesList (p : Time → Bool) : List Val → Bool
  | [] => true
  | v :: vs => allTimes p v && allTimesList p vs
end

/-- Whether the year has four digits. -/
def yearInRange (t : Time) : Bool := decide (0 ≤ t.year) && decide (t.year ≤ 9999)

/-- Whether the zone is UTC or its offset is less than 24 hours. -/
def zoneInRange (t : Time) : Bool := decide (t.offset = 0) || decide (t.offset.natAbs / 60 / 60 < 24)

/-- A `Log` read from a document whose only timestamp has the zone `+24:00`. -/
def zone24Text : List Char :=
  ("\x7b\"log\":\x7b\"pages\":[\x7b\"startedDateTime\":" ++
    "\"2024-02-29T13:05:09+24:00\"\x7d]\x7d\x7d").data

/-- Whether a text is empty or starts with a comma or a line break, the
characters `render` puts after an element. -/
def terminated : List Char → Bool
  | [] => true
  | c :: _ => decide (c = ',') || decide (c = '\n')

mutual
/-- Whether a JSON value can be read back at nesting depth `d`: its numbers
are integers in the decimal text `intLit` gives, and no array or object is
opened beyond `maxNestingDepth`. -/
def fits : Nat → JSON → Prop
  | _, .num lit => ∃ i : Int, lit = intLit i
  | d, .arr xs => d < maxNestingDepth ∧ fitsElems (d + 1) xs
  | d, .obj kvs => d < maxNestingDepth ∧ fitsMembers (d + 1) kvs
  | _, _ => True
/-- The test `fits` for the elements of an array. -/
def fitsElems : Nat → List JSON → Prop
  | _, [] => True
  | d, x :: xs => fits d x ∧ fitsElems d xs
/-- The test `fits` for the members of an object. -/
def fitsMembers : Nat → List (String × JSON) → Prop
  | _, [] => True
  | d, (_, x) :: kvs => fits d x ∧ fitsMembers d kvs
end

mutual
/-- A number of nested calls that suffices for `parseValue` to read a value. -/
def fuelFor : JSON → Nat
  | .arr xs => 1 + fuelForElems xs
  | .obj kvs => 1 + fuelForMembers kvs
  | _ => 1
/-- The bound `fuelFor` for the elements of an array. -/
def fuelForElems : List JSON → Nat
  | [] => 0
  | x :: xs => 1 + fuelFor x + fuelForElems xs
/-- The bound `fuelFor` for the members of an object. -/
def fuelForMembers : List (String × JSON) → Nat
  | [] => 0
  | (_, x) :: kvs => 1 + fuelFor x + fuelForMembers kvs
end

/-- The text of the elements of a non-empty array after the opening bracket
and the first line break. -/
def elemsText (d : Nat) : List JSON → List Char
  | [] => []
  | x :: xs => render (d + 1) x ++ renderElems d xs

/-- The text of the members of a non-empty object after the opening brace and
the first line break. -/
def membersText (d : Nat) : List (String × JSON) → List Char
  | [] => []
  | (k, x) :: kvs => quote k ++ ':' :: ' ' :: (render (d + 1) x ++ renderMembers d kvs)

mutual
/-- The number of arrays and objects nested in the JSON of a value of a
type. -/
def tyDepth : Ty → Nat
  | .ptr t => tyDepth t
  | .slice t => 1 + tyDepth t
  | .struct fs => 1 + fieldsDepth fs
  | _ => 0
/-- The largest `tyDepth` of the fields of a struct. -/
def fieldsDepth : Fields → Nat
  | .nil => 0
  | .cons _ _ t rest => max (tyDepth t) (fieldsDepth rest)
end

/-- Whether a `time.Time` is one that `Time.MarshalJSON` writes and
`Time.UnmarshalJSON` reads back unchanged: a date and clock of the calendar, a
year of four digits, and a zone offset of whole minutes below 24 hours. -/
def timeValid (t : Time) : Bool :=
  yearInRange t && decide (1 ≤ t.month) && decide (t.month ≤ 12) &&
    decide (1 ≤ t.day) && decide (t.day ≤ daysIn t.month t.year) &&
    decide (t.hour < 24) && decide (t.minute < 60) && decide (t.second < 60) &&
    decide (t.nano < 1000000000) && decide (t.offset % 60 = 0) &&
    decide (t.offset.natAbs / 60 / 60 < 24)

/-! ## Values up to nil and empty slices, and well-formed record types -/

mutual
/-- A value with every empty slice inside it replaced by the nil slice. -/
def norm : Val → Val
  | .ptr v => .ptr (norm v)
  | .slice xs => if xs.isEmpty then .nilSlice else .slice (normList xs)
  | .struct vs => .struct (normList vs)
  | v => v
/-- The function `norm` on every value of a list. -/
def normList : List Val → List Val
  | [] => []
  | v :: vs => norm v :: normList vs
end

/-- The fields of a struct from field number `n` on. -/
def dropF : Nat → Fields → Fields
  | 0, fs => fs
  | _ + 1, .nil => .nil
  | n + 1, .cons _ _ _ rest => dropF n rest

/-- Whether the key of each field of `rest`, the fields of `fs` from number
`n` on, selects that field when it is met in a JSON object. -/
def indexedFrom (fs : Fields) : Fields → Nat → Bool
  | .nil, _ => true
  | .cons k _ _ rest, n => decide (fieldIndex fs k = some n) && indexedFrom fs rest (n + 1)

/-- Whether the JSON of a value of a type can be `null`. -/
def Ty.nilable : Ty → Bool
  | .ptr _ => true
  | .slice _ => true
  | _ => false

mutual
/-- Whether a type is declared the way the records of `har.go` are: a pointer
points to a type that is never `null`, and the keys of a struct select its
fields one for one. -/
def soundTy : Ty → Bool
  | .ptr t => !t.nilable && soundTy t
  | .slice t => soundTy t
  | .struct fs => indexedFrom fs fs 0 && soundFields fs
  | _ => true
/-- The test `soundTy` for the types of the fields of a struct. -/
def soundFields : Fields → Bool
  | .nil => true
  | .cons _ _ t rest => soundTy t && soundFields rest
end

/-- Whether a `time.Time` has the properties of every time that
`Time.UnmarshalJSON` returns: a date and clock of the calendar, a year of four
digits and a zone offset of whole minutes. -/
def timeParsed (t : Time) : Bool :=
  yearInRange t && decide (1 ≤ t.month) && decide (t.month ≤ 12) &&
    decide (1 ≤ t.day) && decide (t.day ≤ daysIn t.month t.year) &&
    decide (t.hour < 24) && decide (t.minute < 60) && decide (t.second < 60) &&
    decide (t.nano < 1000000000) && decide (t.offset % 60 = 0)

/-- A header with the given name and value. -/
def sampleHeader (name value : String) : Val := .struct [.str name, .str value, .str ""]

/-- A request with two headers. -/
def sampleRequest : Val :=
  withField RequestT "method" (.str "GET")
    (withField RequestT "url" (.str "http://example.com/a?b=<c>")
      (withField RequestT "headers"
        (.slice [sampleHeader "Accept" "*/*", sampleHeader "Host" "example.com"])
        (zero RequestT)))

/-- A response whose content has a text and no encoding. -/
def sampleResponse : Val :=
  withField ResponseT "status" (.int 200)
    (withField ResponseT "content"
      (withField ContentT "size" (.int 3) (withField ContentT "text" (.str "abc") (zero ContentT)))
      (zero ResponseT))

/-- An entry with a start time, a duration, the sample request and response,
and no cache. -/
def sampleEntry : Val :=
  withField EntryT "startedDateTime" (.ptr (.time ⟨2024, 2, 29, 13, 5, 9, 500000000, 19800⟩))
    (withField EntryT "time" (.int 1500000)
      (withField EntryT "request" sampleRequest
        (withField EntryT "response" sampleResponse (zero EntryT))))

/-- A `Log` of version 1.2 with a creator and the sample entry. -/
def sampleLog : Val :=
  withField LogT "version" (.str "1.2")
    (withField LogT "creator" (.struct [.str "x", .str "1", .str ""])
      (withField LogT "entries" (.slice [sampleEntry]) (zero LogT)))

/-- A document with two entries, the first with two request headers. -/
def orderText : List Char :=
  ("\x7b\"log\":\x7b\"entries\":[\x7b\"request\":\x7b\"headers\":[" ++
    "\x7b\"name\":\"a\",\"value\":\"1\"\x7d,\x7b\"name\":\"b\",\"value\":\"2\"\x7d]\x7d\x7d," ++
    "\x7b\"pageref\":\"p\"\x7d]\x7d\x7d").data

/-! ## The order of the records of a sequence -/

/-- Whether a list of field numbers has no number twice. -/
def noRepeat : List Nat → Bool
  | [] => true
  | i :: is => !is.contains i && noRepeat is

/-- The fields the members of an object are stored in, member by member (a
member whose key matches no field is left out). -/
def targets (fs : Fields) (kvs : List (String × JSON)) : List Nat :=
  kvs.filterMap fun kv => fieldIndex fs kv.1

/-- Whether a JSON value read as a struct is an object two of whose members
are stored in the same field: the object repeats a key of the record. -/
def repeatedKey : Ty → JSON → Bool
  | .struct fs, .obj kvs => !noRepeat (targets fs kvs)
  | _, _ => false

mutual
/-- `inOrder T j v`: every sequence inside the value `v` of type `T` holds,
position by position, the records decoded from the elements of the array at
the same place of the JSON value `j` (each element being decoded into a zero
value of the element type), and so has as many records as the array has
elements.  The place of a field of a struct is every member of the object
that is stored in the field. -/
def inOrder : Ty → JSON → Val → Prop
  | .ptr t, j, v =>
    match j, v with
    | .null, .nilPtr => True
    | j, .ptr w => inOrder t j w
    | _, _ => False
  | .slice t, j, v =>
    match j, v with
    | .null, .nilSlice => True
    | .arr xs, .slice ys =>
      List.Forall₂ (fun x y => decode t (zero t) x = .ok y ∧ inOrder t x y) xs ys
    | _, _ => False
  | .struct fs, j, v =>
    match j, v with
    | .null, _ => True
    | .obj kvs, .struct vs =>
      ∀ kv ∈ kvs, ∀ i, fieldIndex fs kv.1 = some i → inOrderAt fs i kv.2 vs
    | _, _ => False
  | _, _, _ => True
/-- The relation `inOrder` between a JSON value and field number `i` of a
struct, which moreover holds the value decoded from the JSON value. -/
def inOrderAt : Fields → Nat → JSON → List Val → Prop
  | .cons _ _ t _, 0, j, v :: _ => decode t (zero t) j = .ok v ∧ inOrder t j v
  | .cons _ _ _ rest, i + 1, j, _ :: vs => inOrderAt rest i j vs
  | _, _, _, _ => False
end

mutual
/-- `outOrder T v j`: every sequence inside the value `v` of type `T` is, in
the JSON value `j`, an array that holds position by position the JSON written
for the records of the sequence, and so has as many elements as the sequence
has records.  The place of a field of a struct is the member of the object
with the key of the field. -/
def outOrder : Ty → Val → JSON → Prop
  | .ptr t, v, j =>
    match v, j with
    | .nilPtr, .null => True
    | .ptr w, j => outOrder t w j
    | _, _ => False
  | .slice t, v, j =>
    match v, j with
    | .nilSlice, .null => True
    | .slice ys, .arr zs =>
      List.Forall₂ (fun y z => encode t y = .ok z ∧ outOrder t y z) ys zs
    | _, _ => False
  | .struct fs, v, j =>
    match v, j with
    | .struct vs, .obj kvs => ∀ kv ∈ kvs, outOrderAt fs kv.1 vs kv.2
    | _, _ => False
  | _, _, _ => True
/-- The relation `outOrder` between the field with the given key of a struct
and a JSON value, which moreover is the JSON written for the field. -/
def outOrderAt : Fields → String → List Val → JSON → Prop
  | .cons k _ t rest, key, v :: vs, j =>
    if k = key then encode t v = .ok j ∧ outOrder t v j else outOrderAt rest key vs j
  | _, _, _, _ => False
end

mutual
/-- Whether no struct inside a type declares two fields with the same key. -/
def plainKeys : Ty → Bool
  | .ptr t => plainKeys t
  | .slice t => plainKeys t
  | .struct fs => decide fs.keys.Nodup && plainKeysFields fs
  | _ => true
/-- The test `plainKeys` for the types of the fields of a struct. -/
def plainKeysFields : Fields → Bool
  | .nil => true
  | .cons _ _ t rest => plainKeys t && plainKeysFields rest
end

/-- A document in which the key `"pages"` occurs twice in the `"log"` object:
`{"log":{"pages":[{"id":"a","title":"T"}],"pages":[{"id":"b"}]}}`. -/
def repeatedPagesText : List Char :=
  ("\x7b\"log\":\x7b\"pages\":[\x7b\"id\":\"a\",\"title\":\"T\"\x7d]," ++
    "\"pages\":[\x7b\"id\":\"b\"\x7d]\x7d\x7d").data

/-! ## The grammar of JSON texts

The texts that are JSON values, after RFC 8259, written down without reference
to the reader `parseValue`: a text is a JSON value when it is the text of a
syntax tree (`Tree.text`) that is well formed (`Tree.wf`).  The tree keeps
every character of the text: the literal of a scalar, the raw text of a key,
and the white space around the elements of an array and the members of an
object. -/

/-- One digit or more. -/
def isDigits1 (ds : List Char) : Bool := !ds.isEmpty && ds.all isDigit

/-- The production `int`: a single `0`, or a digit from 1 to 9 followed by any
number of digits. -/
def isIntText : List Char → Bool
  | [] => false
  | c :: ds => if c = '0' then ds.isEmpty else isDigit c && ds.all isDigit

/-- The production `[ frac ]`: nothing, or a decimal point followed by one
digit or more. -/
def isFracText : List Char → Bool
  | [] => true
  | c :: ds => decide (c = '.') && isDigits1 ds

/-- The production `[ exp ]`: nothing, or the letter `e` or `E`, an optional
sign, and one digit or more. -/
def isExpText : List Char → Bool
  | [] => true
  | c :: r =>
    (decide (c = 'e') || decide (c = 'E')) &&
      (match r with
       | [] => false
       | g :: ds => if g = '+' ∨ g = '-' then isDigits1 ds else isDigits1 (g :: ds))

/-- The production `number`: `[ minus ] int [ frac ] [ exp ]`. -/
def NumberText (t : List Char) : Prop :=
  ∃ sign int frac exp : List Char, t = sign ++ (int ++ (frac ++ exp)) ∧
    (sign = [] ∨ sign = ['-']) ∧ isIntText int = true ∧ isFracText frac = true ∧
    isExpText exp = true

/-- The text between the quotation marks of a string literal: any characters
other than the quotation mark, the backslash and the control characters below
U+0020, and escapes: a backslash followed by one of `"`, `\`, `/`, `b`, `f`,
`n`, `r`, `t`, or by `u` and four hexadecimal digits. -/
inductive StringBody : List Char → Prop where
  | nil : StringBody []
  | plain (c : Char) (r : List Char) : c ≠ dq → c ≠ bs → 32 ≤ c.toNat → StringBody r →
      StringBody (c :: r)
  | escape (e : Char) (r : List Char) : (simpleEscape e).isSome = true → StringBody r →
      StringBody (bs :: e :: r)
  | unicode (a b c d : Char) (r : List Char) : (hex4 a b c d).isSome = true → StringBody r →
      StringBody (bs :: 'u' :: a :: b :: c :: d :: r)

/-- The text of a scalar JSON value: one of the three literal names, a number
or a string literal. -/
def ScalarText (t : List Char) : Prop :=
  t = ['n', 'u', 'l', 'l'] ∨ t = ['t', 'r', 'u', 'e'] ∨ t = ['f', 'a', 'l', 's', 'e'] ∨
    NumberText t ∨ ∃ raw, t = dq :: (raw ++ [dq]) ∧ StringBody raw

mutual
/-- The syntax tree of a JSON text.  `ws` is the white space after the opening
bracket or brace. -/
inductive Tree where
  | scalar (text : List Char)
  | emptyArray (ws : List Char)
  | array (ws : List Char) (items : Items)
  | emptyObject (ws : List Char)
  | object (ws : List Char) (members : Members)
/-- The elements of a non-empty array, each with the white space before and
after it. -/
inductive Items where
  | last (before : List Char) (value : Tree) (after : List Char)
  | more (before : List Char) (value : Tree) (after : List Char) (rest : Items)
/-- The members of a non-empty object: the white space before the key, the
text of the key between its quotation marks, the white space before and after
the colon, the value, and the white space after it. -/
inductive Members where
  | last (before key mid1 mid2 : List Char) (value : Tree) (after : List Char)
  | more (before key mid1 mid2 : List Char) (value : Tree) (after : List Char)
      (rest : Members)
end

mutual
/-- The text of a syntax tree. -/
def Tree.text : Tree → List Char
  | .scalar t => t
  | .emptyArray ws => '[' :: (ws ++ [']'])
  | .array ws items => '[' :: (ws ++ items.text)
  | .emptyObject ws => Char.ofNat 123 :: (ws ++ [Char.ofNat 125])
  | .object ws members => Char.ofNat 123 :: (ws ++ members.text)
/-- The text of the elements of an array, separated by commas and closed by
the bracket. -/
def Items.text : Items → List Char
  | .last a v b => a ++ (v.text ++ (b ++ [']']))
  | .more a v b rest => a ++ (v.text ++ (b ++ ',' :: rest.text))
/-- The text of the members of an object, separated by commas and closed by
the brace. -/
def Members.text : Members → List Char
  | .last a k m1 m2 v b =>
    a ++ (dq :: (k ++ dq :: (m1 ++ ':' :: (m2 ++ (v.text ++ (b ++ [Char.ofNat 125]))))))
  | .more a k m1 m2 v b rest =>
    a ++ (dq :: (k ++ dq :: (m1 ++ ':' :: (m2 ++ (v.text ++ (b ++ ',' :: rest.text))))))
end

mutual
/-- Whether a syntax tree at nesting depth `d` is well formed: its scalars are
scalar texts, its keys string bodies, its white space is white space, and no
array or object is opened at depth `maxNestingDepth` or deeper. -/
def Tree.wf : Nat → Tree → Prop
  | _, .scalar t => ScalarText t
  | d, .emptyArray ws => d < maxNestingDepth ∧ ws.all isSpace = true
  | d, .array ws items => d < maxNestingDepth ∧ ws.all isSpace = true ∧ items.wf (d + 1)
  | d, .emptyObject ws => d < maxNestingDepth ∧ ws.all isSpace = true
  | d, .object ws members =>
    d < maxNestingDepth ∧ ws.all isSpace = true ∧ members.wf (d + 1)
/-- Well-formedness of the elements of an array. -/
def Items.wf : Nat → Items → Prop
  | d, .last a v b => a.all isSpace = true ∧ v.wf d ∧ b.all isSpace = true
  | d, .more a v b rest =>
    a.all isSpace = true ∧ v.wf d ∧ b.all isSpace = true ∧ rest.wf d
/-- Well-formedness of the members of an object. -/
def Members.wf : Nat → Members → Prop
  | d, .last a k m1 m2 v b =>
    a.all isSpace = true ∧ StringBody k ∧ m1.all isSpace = true ∧
      m2.all isSpace = true ∧ v.wf d ∧ b.all isSpace = true
  | d, .more a k m1 m2 v b rest =>
    a.all isSpace = true ∧ StringBody k ∧ m1.all isSpace = true ∧
      m2.all isSpace = true ∧ v.wf d ∧ b.all isSpace = true ∧ rest.wf d
end

/-- Whether a syntax tree is an object. -/
def Tree.isObject : Tree → Bool
  | .emptyObject _ => true
  | .object _ _ => true
  | _ => false

/-- Whether a syntax tree is a scalar. -/
def Tree.isScalar : Tree → Bool
  | .scalar _ => true
  | _ => false

mutual
/-- A number of nested calls that suffices for `parseValue` to read the text
of a syntax tree. -/
def Tree.fuel : Tree → Nat
  | .array _ items => 1 + items.fuel
  | .object _ members => 1 + members.fuel
  | _ => 1
/-- The bound `Tree.fuel` for the elements of an array. -/
def Items.fuel : Items → Nat
  | .last _ v _ => 1 + v.fuel
  | .more _ v _ rest => 1 + v.fuel + rest.fuel
/-- The bound `Tree.fuel` for the members of an object. -/
def Members.fuel : Members → Nat
  | .last _ _ _ _ v _ => 1 + v.fuel
  | .more _ _ _ _ v _ rest => 1 + v.fuel + rest.fuel
end

/-- Whether a text is empty or starts with a character that cannot continue a
number literal: no digit, no decimal point, no `e` or `E`. -/
def numStop : List Char → Bool
  | [] => true
  | c :: _ => !isDigit c && !decide (c = '.') && !decide (c = 'e') && !decide (c = 'E')

/-- A text starts with a JSON object: after optional white space comes the
text of a well-formed syntax tree that is an object, followed by any text. -/
def startsWithObject (r : List Char) : Prop :=
  ∃ (ws : List Char) (c : Tree) (rest : List Char), r = ws ++ (c.text ++ rest) ∧
    ws.all isSpace = true ∧ c.wf 0 ∧ c.isObject = true

/-! ## Theorems -/


/-! ### The envelope: a missing `"log"` key -/

theorem lookupLast_eq_none (key : String) (kvs : List (String × JSON))
    (h : ∀ kv ∈ kvs, kv.1 ≠ key) : lookupLast key kvs = none := by
  induction kvs with
  | nil => rfl
  | cons kv kvs ih =>
    have h1 : kv.1 ≠ key := h kv (List.mem_cons_self _ _)
    have h2 : lookupLast key kvs = none := ih fun x hx => h x (List.mem_cons_of_mem _ hx)
    simp [lookupLast, h2, h1]

/-- C2 (as stated, refuted): on the input `{}`, a well-formed JSON object
without a `"log"` key, `NewLog` returns a nil `*Log` and the error
"unexpected end of JSON input", not a zero-valued `Log` and a nil error. -/
theorem newLog_empty_object_fails :
    isObjectText "\x7b\x7d".data = true ∧
      NewLog "\x7b\x7d".data = (.nilPtr, some .unexpectedEnd) ∧
      NewLog "\x7b\x7d".data ≠ (.ptr (zero LogT), none) := by
  refine ⟨rfl, rfl, ?_⟩
  intro h
  have h2 := congrArg Prod.snd h
  exact absurd h2 (by decide)

/-- C2 (amended): for every input whose first JSON value is an object without
a `"log"` key, `NewLog` returns a nil `*Log` and the error of `json.Unmarshal`
on no input. -/
theorem newLog_missing_log_key (r : List Char) (kvs : List (String × JSON))
    (hv : firstValue r = some (.obj kvs)) (hk : ∀ kv ∈ kvs, kv.1 ≠ "log") :
    NewLog r = (.nilPtr, some .unexpectedEnd) := by
  simp [NewLog, decodeRoot, hv, lookupLast_eq_none "log" kvs hk, unmarshalLog]

theorem newLog_missing_log_key_witness :
    NewLog "\x7b\"other\":1\x7d".data = (.nilPtr, some .unexpectedEnd) :=
  newLog_missing_log_key "\x7b\"other\":1\x7d".data [("other", .num ['1'])] rfl
    (by intro kv h; simp at h; subst h; decide)

theorem parseInt_range (s : List Char) (i : Int) (h : parseInt s = some i) : inInt64 i = true := by
  unfold parseInt at h
  cases s with
  | nil => simp at h
  | cons c r =>
    simp only at h
    split at h
    · cases hu : parseUint r with
      | none => simp [hu] at h
      | some n =>
        simp only [hu, Option.bind] at h
        split at h
        · injection h with h; subst h; simp [inInt64]; omega
        · simp at h
    · split at h
      · cases hu : parseUint r with
        | none => simp [hu] at h
        | some n =>
          simp only [hu, Option.bind] at h
          split at h
          · injection h with h; subst h; simp [inInt64]; omega
          · simp at h
      · cases hu : parseUint (c :: r) with
        | none => simp [hu] at h
        | some n =>
          simp only [hu, Option.bind] at h
          split at h
          · injection h with h; subst h; simp [inInt64]; omega
          · simp at h

theorem parseUint_range (s : List Char) (n : Nat) (h : parseUint s = some n) :
    inUint64 (n : Int) = true := by
  unfold parseUint at h
  cases s with
  | nil => simp at h
  | cons c r =>
    simp only at h
    cases hd : parseDigits (c :: r) 0 with
    | none => simp [hd] at h
    | some m =>
      simp only [hd, Option.bind] at h
      by_cases hlt : m < 2 ^ 64
      · rw [if_pos hlt] at h
        have h2 : m = n := Option.some.inj h
        subst h2
        simp only [inUint64, Bool.and_eq_true, decide_eq_true_eq]
        constructor
        · exact Int.natCast_nonneg m
        · exact_mod_cast hlt
      · rw [if_neg hlt] at h
        simp at h

/-! ### `decode` keeps values well typed -/

mutual
theorem hasType_zero : ∀ T : Ty, hasType T (zero T) = true
  | .string => rfl
  | .bool => rfl
  | .int64 => rfl
  | .int => rfl
  | .uint64 => rfl
  | .duration => rfl
  | .time => rfl
  | .ptr _ => rfl
  | .slice _ => rfl
  | .struct fs => by simpa [zero, hasType] using hasFieldTypes_zero fs
theorem hasFieldTypes_zero : ∀ fs : Fields, hasFieldTypes fs (zeroFields fs) = true
  | .nil => rfl
  | .cons _ _ t rest => by simp [zeroFields, hasFieldTypes, hasType_zero t, hasFieldTypes_zero rest]
end

theorem decodeElems_typed (f : Val → JSON → Except Err Val) (z : Val) (P : Val → Prop)
    (hz : P z) (hf : ∀ c j v, P c → f c j = .ok v → P v) :
    ∀ (xs : List JSON) (olds vs : List Val), (∀ o ∈ olds, P o) →
      decodeElems f z olds xs = .ok vs → ∀ v ∈ vs, P v := by
  intro xs
  induction xs with
  | nil => intro olds vs _ h; simp [decodeElems] at h; subst h; simp
  | cons x xs ih =>
    intro olds vs ho h
    cases olds with
    | nil =>
      simp only [decodeElems] at h
      cases hfx : f z x with
      | error e => simp [hfx] at h
      | ok v =>
        simp only [hfx] at h
        cases hr : decodeElems f z [] xs with
        | error e => simp [hr] at h
        | ok vs2 =>
          simp only [hr] at h
          injection h with h; subst h
          intro w hw
          rcases List.mem_cons.mp hw with h1 | h1
          · subst h1; exact hf _ _ _ hz hfx
          · exact ih [] vs2 (by simp) hr w h1
    | cons o os =>
      simp only [decodeElems] at h
      cases hfx : f o x with
      | error e => simp [hfx] at h
      | ok v =>
        simp only [hfx] at h
        cases hr : decodeElems f z os xs with
        | error e => simp [hr] at h
        | ok vs2 =>
          simp only [hr] at h
          injection h with h; subst h
          intro w hw
          rcases List.mem_cons.mp hw with h1 | h1
          · subst h1; exact hf _ _ _ (ho o (List.mem_cons_self _ _)) hfx
          · exact ih os vs2 (fun a ha => ho a (List.mem_cons_of_mem _ ha)) hr w h1

theorem foldE_inv (f : List Val → String × JSON → Except Err (List Val)) (P : List Val → Prop)
    (hf : ∀ vs kv vs2, P vs → f vs kv = .ok vs2 → P vs2) :
    ∀ (kvs : List (String × JSON)) (vs vs2 : List Val), P vs → foldE f vs kvs = .ok vs2 → P vs2 := by
  intro kvs
  induction kvs with
  | nil => intro vs vs2 hp h; simp [foldE] at h; subst h; exact hp
  | cons kv kvs ih =>
    intro vs vs2 hp h
    simp only [foldE] at h
    cases hfx : f vs kv with
    | error e => simp [hfx] at h
    | ok v => simp only [hfx] at h; exact ih v vs2 (hf _ _ _ hp hfx) h

theorem hasType_pointee (t : Ty) (cur : Val) (h : hasType (.ptr t) cur = true) :
    hasType t (pointee (zero t) cur) = true := by
  cases cur <;> simp_all [pointee, hasType, hasType_zero]

theorem hasType_elements (t : Ty) (cur : Val) (h : hasType (.slice t) cur = true) :
    ∀ o ∈ elements cur, hasType t o = true := by
  cases cur <;> simp_all [elements, hasType]

theorem hasType_fieldsOf (fs : Fields) (cur : Val) (h : hasType (.struct fs) cur = true) :
    hasFieldTypes fs (fieldsOf (zeroFields fs) cur) = true := by
  cases cur <;> simp_all [fieldsOf, hasType, hasFieldTypes_zero]

mutual
theorem decode_typed : ∀ (T : Ty) (cur : Val) (j : JSON) (v : Val),
    hasType T cur = true → decode T cur j = .ok v → hasType T v = true
  | .string, cur, j, v, hc, h => by
    cases j <;> simp [decode] at h <;> subst h <;> first | exact hc | rfl
  | .bool, cur, j, v, hc, h => by
    cases j <;> simp [decode] at h <;> subst h <;> first | exact hc | rfl
  | .int64, cur, j, v, hc, h => by
    cases j with
    | null => simp [decode] at h; subst h; exact hc
    | num lit =>
      simp only [decode] at h
      cases hp : parseInt lit with
      | none => simp [hp] at h
      | some i => simp [hp] at h; subst h; exact parseInt_range lit i hp
    | _ => simp [decode] at h
  | .int, cur, j, v, hc, h => by
    cases j with
    | null => simp [decode] at h; subst h; exact hc
    | num lit =>
      simp only [decode] at h
      cases hp : parseInt lit with
      | none => simp [hp] at h
      | some i => simp [hp] at h; subst h; exact parseInt_range lit i hp
    | _ => simp [decode] at h
  | .duration, cur, j, v, hc, h => by
    cases j with
    | null => simp [decode] at h; subst h; exact hc
    | num lit =>
      simp only [decode] at h
      cases hp : parseInt lit with
      | none => simp [hp] at h
      | some i => simp [hp] at h; subst h; exact parseInt_range lit i hp
    | _ => simp [decode] at h
  | .uint64, cur, j, v, hc, h => by
    cases j with
    | null => simp [decode] at h; subst h; exact hc
    | num lit =>
      simp only [decode] at h
      cases hp : parseUint lit with
      | none => simp [hp] at h
      | some i => simp [hp] at h; subst h; exact parseUint_range lit i hp
    | _ => simp [decode] at h
  | .time, cur, j, v, hc, h => by
    cases j with
    | null => simp [decode] at h; subst h; exact hc
    | str s =>
      simp only [decode] at h
      cases hp : unmarshalTime s with
      | error e => simp [hp] at h
      | ok t => simp [hp] at h; subst h; rfl
    | _ => simp [decode] at h
  | .ptr t, cur, j, v, hc, h => by
    have key : ∀ w, decode t (pointee (zero t) cur) j = .ok w → hasType t w = true :=
      fun w hw => decode_typed t _ j w (hasType_pointee t cur hc) hw
    cases j <;> simp only [decode] at h
    case null => injection h with h; subst h; rfl
    all_goals
      split at h
      · injection h with h; subst h; simp only [hasType]; exact key _ (by assumption)
      · simp at h
  | .slice t, cur, j, v, hc, h => by
    cases j <;> simp only [decode] at h
    case null => injection h with h; subst h; rfl
    case arr xs =>
      split at h
      · rename_i vs hvs
        injection h with h; subst h
        simp only [hasType, List.all_eq_true]
        exact decodeElems_typed (decode t) (zero t) (fun x => hasType t x = true)
          (hasType_zero t) (fun c j v hc h => decode_typed t c j v hc h) xs _ vs
          (hasType_elements t cur hc) hvs
      · simp at h
    all_goals simp at h
  | .struct fs, cur, j, v, hc, h => by
    cases j <;> simp only [decode] at h
    case null => injection h with h; subst h; exact hc
    case obj kvs =>
      split at h
      · rename_i vs hvs
        injection h with h; subst h
        simp only [hasType]
        refine foldE_inv _ (fun vs => hasFieldTypes fs vs = true) ?_ kvs _ vs
          (hasType_fieldsOf fs cur hc) hvs
        intro vs kv vs2 hp hf
        split at hf
        · injection hf with hf; subst hf; exact hp
        · exact decodeAt_typed fs _ vs kv.2 vs2 hp hf
      · simp at h
    all_goals simp at h
theorem decodeAt_typed : ∀ (fs : Fields) (i : Nat) (vs : List Val) (j : JSON) (vs2 : List Val),
    hasFieldTypes fs vs = true → decodeAt fs i vs j = .ok vs2 → hasFieldTypes fs vs2 = true
  | .nil, i, vs, j, vs2, hc, h => by
    simp [decodeAt] at h; subst h; exact hc
  | .cons k om t rest, i, [], j, vs2, hc, h => by
    simp [hasFieldTypes] at hc
  | .cons k om t rest, 0, v :: vs, j, vs2, hc, h => by
    simp only [hasFieldTypes, Bool.and_eq_true] at hc
    simp only [decodeAt] at h
    split at h
    · rename_i w hw
      injection h with h; subst h
      simp only [hasFieldTypes, Bool.and_eq_true]
      exact ⟨decode_typed t v j w hc.1 hw, hc.2⟩
    · simp at h
  | .cons k om t rest, i + 1, v :: vs, j, vs2, hc, h => by
    simp only [hasFieldTypes, Bool.and_eq_true] at hc
    simp only [decodeAt] at h
    split at h
    · rename_i w hw
      injection h with h; subst h
      simp only [hasFieldTypes, Bool.and_eq_true]
      exact ⟨hc.1, decodeAt_typed rest i vs j w hc.2 hw⟩
    · simp at h
end

/-! ### Values the decoder rejects -/

theorem parseDigits_all (s : List Char) : ∀ (a n : Nat), parseDigits s a = some n →
    s.all isDigit = true := by
  induction s with
  | nil => intro a n _; rfl
  | cons c cs ih =>
    intro a n h
    simp only [parseDigits] at h
    split at h
    · rename_i hc
      simp only [List.all_cons, hc, Bool.true_and]
      exact ih _ _ h
    · simp at h

theorem parseUint_plain (s : List Char) (n : Nat) (h : parseUint s = some n) :
    s ≠ [] ∧ s.all isDigit = true ∧ parseDigits s 0 = some n := by
  unfold parseUint at h
  cases s with
  | nil => simp at h
  | cons c r =>
    simp only at h
    cases hd : parseDigits (c :: r) 0 with
    | none => simp [hd] at h
    | some m =>
      simp only [hd, Option.bind] at h
      by_cases hlt : m < 2 ^ 64
      · rw [if_pos hlt] at h
        have h2 : m = n := Option.some.inj h
        subst h2
        exact ⟨by simp, parseDigits_all _ _ _ hd, rfl⟩
      · rw [if_neg hlt] at h; simp at h

theorem isDigit_ne_minus (c : Char) (h : isDigit c = true) : c ≠ '-' ∧ c ≠ '+' := by
  constructor <;> intro hc <;> subst hc <;> simp [isDigit] at h

theorem parseUint_isPlainInt (s : List Char) (n : Nat) (h : parseUint s = some n) :
    isPlainInt s = true ∧ plainIntValue s = some (n : Int) := by
  obtain ⟨hne, hall, hd⟩ := parseUint_plain s n h
  cases s with
  | nil => exact absurd rfl hne
  | cons c r =>
    have hc : isDigit c = true := by simp only [List.all_cons, Bool.and_eq_true] at hall; exact hall.1
    obtain ⟨h1, h2⟩ := isDigit_ne_minus c hc
    simp only [isPlainInt, plainIntValue, h1, h2, or_self, if_false, hall, hd, Option.map]
    simp

theorem parseInt_isPlainInt (s : List Char) (i : Int) (h : parseInt s = some i) :
    isPlainInt s = true ∧ plainIntValue s = some i := by
  unfold parseInt at h
  cases s with
  | nil => simp at h
  | cons c r =>
    simp only at h
    by_cases hm : c = '-'
    · rw [if_pos hm] at h
      cases hu : parseUint r with
      | none => simp [hu] at h
      | some n =>
        obtain ⟨hne, hall, hd⟩ := parseUint_plain r n hu
        simp only [hu, Option.bind] at h
        split at h
        · have h2 := Option.some.inj h
          subst h2
          have hr : r.isEmpty = false := by cases r <;> simp_all
          simp [isPlainInt, plainIntValue, hm, hall, hd, hr]
        · simp at h
    · rw [if_neg hm] at h
      by_cases hp : c = '+'
      · rw [if_pos hp] at h
        cases hu : parseUint r with
        | none => simp [hu] at h
        | some n =>
          obtain ⟨hne, hall, hd⟩ := parseUint_plain r n hu
          simp only [hu, Option.bind] at h
          split at h
          · have h2 := Option.some.inj h
            subst h2
            have hr : r.isEmpty = false := by cases r <;> simp_all
            simp [isPlainInt, plainIntValue, hp, hall, hd, hr]
          · simp at h
      · rw [if_neg hp] at h
        cases hu : parseUint (c :: r) with
        | none => simp [hu] at h
        | some n =>
          obtain ⟨hne, hall, hd⟩ := parseUint_plain (c :: r) n hu
          simp only [hu, Option.bind] at h
          split at h
          · have h2 := Option.some.inj h
            subst h2
            simp only [isPlainInt, plainIntValue, hm, hp, or_self, if_false, hall, hd, Option.map]
            simp
          · simp at h

theorem decodeElems_rejects (f : Val → JSON → Except Err Val) (z : Val) (P : Val → Prop)
    (bad : JSON → Prop) (hz : P z)
    (hbad : ∀ c x v, P c → bad x → f c x ≠ .ok v) :
    ∀ (xs : List JSON) (olds : List Val), (∀ o ∈ olds, P o) → (∃ x ∈ xs, bad x) →
      ∀ vs, decodeElems f z olds xs ≠ .ok vs := by
  intro xs
  induction xs with
  | nil => intro olds _ hx; simp at hx
  | cons x xs ih =>
    intro olds ho hx vs h
    have step : ∀ (c : Val) (os : List Val), P c → (∀ o ∈ os, P o) →
        (match f c x with
          | Except.error e => (Except.error e : Except Err (List Val))
          | Except.ok v =>
            match decodeElems f z os xs with
            | Except.error e => Except.error e
            | Except.ok vs => Except.ok (v :: vs)) = Except.ok vs → False := by
      intro c os hc hos h
      cases hfx : f c x with
      | error e => simp [hfx] at h
      | ok v =>
        simp only [hfx] at h
        cases hr : decodeElems f z os xs with
        | error e => simp [hr] at h
        | ok vs2 =>
          obtain ⟨y, hy, hby⟩ := hx
          rcases List.mem_cons.mp hy with h1 | h1
          · subst h1; exact hbad c y v hc hby hfx
          · exact ih os hos ⟨y, h1, hby⟩ vs2 hr
    cases olds with
    | nil => simp only [decodeElems] at h; exact step z [] hz (by simp) h
    | cons o os =>
      simp only [decodeElems] at h
      exact step o os (ho o (List.mem_cons_self _ _))
        (fun a ha => ho a (List.mem_cons_of_mem _ ha)) h

theorem foldE_rejects (f : List Val → String × JSON → Except Err (List Val))
    (P : List Val → Prop) (bad : String × JSON → Prop)
    (hf : ∀ vs kv vs2, P vs → f vs kv = .ok vs2 → P vs2)
    (hbad : ∀ vs kv vs2, P vs → bad kv → f vs kv ≠ .ok vs2) :
    ∀ (kvs : List (String × JSON)) (vs : List Val), P vs → (∃ kv ∈ kvs, bad kv) →
      ∀ vs2, foldE f vs kvs ≠ .ok vs2 := by
  intro kvs
  induction kvs with
  | nil => intro vs _ hx; simp at hx
  | cons kv kvs ih =>
    intro vs hp hx vs2 h
    simp only [foldE] at h
    cases hfx : f vs kv with
    | error e => simp [hfx] at h
    | ok w =>
      simp only [hfx] at h
      obtain ⟨y, hy, hby⟩ := hx
      rcases List.mem_cons.mp hy with h1 | h1
      · subst h1; exact hbad vs y w hp hby hfx
      · exact ih w (hf _ _ _ hp hfx) ⟨y, h1, hby⟩ vs2 h

theorem decode_ptr_ok (t : Ty) (cur : Val) (j : JSON) (v : Val) (hn : j.isNull = false)
    (h : decode (.ptr t) cur j = .ok v) :
    ∃ w, decode t (pointee (zero t) cur) j = .ok w ∧ v = .ptr w := by
  cases j <;> simp only [decode] at h
  case null => simp [JSON.isNull] at hn
  all_goals
    split at h
    · rename_i w hw; injection h with h; exact ⟨w, hw, h.symm⟩
    · simp at h

mutual
theorem decode_rejects (p : Ty → JSON → Bool)
    (hp : ∀ T j cur v, p T j = true → decode T cur j ≠ .ok v) :
    ∀ (T : Ty) (cur : Val) (j : JSON) (v : Val),
      hasType T cur = true → somewhere p T j = true → decode T cur j ≠ .ok v
  | .string, cur, j, v, _, hs => by simp only [somewhere] at hs; exact hp _ _ _ _ hs
  | .bool, cur, j, v, _, hs => by simp only [somewhere] at hs; exact hp _ _ _ _ hs
  | .int64, cur, j, v, _, hs => by simp only [somewhere] at hs; exact hp _ _ _ _ hs
  | .int, cur, j, v, _, hs => by simp only [somewhere] at hs; exact hp _ _ _ _ hs
  | .uint64, cur, j, v, _, hs => by simp only [somewhere] at hs; exact hp _ _ _ _ hs
  | .duration, cur, j, v, _, hs => by simp only [somewhere] at hs; exact hp _ _ _ _ hs
  | .time, cur, j, v, _, hs => by simp only [somewhere] at hs; exact hp _ _ _ _ hs
  | .ptr t, cur, j, v, hc, hs => by
    simp only [somewhere, Bool.or_eq_true, Bool.and_eq_true, Bool.not_eq_true'] at hs
    rcases hs with hs | ⟨hn, hs⟩
    · exact hp _ _ _ _ hs
    · intro h
      obtain ⟨w, hw, _⟩ := decode_ptr_ok t cur j v hn h
      exact decode_rejects p hp t _ j w (hasType_pointee t cur hc) hs hw
  | .slice t, cur, j, v, hc, hs => by
    simp only [somewhere, Bool.or_eq_true] at hs
    rcases hs with hs | hs
    · exact hp _ _ _ _ hs
    · cases j <;> simp only [List.any_eq_true] at hs <;> try (simp at hs)
      case arr xs =>
        intro h
        simp only [decode] at h
        split at h
        · rename_i vs hvs
          exact decodeElems_rejects (decode t) (zero t) (fun x => hasType t x = true)
            (fun x => somewhere p t x = true) (hasType_zero t)
            (fun c x v hc hb => decode_rejects p hp t c x v hc hb) xs _
            (hasType_elements t cur hc) hs vs hvs
        · simp at h
  | .struct fs, cur, j, v, hc, hs => by
    simp only [somewhere, Bool.or_eq_true] at hs
    rcases hs with hs | hs
    · exact hp _ _ _ _ hs
    · cases j <;> simp only [List.any_eq_true] at hs <;> try (simp at hs)
      case obj kvs =>
        intro h
        simp only [decode] at h
        split at h
        · rename_i vs hvs
          obtain ⟨a, b, hm, hb⟩ := hs
          have hs : ∃ kv ∈ kvs, (match fieldIndex fs kv.1 with
              | none => false
              | some i => somewhereAt p fs i kv.2) = true := ⟨(a, b), hm, hb⟩
          refine foldE_rejects _ (fun vs => hasFieldTypes fs vs = true)
            (fun kv => (match fieldIndex fs kv.1 with
              | none => false
              | some i => somewhereAt p fs i kv.2) = true) ?_ ?_ kvs _
            (hasType_fieldsOf fs cur hc) hs vs hvs
          · intro vs kv vs2 hP hf
            split at hf
            · injection hf with hf; subst hf; exact hP
            · exact decodeAt_typed fs _ vs kv.2 vs2 hP hf
          · intro vs kv vs2 hP hb hf
            cases hi : fieldIndex fs kv.1 with
            | none => simp [hi] at hb
            | some i =>
              simp only [hi] at hb hf
              exact decodeAt_rejects p hp fs i vs kv.2 vs2 hP hb hf
        · simp at h
theorem decodeAt_rejects (p : Ty → JSON → Bool)
    (hp : ∀ T j cur v, p T j = true → decode T cur j ≠ .ok v) :
    ∀ (fs : Fields) (i : Nat) (vs : List Val) (j : JSON) (vs2 : List Val),
      hasFieldTypes fs vs = true → somewhereAt p fs i j = true → decodeAt fs i vs j ≠ .ok vs2
  | .nil, i, vs, j, vs2, _, hs => by simp [somewhereAt] at hs
  | .cons k om t rest, i, [], j, vs2, hc, _ => by simp [hasFieldTypes] at hc
  | .cons k om t rest, 0, v :: vs, j, vs2, hc, hs => by
    simp only [hasFieldTypes, Bool.and_eq_true] at hc
    simp only [somewhereAt] at hs
    intro h
    simp only [decodeAt] at h
    split at h
    · rename_i w hw; exact decode_rejects p hp t v j w hc.1 hs hw
    · simp at h
  | .cons k om t rest, i + 1, v :: vs, j, vs2, hc, hs => by
    simp only [hasFieldTypes, Bool.and_eq_true] at hc
    simp only [somewhereAt] at hs
    intro h
    simp only [decodeAt] at h
    split at h
    · rename_i w hw; exact decodeAt_rejects p hp rest i vs j w hc.2 hs hw
    · simp at h
end

theorem kindConflict_rejects (T : Ty) (j : JSON) (cur v : Val)
    (h : kindConflict false T j = true) : decode T cur j ≠ .ok v := by
  cases T <;> cases j <;> simp [kindConflict] at h <;> simp [decode]

theorem fractional_rejects (T : Ty) (j : JSON) (cur v : Val)
    (h : fractional T j = true) : decode T cur j ≠ .ok v := by
  cases j <;> simp only [fractional, Bool.and_eq_true, Bool.not_eq_true'] at h <;> try (simp at h)
  case num lit =>
    obtain ⟨hT, hl⟩ := h
    intro hd
    cases T <;> simp [Ty.isInteger] at hT <;> simp only [decode] at hd
    case uint64 =>
      cases hp : parseUint lit with
      | none => simp [hp] at hd
      | some n => rw [(parseUint_isPlainInt lit n hp).1] at hl; simp at hl
    all_goals
      cases hp : parseInt lit with
      | none => simp [hp] at hd
      | some n => rw [(parseInt_isPlainInt lit n hp).1] at hl; simp at hl

theorem newLog_rejects (p : Ty → JSON → Bool)
    (hp : ∀ T j cur v, p T j = true → decode T cur j ≠ .ok v)
    (r : List Char) (kvs : List (String × JSON)) (j : JSON)
    (hv : firstValue r = some (.obj kvs)) (hl : lookupLast "log" kvs = some j)
    (hc : somewhere p LogT j = true) :
    (NewLog r).1 = .nilPtr ∧ (NewLog r).2 ≠ none := by
  simp only [NewLog, decodeRoot, hv, hl, unmarshalLog]
  cases hd : decode LogT (zero LogT) j with
  | error e => simp
  | ok v => exact absurd hd (decode_rejects p hp LogT _ j v (hasType_zero LogT) hc)

/-- C4 (as stated, refuted): in `{"log":{"version":null}}` the field `version`,
declared a string, holds a value of JSON type null, yet `NewLog` returns a
`Log` and a nil error. -/
theorem newLog_accepts_null_field :
    somewhere (kindConflict true) LogT (.obj [("version", .null)]) = true ∧
      firstValue "\x7b\"log\":\x7b\"version\":null\x7d\x7d".data =
        some (.obj [("log", .obj [("version", .null)])]) ∧
      NewLog "\x7b\"log\":\x7b\"version\":null\x7d\x7d".data = (.ptr (zero LogT), none) :=
  ⟨rfl, rfl, rfl⟩

/-- C4 (amended): for every input whose `"log"` value holds, at the place of
a field of the model, a JSON value other than `null` whose JSON type is not
the one the declared type of the field takes, `NewLog` returns a nil `*Log`
and a non-nil error.  JSON `null` is never such a conflict: decoded into a
variable of any type it gives no error, sets a pointer or a slice to nil and
leaves a variable of any other type as it is. -/
theorem newLog_rejects_type_conflict :
    (∀ (r : List Char) (kvs : List (String × JSON)) (j : JSON),
      firstValue r = some (.obj kvs) → lookupLast "log" kvs = some j →
      somewhere (kindConflict false) LogT j = true →
      (NewLog r).1 = .nilPtr ∧ (NewLog r).2 ≠ none) ∧
    (∀ (T : Ty) (cur : Val), decode T cur .null = .ok (afterNull T cur)) := by
  refine ⟨fun r kvs j hv hl hc =>
    newLog_rejects (kindConflict false) kindConflict_rejects r kvs j hv hl hc, ?_⟩
  intro T cur
  cases T <;> simp [decode, afterNull]

theorem newLog_rejects_type_conflict_witness :
    (NewLog ("\x7b\"log\":\x7b\"entries\":[\x7b\"response\":" ++
        "\x7b\"status\":\"200\"\x7d\x7d]\x7d\x7d").data).1 = .nilPtr ∧
    (NewLog ("\x7b\"log\":\x7b\"entries\":[\x7b\"response\":" ++
        "\x7b\"status\":\"200\"\x7d\x7d]\x7d\x7d").data).2 ≠ none :=
  newLog_rejects_type_conflict.1 _
    [("log", .obj [("entries", .arr [.obj [("response", .obj [("status", .str "200")])]])])]
    (.obj [("entries", .arr [.obj [("response", .obj [("status", .str "200")])]])])
    rfl rfl rfl

/-- C10: for every input in which a field of integer or duration type holds a
JSON number that is not written as a plain integer, `NewLog` returns a nil
`*Log` and a non-nil error; and a number literal is stored in a field of
such a type only if it is a plain integer literal whose value is in the range
of the type, the field then holding that value. -/
theorem newLog_integer_fields :
    (∀ (r : List Char) (kvs : List (String × JSON)) (j : JSON),
      firstValue r = some (.obj kvs) → lookupLast "log" kvs = some j →
      somewhere fractional LogT j = true →
      (NewLog r).1 = .nilPtr ∧ (NewLog r).2 ≠ none) ∧
    (∀ (T : Ty) (cur v : Val) (lit : List Char),
      T.isInteger = true → hasType T cur = true → decode T cur (.num lit) = .ok v →
      isPlainInt lit = true ∧ hasType T v = true ∧
        ∃ i, plainIntValue lit = some i ∧ v = .int i) := by
  constructor
  · intro r kvs j hv hl hc
    exact newLog_rejects fractional fractional_rejects r kvs j hv hl hc
  · intro T cur v lit hT hc hd
    have ht := decode_typed T cur (.num lit) v hc hd
    refine ⟨?_, ht, ?_⟩
    · by_contra hn
      have hf : fractional T (.num lit) = true := by simp [fractional, hT, hn]
      exact fractional_rejects T (.num lit) cur v hf hd
    · cases T <;> simp [Ty.isInteger] at hT <;> simp only [decode] at hd
      case uint64 =>
        cases hp : parseUint lit with
        | none => simp [hp] at hd
        | some n =>
          simp only [hp] at hd
          injection hd with hd
          exact ⟨n, (parseUint_isPlainInt lit n hp).2, hd.symm⟩
      all_goals
        cases hp : parseInt lit with
        | none => simp [hp] at hd
        | some n =>
          simp only [hp] at hd
          injection hd with hd
          exact ⟨n, (parseInt_isPlainInt lit n hp).2, hd.symm⟩

theorem newLog_integer_fields_witness :
    ((NewLog "\x7b\"log\":\x7b\"entries\":[\x7b\"time\":1.5\x7d]\x7d\x7d".data).1 = .nilPtr ∧
      (NewLog "\x7b\"log\":\x7b\"entries\":[\x7b\"time\":1.5\x7d]\x7d\x7d".data).2 ≠ none) ∧
    ((NewLog "\x7b\"log\":\x7b\"entries\":[\x7b\"timings\":\x7b\"dns\":12.0\x7d\x7d]\x7d\x7d".data).1 = .nilPtr ∧
      (NewLog "\x7b\"log\":\x7b\"entries\":[\x7b\"timings\":\x7b\"dns\":12.0\x7d\x7d]\x7d\x7d".data).2 ≠ none) ∧
    (isPlainInt "200".data = true ∧ hasType .int (.int 200) = true ∧
      ∃ i, plainIntValue "200".data = some i ∧ Val.int 200 = .int i) :=
  ⟨newLog_integer_fields.1 _
      [("log", .obj [("entries", .arr [.obj [("time", .num "1.5".data)]])])]
      (.obj [("entries", .arr [.obj [("time", .num "1.5".data)]])]) rfl rfl rfl,
   newLog_integer_fields.1 _
      [("log", .obj [("entries", .arr [.obj [("timings", .obj [("dns", .num "12.0".data)])]])])]
      (.obj [("entries", .arr [.obj [("timings", .obj [("dns", .num "12.0".data)])]])]) rfl rfl rfl,
   newLog_integer_fields.2 .int (.int 0) (.int 200) "200".data rfl rfl rfl⟩

/-! ### Keys that `encode` leaves out -/

theorem mapE_forall (f : Val → Except Err JSON) (P : Val → Prop) (Q : List JSON → Prop)
    (hnil : Q []) (hcons : ∀ x j js, P x → f x = .ok j → Q js → Q (j :: js)) :
    ∀ (xs : List Val) (js : List JSON), (∀ x ∈ xs, P x) → mapE f xs = .ok js → Q js := by
  intro xs
  induction xs with
  | nil => intro js _ h; simp [mapE] at h; subst h; exact hnil
  | cons x xs ih =>
    intro js hP h
    simp only [mapE] at h
    cases hfx : f x with
    | error e => simp [hfx] at h
    | ok j =>
      simp only [hfx] at h
      cases hr : mapE f xs with
      | error e => simp [hr] at h
      | ok js2 =>
        simp only [hr] at h
        injection h with h; subst h
        exact hcons x j js2 (hP x (List.mem_cons_self _ _)) hfx
          (ih js2 (fun a ha => hP a (List.mem_cons_of_mem _ ha)) hr)

mutual
theorem encode_noKey (keys : List String) (key : String) (hk : keys.contains key = true) :
    ∀ (T : Ty) (v : Val) (j : JSON), unset keys T v = true → tagsOmit key T = true →
      encode T v = .ok j → hasKey key j = false
  | .string, v, j, _, _, h => by cases v <;> simp [encode] at h; subst h; rfl
  | .bool, v, j, _, _, h => by cases v <;> simp [encode] at h; subst h; rfl
  | .int64, v, j, _, _, h => by cases v <;> simp [encode] at h; subst h; rfl
  | .int, v, j, _, _, h => by cases v <;> simp [encode] at h; subst h; rfl
  | .uint64, v, j, _, _, h => by cases v <;> simp [encode] at h; subst h; rfl
  | .duration, v, j, _, _, h => by cases v <;> simp [encode] at h; subst h; rfl
  | .time, v, j, _, _, h => by
    cases v <;> simp only [encode] at h <;> try (simp at h)
    split at h
    · simp at h
    · injection h with h; subst h; rfl
  | .ptr t, v, j, hu, ht, h => by
    cases v <;> simp only [encode] at h <;> try (simp at h)
    case nilPtr => subst h; rfl
    case ptr w =>
      simp only [unset] at hu
      simp only [tagsOmit] at ht
      exact encode_noKey keys key hk t w j hu ht h
  | .slice t, v, j, hu, ht, h => by
    cases v <;> simp only [encode] at h <;> try (simp at h)
    case nilSlice => subst h; rfl
    case slice xs =>
      simp only [unset, List.all_eq_true] at hu
      simp only [tagsOmit] at ht
      split at h
      · simp at h
      · rename_i js hjs
        injection h with h; subst h
        simp only [hasKey]
        exact mapE_forall (encode t) (fun x => unset keys t x = true)
          (fun js => hasKeyElems key js = false) rfl
          (fun x j js hx hj hjs => by
            simp only [hasKeyElems, Bool.or_eq_false_iff]
            exact ⟨encode_noKey keys key hk t x j hx ht hj, hjs⟩) xs js hu hjs
  | .struct fs, v, j, hu, ht, h => by
    cases v <;> simp only [encode] at h <;> try (simp at h)
    case struct vs =>
      simp only [unset] at hu
      simp only [tagsOmit] at ht
      split at h
      · simp at h
      · rename_i kvs hkvs
        injection h with h; subst h
        simp only [hasKey]
        exact encodeFields_noKey keys key hk fs vs kvs hu ht hkvs
theorem encodeFields_noKey (keys : List String) (key : String) (hk : keys.contains key = true) :
    ∀ (fs : Fields) (vs : List Val) (kvs : List (String × JSON)),
      unsetFields keys fs vs = true → tagsOmitFields key fs = true →
      encodeFields fs vs = .ok kvs → hasKeyMembers key kvs = false
  | .nil, vs, kvs, _, _, h => by
    cases vs <;> simp [encodeFields] at h
    subst h; rfl
  | .cons k om t rest, [], kvs, _, _, h => by simp [encodeFields] at h
  | .cons k om t rest, v :: vs, kvs, hu, ht, h => by
    simp only [unsetFields, Bool.and_eq_true, Bool.or_eq_true, Bool.not_eq_true'] at hu
    simp only [tagsOmitFields, Bool.and_eq_true, Bool.or_eq_true, Bool.not_eq_true',
      decide_eq_false_iff_not, decide_eq_true_eq] at ht
    obtain ⟨⟨hu1, hu2⟩, hu3⟩ := hu
    obtain ⟨⟨ht1, ht2⟩, ht3⟩ := ht
    simp only [encodeFields] at h
    split at h
    · exact encodeFields_noKey keys key hk rest vs kvs hu3 ht3 h
    · rename_i hskip
      split at h
      · simp at h
      · rename_i j hj
        split at h
        · simp at h
        · rename_i kvs2 hkvs2
          injection h with h; subst h
          have hne : k ≠ key := by
            intro hkk
            subst hkk
            rcases ht1 with ht1 | ht1
            · exact ht1 rfl
            · rcases hu1 with hu1 | hu1
              · rw [hk] at hu1; simp at hu1
              · simp [ht1, hu1] at hskip
          simp only [hasKeyMembers, Bool.or_eq_false_iff, decide_eq_false_iff_not]
          exact ⟨⟨hne, encode_noKey keys key hk t v j hu2 ht2 hj⟩,
            encodeFields_noKey keys key hk rest vs kvs2 hu3 ht3 hkvs2⟩
end

/-! ### The member written for a field -/

theorem encodeFields_keys : ∀ (fs : Fields) (vs : List Val) (kvs : List (String × JSON)),
    encodeFields fs vs = .ok kvs → ∀ kv ∈ kvs, kv.1 ∈ fs.keys
  | .nil, vs, kvs, h => by
    cases vs <;> simp [encodeFields] at h
    subst h; simp
  | .cons k om t rest, [], kvs, h => by simp [encodeFields] at h
  | .cons k om t rest, v :: vs, kvs, h => by
    simp only [encodeFields] at h
    intro kv hkv
    simp only [Fields.keys, List.mem_cons]
    split at h
    · exact Or.inr (encodeFields_keys rest vs kvs h kv hkv)
    · split at h
      · simp at h
      · split at h
        · simp at h
        · rename_i kvs2 hkvs2
          injection h with h; subst h
          rcases List.mem_cons.mp hkv with h1 | h1
          · subst h1; exact Or.inl rfl
          · exact Or.inr (encodeFields_keys rest vs kvs2 hkvs2 kv h1)

theorem find_none_of_not_mem (key : String) (kvs : List (String × JSON))
    (h : ∀ kv ∈ kvs, kv.1 ≠ key) :
    kvs.find? (fun kv => decide (kv.1 = key)) = none := by
  simp only [List.find?_eq_none, decide_eq_true_eq]
  exact h

theorem member_encodeFields : ∀ (fs : Fields) (vs : List Val) (kvs : List (String × JSON))
    (key : String) (x : Val) (om : Bool) (t : Ty),
    encodeFields fs vs = .ok kvs → fs.keys.Nodup →
    field (.struct fs) key (.struct vs) = some x → fieldSpec fs key = some (om, t) →
    member key (.obj kvs) = if (om && isEmptyValue x) = true then none else okValue (encode t x)
  | .nil, vs, kvs, key, x, om, t, _, _, _, hs => by simp [fieldSpec] at hs
  | .cons k om2 t2 rest, [], kvs, key, x, om, t, h, _, _, _ => by simp [encodeFields] at h
  | .cons k om2 t2 rest, v :: vs, kvs, key, x, om, t, h, hnd, hf, hs => by
    simp only [Fields.keys, List.nodup_cons] at hnd
    simp only [fieldSpec] at hs
    simp only [field, Fields.keys, indexWhere, decide_eq_true_eq] at hf
    simp only [encodeFields] at h
    by_cases hk : k = key
    · subst hk
      simp only [if_true, Option.some.injEq, Prod.mk.injEq] at hs
      obtain ⟨hs1, hs2⟩ := hs
      subst hs1; subst hs2
      simp only [if_true, List.get?_cons_zero, Option.some.injEq] at hf
      subst hf
      split at h
      · rename_i hskip
        rw [if_pos hskip]
        simp only [member, Option.map_eq_none']
        exact find_none_of_not_mem k kvs fun kv hkv hkk =>
          hnd.1 (hkk ▸ encodeFields_keys rest vs kvs h kv hkv)
      · rename_i hskip
        rw [if_neg hskip]
        split at h
        · simp at h
        · rename_i j hj
          split at h
          · simp at h
          · injection h with h; subst h
            simp [member, hj, okValue]
    · simp only [hk, if_false] at hs hf
      cases hi : indexWhere (fun k => decide (k = key)) rest.keys with
      | none => simp [hi] at hf
      | some i =>
        simp only [hi, Option.map_some', List.get?_cons_succ] at hf
        have hf2 : field (.struct rest) key (.struct vs) = some x := by
          simp only [field, hi]; exact hf
        split at h
        · exact member_encodeFields rest vs kvs key x om t h hnd.2 hf2 hs
        · split at h
          · simp at h
          · split at h
            · simp at h
            · rename_i kvs2 hkvs2
              injection h with h; subst h
              have ih := member_encodeFields rest vs kvs2 key x om t hkvs2 hnd.2 hf2 hs
              simp only [member] at ih ⊢
              rw [List.find?_cons_of_neg _ (by simpa using hk)]
              exact ih

theorem member_encode (fs : Fields) (v : Val) (j : JSON) (key : String) (x : Val)
    (om : Bool) (t : Ty) (h : encode (.struct fs) v = .ok j) (hnd : fs.keys.Nodup)
    (hf : field (.struct fs) key v = some x) (hs : fieldSpec fs key = some (om, t)) :
    member key j = if (om && isEmptyValue x) = true then none else okValue (encode t x) := by
  cases v <;> simp only [encode] at h <;> try (simp at h)
  case struct vs =>
    split at h
    · simp at h
    · rename_i kvs hkvs
      injection h with h; subst h
      exact member_encodeFields fs vs kvs key x om t hkvs hnd hf hs

/-! ### Decimal text of integers -/

theorem digitChar_toNat (d : Nat) : (digitChar d).toNat = 48 + d % 10 := by
  have h : d % 10 < 10 := Nat.mod_lt _ (by decide)
  unfold digitChar
  generalize d % 10 = m at h
  interval_cases m <;> rfl

theorem isDigit_digitChar (d : Nat) : isDigit (digitChar d) = true := by
  have h : d % 10 < 10 := Nat.mod_lt _ (by decide)
  simp only [isDigit, digitChar_toNat, Bool.and_eq_true, decide_eq_true_eq]
  omega

theorem natDigitsAux_eq (n : Nat) : ∀ (fuel : Nat) (acc : List Char), n ≤ fuel →
    natDigitsAux fuel n acc = natLit n ++ acc := by
  induction n using Nat.strong_induction_on with
  | _ n ih =>
    intro fuel acc hle
    by_cases h10 : n < 10
    · have h1 : natDigitsAux fuel n acc = digitChar n :: acc := by
        cases fuel <;> simp [natDigitsAux, h10]
      have h2 : natLit n = [digitChar n] := by
        unfold natLit
        cases n <;> simp [natDigitsAux, h10]
      rw [h1, h2]; rfl
    · have hpos : 0 < n := by omega
      obtain ⟨f, rfl⟩ : ∃ f, fuel = f + 1 := ⟨fuel - 1, by omega⟩
      obtain ⟨m, rfl⟩ : ∃ m, n = m + 1 := ⟨n - 1, by omega⟩
      have hd : (m + 1) / 10 < m + 1 := Nat.div_lt_self hpos (by decide)
      simp only [natDigitsAux, h10, if_false, natLit]
      rw [ih _ hd f _ (by omega), ih _ hd m _ (by omega)]
      simp

theorem natLit_small (n : Nat) (h : n < 10) : natLit n = [digitChar n] := by
  unfold natLit
  cases n <;> simp [natDigitsAux, h]

theorem natLit_big (n : Nat) (h : 10 ≤ n) : natLit n = natLit (n / 10) ++ [digitChar n] := by
  obtain ⟨m, rfl⟩ : ∃ m, n = m + 1 := ⟨n - 1, by omega⟩
  have hd : (m + 1) / 10 < m + 1 := Nat.div_lt_self (by omega) (by decide)
  have h10 : ¬ m + 1 < 10 := by omega
  conv_lhs => unfold natLit
  simp only [natDigitsAux, h10, if_false]
  rw [natDigitsAux_eq _ m _ (by omega)]

theorem parseDigits_append (s t : List Char) : ∀ a : Nat,
    parseDigits (s ++ t) a = (parseDigits s a).bind (parseDigits t) := by
  induction s with
  | nil => intro a; rfl
  | cons c cs ih =>
    intro a
    simp only [List.cons_append, parseDigits]
    split
    · exact ih _
    · rfl

theorem parseDigits_digitChar (d a : Nat) :
    parseDigits [digitChar d] a = some (a * 10 + d % 10) := by
  simp [parseDigits, isDigit_digitChar, digitChar_toNat]

theorem parseDigits_natLit (n : Nat) : parseDigits (natLit n) 0 = some n := by
  induction n using Nat.strong_induction_on with
  | _ n ih =>
    by_cases h10 : n < 10
    · rw [natLit_small n h10, parseDigits_digitChar]
      simp [Nat.mod_eq_of_lt h10]
    · rw [natLit_big n (by omega), parseDigits_append, ih (n / 10) (by omega)]
      simp only [Option.bind, parseDigits_digitChar]
      congr 1
      omega

theorem natLit_all_digits (n : Nat) : (natLit n).all isDigit = true := by
  induction n using Nat.strong_induction_on with
  | _ n ih =>
    by_cases h10 : n < 10
    · rw [natLit_small n h10]; simp [isDigit_digitChar]
    · rw [natLit_big n (by omega)]
      simp [List.all_append, ih (n / 10) (by omega), isDigit_digitChar]

theorem natLit_ne_nil (n : Nat) : natLit n ≠ [] := by
  by_cases h10 : n < 10
  · rw [natLit_small n h10]; simp
  · rw [natLit_big n (by omega)]; simp

theorem parseUint_natLit (n : Nat) (h : n < 2 ^ 64) : parseUint (natLit n) = some n := by
  unfold parseUint
  have hne := natLit_ne_nil n
  cases hl : natLit n with
  | nil => exact absurd hl hne
  | cons c r =>
    simp only
    rw [← hl, parseDigits_natLit]
    simp only [Option.bind]
    rw [if_pos h]

theorem natLit_head_digit (n : Nat) : ∃ c r, natLit n = c :: r ∧ isDigit c = true := by
  have hne := natLit_ne_nil n
  have hall := natLit_all_digits n
  cases hl : natLit n with
  | nil => exact absurd hl hne
  | cons c r =>
    rw [hl] at hall
    simp only [List.all_cons, Bool.and_eq_true] at hall
    exact ⟨c, r, rfl, hall.1⟩

theorem parseInt_intLit (i : Int) (h : inInt64 i = true) : parseInt (intLit i) = some i := by
  simp only [inInt64, Bool.and_eq_true, decide_eq_true_eq] at h
  cases i with
  | ofNat n =>
    have hn : n < 2 ^ 63 := by
      have h2 : ((n : Nat) : Int) < (2 : Int) ^ 63 := h.2
      exact_mod_cast h2
    obtain ⟨c, r, hl, hc⟩ := natLit_head_digit n
    obtain ⟨h1, h2⟩ := isDigit_ne_minus c hc
    have hu := parseUint_natLit n (lt_trans hn (by norm_num))
    simp only [intLit, hl, parseInt, h1, h2, if_false]
    rw [← hl, hu]
    simp only [Option.bind]
    rw [if_pos hn]
    rfl
  | negSucc n =>
    have hn : n + 1 ≤ 2 ^ 63 := by
      have h1 := h.1
      have h3 : (-(2 : Int) ^ 63) ≤ -((n : Int) + 1) := by
        rw [Int.negSucc_eq] at h1; exact h1
      have h4 : ((n : Int) + 1) ≤ (2 : Int) ^ 63 := by linarith
      exact_mod_cast h4
    have hu := parseUint_natLit (n + 1) (lt_of_le_of_lt hn (by norm_num))
    simp only [intLit, parseInt, if_true]
    rw [hu]
    simp only [Option.bind]
    rw [if_pos hn]
    simp [Int.negSucc_eq]

theorem decode_duration_intLit (cur : Val) (d : Int) (h : inInt64 d = true) :
    decode .duration cur (.num (intLit d)) = .ok (.int d) := by
  simp [decode, parseInt_intLit d h]

/-! ### What `Dump` writes -/

theorem dump_written (w w2 : Writer) (L : Val) (h : Dump w L = (w2, none)) :
    w.accepts = true ∧ ∃ j, encode (.ptr LogT) L = .ok j ∧
      w2.written = w.written ++ render 0 (.obj [("log", j)]) := by
  unfold Dump marshalIndent at h
  cases he : encode (.ptr LogT) L with
  | error e => simp [he] at h
  | ok j =>
    simp only [he, Writer.copy] at h
    by_cases ha : w.accepts = true
    · simp only [ha, if_true] at h
      injection h with h1 _
      exact ⟨ha, j, rfl, by rw [← h1]⟩
    · simp [ha] at h

theorem dump_of_encode (w : Writer) (L : Val) (j : JSON) (ha : w.accepts = true)
    (he : encode (.ptr LogT) L = .ok j) :
    Dump w L = (⟨true, w.written ++ render 0 (.obj [("log", j)])⟩, none) := by
  simp [Dump, marshalIndent, he, Writer.copy, ha]

set_option maxRecDepth 100000 in
/-- C5 (as stated, refuted): a `Log` with one `Entry`, every optional field
unset and `Cache` nil, is written with the key `"cache"`, holding `null`. -/
theorem dump_writes_cache_null :
    unset ["comment", "browser", "pages", "cache"] (.ptr LogT) (.ptr oneEntryLog) = true ∧
      (Dump ⟨true, []⟩ (.ptr oneEntryLog)).2 = none ∧
      (firstValue (Dump ⟨true, []⟩ (.ptr oneEntryLog)).1.written).map (hasKey "cache")
        = some true ∧
      (okValue (encode EntryT (zero EntryT))).bind (member "cache") = some .null :=
  ⟨rfl, rfl, rfl, rfl⟩

set_option maxRecDepth 100000 in
/-- C6 (as stated, refuted): a `Page` whose `StartedDateTime` is nil is written
with the member `"startedDateTime": null`. -/
theorem dump_writes_null_startedDateTime :
    field PageT "startedDateTime" (zero PageT) = some .nilPtr ∧
      Dump ⟨true, []⟩ (.ptr onePageLog) =
        (⟨true, ("\x7b\n  \"log\": \x7b\n    \"version\": \"\",\n    \"creator\": \x7b\n" ++
          "      \"name\": \"\",\n      \"version\": \"\"\n    \x7d,\n    \"pages\": [\n" ++
          "      \x7b\n        \"startedDateTime\": null,\n        \"id\": \"\",\n" ++
          "        \"title\": \"\",\n        \"pageTimings\": \x7b\x7d\n      \x7d\n    ],\n" ++
          "    \"entries\": null\n  \x7d\n\x7d").data⟩, none) :=
  ⟨rfl, rfl⟩

/-- C6 (amended): a nil `Expires` or `LastAccess` of a `CacheDetails` is left
out of the object written for the record; a nil `StartedDateTime` of a `Page`
or an `Entry` and a nil `Expires` of a `Cookie` are written with the value
`null`. -/
theorem absent_timestamps_on_the_wire :
    (∀ (c : Val) (j : JSON), encode CacheDetailsT c = .ok j →
      field CacheDetailsT "expires" c = some .nilPtr → member "expires" j = none) ∧
    (∀ (c : Val) (j : JSON), encode CacheDetailsT c = .ok j →
      field CacheDetailsT "lastAccess" c = some .nilPtr → member "lastAccess" j = none) ∧
    (∀ (p : Val) (j : JSON), encode PageT p = .ok j →
      field PageT "startedDateTime" p = some .nilPtr →
      member "startedDateTime" j = some .null) ∧
    (∀ (e : Val) (j : JSON), encode EntryT e = .ok j →
      field EntryT "startedDateTime" e = some .nilPtr →
      member "startedDateTime" j = some .null) ∧
    (∀ (c : Val) (j : JSON), encode CookieT c = .ok j →
      field CookieT "expires" c = some .nilPtr → member "expires" j = some .null) := by
  refine ⟨?_, ?_, ?_, ?_, ?_⟩
  · intro c j he hf
    have := member_encode _ c j "expires" .nilPtr true (.ptr .time) he (by decide) hf rfl
    simpa [isEmptyValue] using this
  · intro c j he hf
    have := member_encode _ c j "lastAccess" .nilPtr true (.ptr .time) he (by decide) hf rfl
    simpa [isEmptyValue] using this
  · intro p j he hf
    have := member_encode _ p j "startedDateTime" .nilPtr false (.ptr .time) he (by decide) hf rfl
    simpa [encode, okValue] using this
  · intro e j he hf
    have := member_encode _ e j "startedDateTime" .nilPtr false (.ptr .time) he (by decide) hf rfl
    simpa [encode, okValue] using this
  · intro c j he hf
    have := member_encode _ c j "expires" .nilPtr false (.ptr .time) he (by decide) hf rfl
    simpa [encode, okValue] using this

theorem absent_timestamps_on_the_wire_witness :
    member "expires" (.obj [("eTag", .str ""), ("hitCount", .num ['0'])]) = none ∧
    member "startedDateTime" (.obj [("startedDateTime", .null), ("id", .str ""),
      ("title", .str ""), ("pageTimings", .obj [])]) = some .null :=
  ⟨absent_timestamps_on_the_wire.1 (zero CacheDetailsT) _ rfl rfl,
   absent_timestamps_on_the_wire.2.2.1 (zero PageT) _ rfl rfl⟩

set_option maxRecDepth 100000 in
/-- C7 (defect of the code): the document `{"log":{"entries":[{"time":1500}]}}`
gives, in HAR 1.2, the entry a time of 1500 milliseconds; `NewLog` returns an
`Entry` whose `Time` is the `time.Duration` 1500, which is 1500 nanoseconds
and not `1500 * time.Millisecond`.  In the other direction an `Entry.Time` of
`time.Millisecond` is written by `Dump` as the number 1000000, not as 1. -/
theorem duration_is_not_written_in_milliseconds :
    (NewLog duration1500Text).2 = none ∧
      (match (NewLog duration1500Text).1 with
        | .ptr L => (field LogT "entries" L).bind fun es =>
          match es with
          | .slice [e] => field EntryT "time" e
          | _ => none
        | _ => none) = some (.int 1500) ∧
      (1500 : Int) ≠ 1500 * Millisecond ∧
      (firstValue (Dump ⟨true, []⟩ (.ptr oneMillisecondLog)).1.written).bind (fun j =>
        (member "log" j).bind fun l => (member "entries" l).bind fun es =>
          match es with
          | .arr [e] => member "time" e
          | _ => none) = some (.num "1000000".data) ∧
      intLit (Millisecond / Millisecond) = "1".data :=
  ⟨rfl, rfl, by decide, rfl, rfl⟩

/-- The unit of a duration in the code: `Entry.Time` is written as the count
of nanoseconds of the `time.Duration`, `PageTimings.OnContentLoad` and `OnLoad`
likewise unless they are zero, in which case the key is left out; and a wire
number written as the integer `d` is decoded into the duration of `d`
nanoseconds.  No conversion from or to milliseconds takes place. -/
theorem duration_wire_is_nanoseconds :
    (∀ (e : Val) (j : JSON) (d : Int), encode EntryT e = .ok j →
      field EntryT "time" e = some (.int d) → member "time" j = some (.num (intLit d))) ∧
    (∀ (p : Val) (j : JSON) (d : Int), encode PageTimingsT p = .ok j →
      field PageTimingsT "onContentLoad" p = some (.int d) →
      member "onContentLoad" j = if d = 0 then none else some (.num (intLit d))) ∧
    (∀ (p : Val) (j : JSON) (d : Int), encode PageTimingsT p = .ok j →
      field PageTimingsT "onLoad" p = some (.int d) →
      member "onLoad" j = if d = 0 then none else some (.num (intLit d))) ∧
    (∀ (cur : Val) (d : Int), inInt64 d = true →
      decode .duration cur (.num (intLit d)) = .ok (.int d)) := by
  refine ⟨?_, ?_, ?_, decode_duration_intLit⟩
  · intro e j d he hf
    have := member_encode _ e j "time" (.int d) false .duration he (by decide) hf rfl
    simpa [encode, okValue] using this
  · intro p j d he hf
    have := member_encode _ p j "onContentLoad" (.int d) true .duration he (by decide) hf rfl
    simpa [encode, okValue, isEmptyValue] using this
  · intro p j d he hf
    have := member_encode _ p j "onLoad" (.int d) true .duration he (by decide) hf rfl
    simpa [encode, okValue, isEmptyValue] using this

/-! ### Writing a `Log` that was read -/

theorem allTimesList_iff (p : Time → Bool) (vs : List Val) :
    allTimesList p vs = true ↔ ∀ v ∈ vs, allTimes p v = true := by
  induction vs with
  | nil => simp [allTimesList]
  | cons v vs ih => simp [allTimesList, ih]

mutual
theorem allTimes_zero (p : Time → Bool) (hz : p Time.zero = true) :
    ∀ T : Ty, allTimes p (zero T) = true
  | .string => rfl
  | .bool => rfl
  | .int64 => rfl
  | .int => rfl
  | .uint64 => rfl
  | .duration => rfl
  | .time => by simpa [zero, allTimes] using hz
  | .ptr _ => rfl
  | .slice _ => rfl
  | .struct fs => by simpa [zero, allTimes] using allTimesList_zero p hz fs
theorem allTimesList_zero (p : Time → Bool) (hz : p Time.zero = true) :
    ∀ fs : Fields, allTimesList p (zeroFields fs) = true
  | .nil => rfl
  | .cons _ _ t rest => by
    simp [zeroFields, allTimesList, allTimes_zero p hz t, allTimesList_zero p hz rest]
end

theorem allTimes_pointee (p : Time → Bool) (hz : p Time.zero = true) (t : Ty) (cur : Val)
    (h : allTimes p cur = true) : allTimes p (pointee (zero t) cur) = true := by
  cases cur <;> simp_all [pointee, allTimes, allTimes_zero]

theorem allTimes_elements (p : Time → Bool) (cur : Val) (h : allTimes p cur = true) :
    ∀ o ∈ elements cur, allTimes p o = true := by
  cases cur <;> simp_all [elements, allTimes, allTimesList_iff]

theorem allTimes_fieldsOf (p : Time → Bool) (hz : p Time.zero = true) (fs : Fields) (cur : Val)
    (h : allTimes p cur = true) : allTimesList p (fieldsOf (zeroFields fs) cur) = true := by
  cases cur <;> simp_all [fieldsOf, allTimes, allTimesList_zero]

mutual
theorem decode_allTimes (p : Time → Bool) (hz : p Time.zero = true)
    (hp : ∀ s t, unmarshalTime s = .ok t → p t = true) :
    ∀ (T : Ty) (cur : Val) (j : JSON) (v : Val),
      allTimes p cur = true → decode T cur j = .ok v → allTimes p v = true
  | .string, cur, j, v, hc, h => by
    cases j <;> simp [decode] at h <;> subst h <;> first | exact hc | rfl
  | .bool, cur, j, v, hc, h => by
    cases j <;> simp [decode] at h <;> subst h <;> first | exact hc | rfl
  | .int64, cur, j, v, hc, h => by
    cases j <;> simp only [decode] at h <;> try (simp at h)
    · subst h; exact hc
    · split at h <;> simp at h; subst h; rfl
  | .int, cur, j, v, hc, h => by
    cases j <;> simp only [decode] at h <;> try (simp at h)
    · subst h; exact hc
    · split at h <;> simp at h; subst h; rfl
  | .duration, cur, j, v, hc, h => by
    cases j <;> simp only [decode] at h <;> try (simp at h)
    · subst h; exact hc
    · split at h <;> simp at h; subst h; rfl
  | .uint64, cur, j, v, hc, h => by
    cases j <;> simp only [decode] at h <;> try (simp at h)
    · subst h; exact hc
    · split at h <;> simp at h; subst h; rfl
  | .time, cur, j, v, hc, h => by
    cases j <;> simp only [decode] at h <;> try (simp at h)
    · subst h; exact hc
    · split at h
      · rename_i t ht
        injection h with h; subst h
        simpa [allTimes] using hp _ t ht
      · simp at h
  | .ptr t, cur, j, v, hc, h => by
    by_cases hn : j.isNull = true
    · cases j <;> simp [JSON.isNull] at hn
      simp [decode] at h; subst h; rfl
    · obtain ⟨w, hw, rfl⟩ := decode_ptr_ok t cur j v (by simpa using hn) h
      simpa [allTimes] using decode_allTimes p hz hp t _ j w (allTimes_pointee p hz t cur hc) hw
  | .slice t, cur, j, v, hc, h => by
    cases j <;> simp only [decode] at h <;> try (simp at h)
    case null => subst h; rfl
    case arr xs =>
      split at h
      · rename_i vs hvs
        injection h with h; subst h
        simp only [allTimes, allTimesList_iff]
        exact decodeElems_typed (decode t) (zero t) (fun x => allTimes p x = true)
          (allTimes_zero p hz t) (fun c j v hc h => decode_allTimes p hz hp t c j v hc h) xs _ vs
          (allTimes_elements p cur hc) hvs
      · simp at h
  | .struct fs, cur, j, v, hc, h => by
    cases j <;> simp only [decode] at h <;> try (simp at h)
    case null => subst h; exact hc
    case obj kvs =>
      split at h
      · rename_i vs hvs
        injection h with h; subst h
        simp only [allTimes]
        refine foldE_inv _ (fun vs => allTimesList p vs = true) ?_ kvs _ vs
          (allTimes_fieldsOf p hz fs cur hc) hvs
        intro vs kv vs2 hP hf
        split at hf
        · injection hf with hf; subst hf; exact hP
        · exact decodeAt_allTimes p hz hp fs _ vs kv.2 vs2 hP hf
      · simp at h
theorem decodeAt_allTimes (p : Time → Bool) (hz : p Time.zero = true)
    (hp : ∀ s t, unmarshalTime s = .ok t → p t = true) :
    ∀ (fs : Fields) (i : Nat) (vs : List Val) (j : JSON) (vs2 : List Val),
      allTimesList p vs = true → decodeAt fs i vs j = .ok vs2 → allTimesList p vs2 = true
  | .nil, i, vs, j, vs2, hc, h => by
    simp [decodeAt] at h; subst h; exact hc
  | .cons k om t rest, i, [], j, vs2, hc, h => by
    cases i <;> simp [decodeAt] at h <;> subst h <;> rfl
  | .cons k om t rest, 0, v :: vs, j, vs2, hc, h => by
    simp only [allTimesList, Bool.and_eq_true] at hc
    simp only [decodeAt] at h
    split at h
    · rename_i w hw
      injection h with h; subst h
      simp only [allTimesList, Bool.and_eq_true]
      exact ⟨decode_allTimes p hz hp t v j w hc.1 hw, hc.2⟩
    · simp at h
  | .cons k om t rest, i + 1, v :: vs, j, vs2, hc, h => by
    simp only [allTimesList, Bool.and_eq_true] at hc
    simp only [decodeAt] at h
    split at h
    · rename_i w hw
      injection h with h; subst h
      simp only [allTimesList, Bool.and_eq_true]
      exact ⟨hc.1, decodeAt_allTimes p hz hp rest i vs j w hc.2 hw⟩
    · simp at h
end

mutual
theorem allTimes_and (p q : Time → Bool) : ∀ v : Val, allTimes p v = true → allTimes q v = true →
    allTimes (fun t => p t && q t) v = true
  | .str _, _, _ => rfl
  | .bool _, _, _ => rfl
  | .int _, _, _ => rfl
  | .time t, hp, hq => by simp only [allTimes] at hp hq ⊢; simp [hp, hq]
  | .nilPtr, _, _ => rfl
  | .ptr v, hp, hq => by simp only [allTimes] at hp hq ⊢; exact allTimes_and p q v hp hq
  | .nilSlice, _, _ => rfl
  | .slice xs, hp, hq => by simp only [allTimes] at hp hq ⊢; exact allTimesList_and p q xs hp hq
  | .struct vs, hp, hq => by simp only [allTimes] at hp hq ⊢; exact allTimesList_and p q vs hp hq
theorem allTimesList_and (p q : Time → Bool) : ∀ vs : List Val, allTimesList p vs = true →
    allTimesList q vs = true → allTimesList (fun t => p t && q t) vs = true
  | [], _, _ => rfl
  | v :: vs, hp, hq => by
    simp only [allTimesList, Bool.and_eq_true] at hp hq ⊢
    exact ⟨allTimes_and p q v hp.1 hq.1, allTimesList_and p q vs hp.2 hq.2⟩
end

theorem marshalTime_ok (t : Time) (h : (yearInRange t && zoneInRange t) = true) :
    marshalTime t = .ok (String.mk (fmtTime t)) := by
  simp only [yearInRange, zoneInRange, Bool.and_eq_true, Bool.or_eq_true, decide_eq_true_eq] at h
  unfold marshalTime
  rw [if_neg (by omega)]
  rw [if_neg (by
    rintro ⟨h1, h2⟩
    rcases h.2 with h3 | h3
    · exact h1 h3
    · omega)]

theorem mapE_ok (f : Val → Except Err JSON) :
    ∀ xs : List Val, (∀ x ∈ xs, ∃ j, f x = .ok j) → ∃ js, mapE f xs = .ok js := by
  intro xs
  induction xs with
  | nil => intro _; exact ⟨[], rfl⟩
  | cons x xs ih =>
    intro h
    obtain ⟨j, hj⟩ := h x (List.mem_cons_self _ _)
    obtain ⟨js, hjs⟩ := ih fun a ha => h a (List.mem_cons_of_mem _ ha)
    exact ⟨j :: js, by simp [mapE, hj, hjs]⟩

mutual
theorem encode_ok : ∀ (T : Ty) (v : Val), hasType T v = true →
    allTimes (fun t => yearInRange t && zoneInRange t) v = true → ∃ j, encode T v = .ok j
  | .string, v, ht, _ => by cases v <;> simp [hasType] at ht; exact ⟨_, rfl⟩
  | .bool, v, ht, _ => by cases v <;> simp [hasType] at ht; exact ⟨_, rfl⟩
  | .int64, v, ht, _ => by cases v <;> simp [hasType] at ht; exact ⟨_, rfl⟩
  | .int, v, ht, _ => by cases v <;> simp [hasType] at ht; exact ⟨_, rfl⟩
  | .uint64, v, ht, _ => by cases v <;> simp [hasType] at ht; exact ⟨_, rfl⟩
  | .duration, v, ht, _ => by cases v <;> simp [hasType] at ht; exact ⟨_, rfl⟩
  | .time, v, ht, ha => by
    cases v <;> simp [hasType] at ht
    rename_i t
    simp only [allTimes] at ha
    exact ⟨.str (String.mk (fmtTime t)), by simp [encode, marshalTime_ok t ha]⟩
  | .ptr t, v, ht, ha => by
    cases v <;> simp only [hasType] at ht <;> try (simp at ht)
    · exact ⟨_, rfl⟩
    · rename_i w
      simp only [allTimes] at ha
      obtain ⟨j, hj⟩ := encode_ok t w ht ha
      exact ⟨j, by simpa [encode] using hj⟩
  | .slice t, v, ht, ha => by
    cases v <;> simp only [hasType] at ht <;> try (simp at ht)
    · exact ⟨_, rfl⟩
    · rename_i xs
      simp only [allTimes, allTimesList_iff] at ha
      obtain ⟨js, hjs⟩ := mapE_ok (encode t) xs fun x hx => encode_ok t x (ht x hx) (ha x hx)
      exact ⟨.arr js, by simp [encode, hjs]⟩
  | .struct fs, v, ht, ha => by
    cases v <;> simp only [hasType] at ht <;> try (simp at ht)
    rename_i vs
    simp only [allTimes] at ha
    obtain ⟨kvs, hk⟩ := encodeFields_ok fs vs ht ha
    exact ⟨.obj kvs, by simp [encode, hk]⟩
theorem encodeFields_ok : ∀ (fs : Fields) (vs : List Val), hasFieldTypes fs vs = true →
    allTimesList (fun t => yearInRange t && zoneInRange t) vs = true →
    ∃ kvs, encodeFields fs vs = .ok kvs
  | .nil, vs, ht, _ => by cases vs <;> simp [hasFieldTypes] at ht; exact ⟨[], rfl⟩
  | .cons k om t rest, [], ht, _ => by simp [hasFieldTypes] at ht
  | .cons k om t rest, v :: vs, ht, ha => by
    simp only [hasFieldTypes, Bool.and_eq_true] at ht
    simp only [allTimesList, Bool.and_eq_true] at ha
    obtain ⟨j, hj⟩ := encode_ok t v ht.1 ha.1
    obtain ⟨kvs, hk⟩ := encodeFields_ok rest vs ht.2 ha.2
    by_cases hs : (om && isEmptyValue v) = true
    · exact ⟨kvs, by simp only [encodeFields, hs, if_true]; exact hk⟩
    · exact ⟨(k, j) :: kvs, by simp only [encodeFields, hs, if_false, hj, hk]; simp⟩
end

theorem parseDigits_bound (s : List Char) : ∀ (a n : Nat), parseDigits s a = some n →
    n < (a + 1) * 10 ^ s.length := by
  induction s with
  | nil => intro a n h; simp [parseDigits] at h; subst h; simp
  | cons c cs ih =>
    intro a n h
    simp only [parseDigits] at h
    split at h
    · rename_i hc
      have := ih _ _ h
      simp only [isDigit, Bool.and_eq_true, decide_eq_true_eq] at hc
      have h2 : a * 10 + (c.toNat - 48) + 1 ≤ (a + 1) * 10 := by omega
      calc n < (a * 10 + (c.toNat - 48) + 1) * 10 ^ cs.length := this
        _ ≤ ((a + 1) * 10) * 10 ^ cs.length := Nat.mul_le_mul_right _ h2
        _ = (a + 1) * 10 ^ (c :: cs).length := by
          simp only [List.length_cons, pow_succ]; ring
    · simp at h

theorem getYear_bound (s : List Char) (y : Nat) (r : List Char)
    (h : getYear s = some (y, r)) : y ≤ 9999 := by
  unfold getYear at h
  split at h
  · rename_i a b c d r2
    cases hp : parseDigits [a, b, c, d] 0 with
    | none => simp [hp] at h
    | some n =>
      simp only [hp, Option.map_some', Option.some.injEq, Prod.mk.injEq] at h
      have hb := parseDigits_bound _ _ _ hp
      have h4 : (0 + 1) * 10 ^ [a, b, c, d].length = 10000 := by norm_num
      rw [h4] at hb
      omega
  · simp at h

theorem getDate_year (s : List Char) (d : (Nat × Nat × Nat) × List Char)
    (h : getDate s = some d) : d.1.1 ≤ 9999 := by
  unfold getDate at h
  simp only [Option.bind_eq_some, Option.map_eq_some'] at h
  obtain ⟨y, hy, _, _, _, _, _, _, _, _, _, _, hd⟩ := h
  subst hd
  exact getYear_bound s y.1 y.2 hy

theorem parseTime_year (s : List Char) (t : Time) (h : parseTime s = some t) :
    yearInRange t = true := by
  unfold parseTime at h
  simp only [Option.bind_eq_some] at h
  obtain ⟨d, hd, c, _, z, _, h⟩ := h
  have hb := getDate_year s d hd
  split at h
  · simp at h
  · split at h
    · simp at h
    · split at h
      · simp at h
      · injection h with h
        subst h
        simp only [yearInRange, Bool.and_eq_true, decide_eq_true_eq]
        omega

theorem unmarshalTime_year (s : String) (t : Time) (h : unmarshalTime s = .ok t) :
    yearInRange t = true := by
  unfold unmarshalTime at h
  cases hp : parseTime s.data with
  | none => simp [hp] at h
  | some u =>
    simp only [hp] at h
    injection h with h
    subst h
    exact parseTime_year _ _ hp

theorem newLog_ok (r : List Char) (L : Val) (h : NewLog r = (L, none)) :
    ∃ kvs j v, firstValue r = some (.obj kvs) ∧ lookupLast "log" kvs = some j ∧
      decode LogT (zero LogT) j = .ok v ∧ L = .ptr v := by
  unfold NewLog decodeRoot at h
  cases hv : firstValue r with
  | none => simp [hv] at h
  | some x =>
    cases x <;> simp only [hv] at h <;> try (simp at h)
    case null => simp [lookupLast, unmarshalLog] at h
    case obj kvs =>
      cases hl : lookupLast "log" kvs with
      | none => simp [hl, unmarshalLog] at h
      | some j =>
        simp only [hl, unmarshalLog] at h
        cases hd : decode LogT (zero LogT) j with
        | error e => simp [hd] at h
        | ok v =>
          simp only [hd] at h
          injection h with h1 _
          exact ⟨kvs, j, v, rfl, hl, hd, h1.symm⟩

theorem newLog_typed (r : List Char) (L : Val) (h : NewLog r = (L, none)) :
    hasType (.ptr LogT) L = true ∧ allTimes yearInRange L = true := by
  obtain ⟨kvs, j, v, _, _, hd, rfl⟩ := newLog_ok r L h
  constructor
  · simpa [hasType] using decode_typed LogT _ j v (hasType_zero LogT) hd
  · simpa [allTimes] using decode_allTimes yearInRange rfl unmarshalTime_year LogT _ j v
      (allTimes_zero yearInRange rfl LogT) hd

set_option maxRecDepth 100000 in
/-- C8 (as stated, refuted): `NewLog` accepts a document whose timestamp has
the zone `+24:00` (the lenient `time.Parse` behind `Time.UnmarshalJSON` admits
it), and `Dump` of the `Log` it returns fails, with a writer that accepts
every write, on the error of `Time.MarshalJSON`. -/
theorem dump_fails_after_newLog :
    (NewLog zone24Text).2 = none ∧
      (Dump ⟨true, []⟩ (NewLog zone24Text).1).2 = some .badTime :=
  ⟨rfl, rfl⟩

/-- C8 (amended): for every input on which `NewLog` succeeds and in whose
`Log` every timestamp has a zone offset of less than 24 hours, `Dump` with the
returned `Log` and a writer that accepts every write returns a nil error. -/
theorem dump_after_newLog (r : List Char) (L : Val) (w : Writer) (hn : NewLog r = (L, none))
    (hz : allTimes zoneInRange L = true) (hw : w.accepts = true) :
    (Dump w L).2 = none := by
  obtain ⟨ht, hy⟩ := newLog_typed r L hn
  obtain ⟨j, hj⟩ := encode_ok (.ptr LogT) L ht (allTimes_and _ _ L hy hz)
  rw [dump_of_encode w L j hw hj]

set_option maxRecDepth 100000 in
theorem dump_after_newLog_witness :
    (Dump ⟨true, []⟩ (NewLog ("\x7b\"log\":\x7b\"pages\":[\x7b\"startedDateTime\":" ++
      "\"2024-02-29T13:05:09+05:30\"\x7d]\x7d\x7d").data).1).2 = none :=
  dump_after_newLog ("\x7b\"log\":\x7b\"pages\":[\x7b\"startedDateTime\":" ++
      "\"2024-02-29T13:05:09+05:30\"\x7d]\x7d\x7d").data _ ⟨true, []⟩ rfl rfl rfl

/-! ### String literals: `quote` and the scanner -/

theorem hexVal_hexChar (d : Nat) : hexVal (hexChar d) = some (d % 16) := by
  have h : d % 16 < 16 := Nat.mod_lt _ (by decide)
  unfold hexChar
  generalize d % 16 = m at h
  interval_cases m <;> rfl

theorem char_eq_of_toNat (c : Char) (n : Nat) (h : c.toNat = n) : c = Char.ofNat n := by
  rw [← h, Char.ofNat_toNat]

theorem char_ne_of_toNat (c d : Char) (h : c.toNat ≠ d.toNat) : c ≠ d := by
  intro hcd; exact h (by rw [hcd])

theorem parseStringBody_escape (fuel : Nat) (e x : Char) (rest : List Char)
    (hu : e ≠ 'u') (hx : simpleEscape e = some x) :
    parseStringBody (fuel + 1) (bs :: e :: rest) =
      (parseStringBody fuel rest).map fun p => (x :: p.1, p.2) := by
  have h1 : bs ≠ dq := by decide
  simp only [parseStringBody, h1, if_false, if_true, hu, hx]

theorem parseStringBody_hex (fuel : Nat) (a b c d : Char) (n : Nat) (rest : List Char)
    (hn : hex4 a b c d = some n) (hs : ¬ (0xD800 ≤ n ∧ n < 0xE000)) :
    parseStringBody (fuel + 1) (bs :: 'u' :: a :: b :: c :: d :: rest) =
      (parseStringBody fuel rest).map fun p => (Char.ofNat n :: p.1, p.2) := by
  have h1 : bs ≠ dq := by decide
  simp only [parseStringBody, h1, if_false, if_true, hn, hs]

theorem parseStringBody_plain (fuel : Nat) (c : Char) (rest : List Char)
    (h1 : c ≠ dq) (h2 : c ≠ bs) (h3 : ¬ c.toNat < 32) :
    parseStringBody (fuel + 1) (c :: rest) =
      (parseStringBody fuel rest).map fun p => (c :: p.1, p.2) := by
  simp only [parseStringBody, h1, h2, h3, if_false]

theorem hex4_low (n : Nat) (h : n < 256) :
    hex4 '0' '0' (hexChar (n / 16)) (hexChar n) = some n := by
  simp only [hex4, hexVal_hexChar]
  have h0 : hexVal '0' = some 0 := rfl
  simp only [h0]
  congr 1
  omega

theorem hex4_202 (n : Nat) (h : n = 0x2028 ∨ n = 0x2029) :
    hex4 '2' '0' '2' (hexChar n) = some n := by
  rcases h with h | h <;> subst h <;> rfl

theorem parseStringBody_quoteChar (c : Char) (fuel : Nat) (rest : List Char) :
    parseStringBody (fuel + 1) (quoteChar c ++ rest) =
      (parseStringBody fuel rest).map fun p => (c :: p.1, p.2) := by
  unfold quoteChar
  simp only
  by_cases h1 : c.toNat = 34 ∨ c.toNat = 92
  · rw [if_pos h1]
    rcases h1 with h | h
    · have hc := char_eq_of_toNat c 34 h
      subst hc
      exact parseStringBody_escape fuel _ _ rest (by decide) rfl
    · have hc := char_eq_of_toNat c 92 h
      subst hc
      exact parseStringBody_escape fuel _ _ rest (by decide) rfl
  rw [if_neg h1]
  by_cases h2 : c.toNat = 8
  · rw [if_pos h2, char_eq_of_toNat c 8 h2]
    exact parseStringBody_escape fuel _ _ rest (by decide) rfl
  rw [if_neg h2]
  by_cases h3 : c.toNat = 12
  · rw [if_pos h3, char_eq_of_toNat c 12 h3]
    exact parseStringBody_escape fuel _ _ rest (by decide) rfl
  rw [if_neg h3]
  by_cases h4 : c.toNat = 10
  · rw [if_pos h4, char_eq_of_toNat c 10 h4]
    exact parseStringBody_escape fuel _ _ rest (by decide) rfl
  rw [if_neg h4]
  by_cases h5 : c.toNat = 13
  · rw [if_pos h5, char_eq_of_toNat c 13 h5]
    exact parseStringBody_escape fuel _ _ rest (by decide) rfl
  rw [if_neg h5]
  by_cases h6 : c.toNat = 9
  · rw [if_pos h6, char_eq_of_toNat c 9 h6]
    exact parseStringBody_escape fuel _ _ rest (by decide) rfl
  rw [if_neg h6]
  by_cases h7 : c.toNat < 32 ∨ c.toNat = 60 ∨ c.toNat = 62 ∨ c.toNat = 38
  · rw [if_pos h7]
    have hlt : c.toNat < 256 := by omega
    have := parseStringBody_hex fuel '0' '0' (hexChar (c.toNat / 16)) (hexChar c.toNat)
      c.toNat rest (hex4_low _ hlt) (by omega)
    rw [Char.ofNat_toNat] at this
    exact this
  rw [if_neg h7]
  by_cases h8 : c.toNat = 0x2028 ∨ c.toNat = 0x2029
  · rw [if_pos h8]
    have := parseStringBody_hex fuel '2' '0' '2' (hexChar c.toNat)
      c.toNat rest (hex4_202 _ h8) (by omega)
    rw [Char.ofNat_toNat] at this
    exact this
  rw [if_neg h8]
  have hd : c ≠ dq := char_ne_of_toNat c dq (by
    have : dq.toNat = 34 := rfl
    omega)
  have hb : c ≠ bs := char_ne_of_toNat c bs (by
    have : bs.toNat = 92 := rfl
    omega)
  exact parseStringBody_plain fuel c rest hd hb (by omega)

theorem quoteChar_length (c : Char) : 1 ≤ (quoteChar c).length ∧ (quoteChar c).length ≤ 6 := by
  unfold quoteChar
  simp only
  split_ifs <;> simp

theorem parseStringBody_quoteBody (s : List Char) : ∀ (fuel : Nat) (rest : List Char),
    s.length + 1 ≤ fuel →
    parseStringBody fuel (quoteBody s ++ dq :: rest) = some (s, rest) := by
  induction s with
  | nil =>
    intro fuel rest hf
    obtain ⟨f, rfl⟩ : ∃ f, fuel = f + 1 := ⟨fuel - 1, by omega⟩
    simp [quoteBody, parseStringBody]
  | cons c cs ih =>
    intro fuel rest hf
    obtain ⟨f, rfl⟩ : ∃ f, fuel = f + 1 := ⟨fuel - 1, by simp at hf; omega⟩
    simp only [quoteBody, List.append_assoc]
    rw [parseStringBody_quoteChar, ih f rest (by simpa using hf)]
    rfl

theorem quoteBody_length (s : List Char) : s.length ≤ (quoteBody s).length := by
  induction s with
  | nil => simp [quoteBody]
  | cons c cs ih =>
    have := (quoteChar_length c).1
    simp only [quoteBody, List.length_append, List.length_cons]
    omega

/-! ### Number literals: `intLit` and the scanner -/

theorem takeWhile_digits (l rest : List Char) (hl : l.all isDigit = true)
    (hr : terminated rest = true) :
    (l ++ rest).takeWhile isDigit = l ∧ (l ++ rest).dropWhile isDigit = rest := by
  induction l with
  | nil =>
    cases rest with
    | nil => simp
    | cons c r =>
      simp only [terminated, Bool.or_eq_true, decide_eq_true_eq] at hr
      have hc : isDigit c = false := by rcases hr with h | h <;> subst h <;> rfl
      simp [List.takeWhile, List.dropWhile, hc]
  | cons c cs ih =>
    simp only [List.all_cons, Bool.and_eq_true] at hl
    obtain ⟨h1, h2⟩ := ih hl.2
    simp [List.takeWhile, List.dropWhile, hl.1, h1, h2]

theorem natLit_head_nonzero (n : Nat) : 0 < n → ∀ c r, natLit n = c :: r → c ≠ '0' := by
  induction n using Nat.strong_induction_on with
  | _ n ih =>
    intro hpos c r hl
    by_cases h10 : n < 10
    · rw [natLit_small n h10] at hl
      injection hl with hc _
      subst hc
      interval_cases n <;> decide
    · rw [natLit_big n (by omega)] at hl
      obtain ⟨c2, r2, hl2, _⟩ := natLit_head_digit (n / 10)
      rw [hl2] at hl
      injection hl with hc _
      subst hc
      exact ih (n / 10) (by omega) (by omega) c2 r2 hl2

theorem scanFrac_terminated (rest : List Char) (h : terminated rest = true) :
    scanFrac rest = some ([], rest) := by
  cases rest with
  | nil => rfl
  | cons c r =>
    simp only [terminated, Bool.or_eq_true, decide_eq_true_eq] at h
    have hc : c ≠ '.' := by rcases h with h | h <;> subst h <;> decide
    simp [scanFrac, hc]

theorem scanExp_terminated (rest : List Char) (h : terminated rest = true) :
    scanExp rest = some ([], rest) := by
  cases rest with
  | nil => rfl
  | cons c r =>
    simp only [terminated, Bool.or_eq_true, decide_eq_true_eq] at h
    have hc : ¬ (c = 'e' ∨ c = 'E') := by rcases h with h | h <;> subst h <;> decide
    simp [scanExp, hc]

theorem scanUnsigned_natLit (n : Nat) (rest : List Char) (h : terminated rest = true) :
    scanUnsigned (natLit n ++ rest) = some (natLit n, rest) := by
  have hall := natLit_all_digits n
  obtain ⟨c, r, hl, hc⟩ := natLit_head_digit n
  have hint : scanIntPart (natLit n ++ rest) = some (natLit n, rest) := by
    by_cases h0 : n = 0
    · subst h0
      have : natLit 0 = ['0'] := rfl
      rw [this]
      rfl
    · have hnz := natLit_head_nonzero n (by omega) c r hl
      rw [hl] at hall ⊢
      simp only [List.all_cons, Bool.and_eq_true] at hall
      obtain ⟨h1, h2⟩ := takeWhile_digits r rest hall.2 h
      simp only [List.cons_append, scanIntPart, hnz, if_false, hc, if_true, h1, h2]
  simp only [scanUnsigned, hint, Option.bind, scanFrac_terminated rest h,
    scanExp_terminated rest h, Option.map]
  simp

theorem scanNumber_intLit (i : Int) (rest : List Char) (h : terminated rest = true) :
    scanNumber (intLit i ++ rest) = some (intLit i, rest) := by
  cases i with
  | ofNat n =>
    obtain ⟨c, r, hl, hc⟩ := natLit_head_digit n
    have hm := (isDigit_ne_minus c hc).1
    have hs := scanUnsigned_natLit n rest h
    simp only [intLit]
    rw [hl] at hs ⊢
    simp only [List.cons_append, scanNumber, hm, if_false]
    exact hs
  | negSucc n =>
    simp only [intLit, List.cons_append, scanNumber, if_true,
      scanUnsigned_natLit (n + 1) rest h, Option.map]

theorem intLit_head (i : Int) : ∃ c r, intLit i = c :: r ∧ (isDigit c = true ∨ c = '-') := by
  cases i with
  | ofNat n =>
    obtain ⟨c, r, hl, hc⟩ := natLit_head_digit n
    exact ⟨c, r, hl, Or.inl hc⟩
  | negSucc n => exact ⟨'-', _, rfl, Or.inr rfl⟩

/-! ### Reading back what `render` wrote -/

theorem skipWs_append (ws s : List Char) (h : ws.all isSpace = true) :
    skipWs (ws ++ s) = skipWs s := by
  induction ws with
  | nil => rfl
  | cons c cs ih =>
    simp only [List.all_cons, Bool.and_eq_true] at h
    simp only [skipWs, List.cons_append, List.dropWhile, h.1]
    exact ih h.2

theorem skipWs_cons (c : Char) (s : List Char) (h : isSpace c = false) :
    skipWs (c :: s) = c :: s := by
  simp [skipWs, List.dropWhile, h]

theorem newline_allSpace (d : Nat) : (newline d).all isSpace = true := by
  simp only [newline, List.all_cons, List.all_replicate]
  simp [isSpace]

theorem isSpace_digit (c : Char) (h : isDigit c = true) : isSpace c = false := by
  simp only [isDigit, Bool.and_eq_true, decide_eq_true_eq] at h
  simp only [isSpace, Bool.or_eq_false_iff, decide_eq_false_iff_not]
  refine ⟨⟨⟨?_, ?_⟩, ?_⟩, ?_⟩ <;> intro hc <;> subst hc <;> revert h <;> decide

theorem digit_not_special (c : Char) (h : isDigit c = true ∨ c = '-') :
    isSpace c = false ∧ c ≠ Char.ofNat 123 ∧ c ≠ '[' ∧ c ≠ dq ∧ c ≠ 't' ∧ c ≠ 'f' ∧ c ≠ 'n' ∧
      c ≠ ']' := by
  rcases h with h | h
  · refine ⟨isSpace_digit c h, ?_⟩
    simp only [isDigit, Bool.and_eq_true, decide_eq_true_eq] at h
    refine ⟨?_, ?_, ?_, ?_, ?_, ?_, ?_⟩ <;> intro hc <;> subst hc <;> revert h <;> decide
  · subst h; decide

theorem render_head (d : Nat) (j : JSON) (h : fits d j) :
    ∃ c r, render d j = c :: r ∧ isSpace c = false ∧ c ≠ ']' := by
  cases j with
  | null => exact ⟨_, _, rfl, by decide, by decide⟩
  | bool b => cases b <;> exact ⟨_, _, rfl, by decide, by decide⟩
  | num lit =>
    obtain ⟨i, rfl⟩ := h
    obtain ⟨c, r, hl, hc⟩ := intLit_head i
    obtain ⟨h1, _, _, _, _, _, _, h8⟩ := digit_not_special c hc
    exact ⟨c, r, by simp [render, hl], h1, h8⟩
  | str s => exact ⟨dq, _, rfl, by decide, by decide⟩
  | arr xs => cases xs <;> exact ⟨'[', _, rfl, by decide, by decide⟩
  | obj kvs =>
    cases kvs with
    | nil => exact ⟨Char.ofNat 123, _, rfl, by decide, by decide⟩
    | cons kv kvs => obtain ⟨k, x⟩ := kv; exact ⟨Char.ofNat 123, _, rfl, by decide, by decide⟩

theorem parseValue_null (f d : Nat) (s rest : List Char)
    (hs : skipWs s = 'n' :: 'u' :: 'l' :: 'l' :: rest) :
    parseValue (f + 1) d s = some (.null, rest) := by
  simp [parseValue, hs, expectChars, dq]

theorem parseValue_true (f d : Nat) (s rest : List Char)
    (hs : skipWs s = 't' :: 'r' :: 'u' :: 'e' :: rest) :
    parseValue (f + 1) d s = some (.bool true, rest) := by
  simp [parseValue, hs, expectChars, dq]

theorem parseValue_false (f d : Nat) (s rest : List Char)
    (hs : skipWs s = 'f' :: 'a' :: 'l' :: 's' :: 'e' :: rest) :
    parseValue (f + 1) d s = some (.bool false, rest) := by
  simp [parseValue, hs, expectChars, dq]

theorem parseValue_num (f d : Nat) (s : List Char) (i : Int) (rest : List Char)
    (hs : skipWs s = intLit i ++ rest) (ht : terminated rest = true) :
    parseValue (f + 1) d s = some (.num (intLit i), rest) := by
  obtain ⟨c, r, hl, hc⟩ := intLit_head i
  obtain ⟨_, h2, h3, h4, h5, h6, h7, _⟩ := digit_not_special c hc
  have hn := scanNumber_intLit i rest ht
  rw [hl] at hs hn
  simp only [List.cons_append] at hs hn
  simp only [parseValue, hs, h2, h3, h4, h5, h6, h7, if_false, hn, Option.map, hl]

theorem parseValue_str (f d : Nat) (s : List Char) (k : String) (rest : List Char)
    (hs : skipWs s = quote k ++ rest) :
    parseValue (f + 1) d s = some (.str k, rest) := by
  have hq : quote k ++ rest = dq :: (quoteBody k.data ++ dq :: rest) := by
    simp [quote]
  rw [hq] at hs
  have hp := parseStringBody_quoteBody k.data (quoteBody k.data ++ dq :: rest).length rest
    (by have := quoteBody_length k.data; simp only [List.length_append, List.length_cons]; omega)
  have h1 : dq ≠ Char.ofNat 123 := by decide
  have h2 : dq ≠ '[' := by decide
  simp only [parseValue, hs, h1, h2, if_false, if_true, hp]
  rfl

theorem parseValue_emptyArr (f d : Nat) (s rest : List Char) (hd : d < maxNestingDepth)
    (hs : skipWs s = '[' :: ']' :: rest) :
    parseValue (f + 1) d s = some (.arr [], rest) := by
  have h1 : '[' ≠ Char.ofNat 123 := by decide
  have h2 : ¬ maxNestingDepth ≤ d := by omega
  have h3 : skipWs (']' :: rest) = ']' :: rest := skipWs_cons _ _ (by decide)
  simp only [parseValue, hs, h1, h2, h3, if_false, if_true]

theorem parseValue_emptyObj (f d : Nat) (s rest : List Char) (hd : d < maxNestingDepth)
    (hs : skipWs s = Char.ofNat 123 :: Char.ofNat 125 :: rest) :
    parseValue (f + 1) d s = some (.obj [], rest) := by
  have h1 : skipWs (Char.ofNat 125 :: rest) = Char.ofNat 125 :: rest :=
    skipWs_cons _ _ (by decide)
  have h2 : ¬ maxNestingDepth ≤ d := by omega
  simp only [parseValue, hs, h1, h2, if_false, if_true]

theorem parseValue_arr (f d : Nat) (s r : List Char) (c2 : Char) (r2 : List Char)
    (hd : d < maxNestingDepth) (hs : skipWs s = '[' :: r) (hr : skipWs r = c2 :: r2)
    (hc : c2 ≠ ']') :
    parseValue (f + 1) d s = (parseElems f (d + 1) (c2 :: r2)).map fun p => (.arr p.1, p.2) := by
  have h1 : '[' ≠ Char.ofNat 123 := by decide
  have h2 : ¬ maxNestingDepth ≤ d := by omega
  simp only [parseValue, hs, h1, h2, hr, hc, if_false, if_true]

theorem parseValue_obj (f d : Nat) (s r : List Char) (c2 : Char) (r2 : List Char)
    (hd : d < maxNestingDepth) (hs : skipWs s = Char.ofNat 123 :: r) (hr : skipWs r = c2 :: r2)
    (hc : c2 ≠ Char.ofNat 125) :
    parseValue (f + 1) d s =
      (parseMembers f (d + 1) (c2 :: r2)).map fun p => (.obj p.1, p.2) := by
  have h2 : ¬ maxNestingDepth ≤ d := by omega
  simp only [parseValue, hs, h2, hr, hc, if_false, if_true]

theorem skipWs_newline (d : Nat) (c : Char) (s : List Char) (h : isSpace c = false) :
    skipWs (newline d ++ c :: s) = c :: s := by
  rw [skipWs_append _ _ (newline_allSpace d), skipWs_cons c s h]

theorem parseElems_last (f d : Nat) (s r rest : List Char) (v : JSON)
    (hv : parseValue f d s = some (v, r)) (hr : skipWs r = ']' :: rest) :
    parseElems (f + 1) d s = some ([v], rest) := by
  have h1 : ']' ≠ ',' := by decide
  simp only [parseElems, hv, hr, h1, if_false, if_true]

theorem parseElems_more (f d : Nat) (s r r2 : List Char) (v : JSON)
    (hv : parseValue f d s = some (v, r)) (hr : skipWs r = ',' :: r2) :
    parseElems (f + 1) d s = (parseElems f d r2).map fun p => (v :: p.1, p.2) := by
  simp only [parseElems, hv, hr, if_true]

theorem parseMembers_key (f d : Nat) (s : List Char) (k : String) (r3 : List Char)
    (hs : skipWs s = quote k ++ ':' :: r3) :
    parseMembers (f + 1) d s =
      match parseValue f d r3 with
      | none => none
      | some (v, r4) =>
        match skipWs r4 with
        | [] => none
        | c :: r5 =>
          if c = ',' then (parseMembers f d r5).map fun p => ((k, v) :: p.1, p.2)
          else if c = Char.ofNat 125 then some ([(k, v)], r5)
          else none := by
  have hq : quote k ++ ':' :: r3 = dq :: (quoteBody k.data ++ dq :: ':' :: r3) := by
    simp [quote]
  rw [hq] at hs
  have hp := parseStringBody_quoteBody k.data (quoteBody k.data ++ dq :: ':' :: r3).length
    (':' :: r3)
    (by have := quoteBody_length k.data; simp only [List.length_append, List.length_cons]; omega)
  have h1 : skipWs (':' :: r3) = ':' :: r3 := skipWs_cons _ _ (by decide)
  simp only [parseMembers, hs, if_true, hp, h1]

mutual
theorem parse_render : ∀ (j : JSON) (d fuel : Nat) (ws rest : List Char),
    fits d j → fuelFor j ≤ fuel → ws.all isSpace = true → terminated rest = true →
    parseValue fuel d (ws ++ (render d j ++ rest)) = some (j, rest)
  | .null, d, fuel, ws, rest, _, hf, hw, _ => by
    obtain ⟨f, rfl⟩ : ∃ f, fuel = f + 1 := ⟨fuel - 1, by simp [fuelFor] at hf; omega⟩
    exact parseValue_null f d _ rest (by
      rw [skipWs_append _ _ hw]; exact skipWs_cons _ _ (by decide))
  | .bool true, d, fuel, ws, rest, _, hf, hw, _ => by
    obtain ⟨f, rfl⟩ : ∃ f, fuel = f + 1 := ⟨fuel - 1, by simp [fuelFor] at hf; omega⟩
    exact parseValue_true f d _ rest (by
      rw [skipWs_append _ _ hw]; exact skipWs_cons _ _ (by decide))
  | .bool false, d, fuel, ws, rest, _, hf, hw, _ => by
    obtain ⟨f, rfl⟩ : ∃ f, fuel = f + 1 := ⟨fuel - 1, by simp [fuelFor] at hf; omega⟩
    exact parseValue_false f d _ rest (by
      rw [skipWs_append _ _ hw]; exact skipWs_cons _ _ (by decide))
  | .num lit, d, fuel, ws, rest, hfit, hf, hw, ht => by
    obtain ⟨f, rfl⟩ : ∃ f, fuel = f + 1 := ⟨fuel - 1, by simp [fuelFor] at hf; omega⟩
    obtain ⟨i, rfl⟩ := hfit
    obtain ⟨c, r, hl, hc⟩ := intLit_head i
    refine parseValue_num f d _ i rest ?_ ht
    rw [skipWs_append _ _ hw]
    simp only [render, hl, List.cons_append]
    exact skipWs_cons _ _ (digit_not_special c hc).1
  | .str s, d, fuel, ws, rest, _, hf, hw, _ => by
    obtain ⟨f, rfl⟩ : ∃ f, fuel = f + 1 := ⟨fuel - 1, by simp [fuelFor] at hf; omega⟩
    refine parseValue_str f d _ s rest ?_
    rw [skipWs_append _ _ hw]
    simp only [render, quote, List.cons_append]
    exact skipWs_cons _ _ (by decide)
  | .arr [], d, fuel, ws, rest, hfit, hf, hw, _ => by
    obtain ⟨f, rfl⟩ : ∃ f, fuel = f + 1 := ⟨fuel - 1, by simp [fuelFor] at hf; omega⟩
    refine parseValue_emptyArr f d _ rest hfit.1 ?_
    rw [skipWs_append _ _ hw]
    exact skipWs_cons _ _ (by decide)
  | .arr (x :: xs), d, fuel, ws, rest, hfit, hf, hw, ht => by
    obtain ⟨f, rfl⟩ : ∃ f, fuel = f + 1 := ⟨fuel - 1, by simp [fuelFor] at hf; omega⟩
    obtain ⟨hd, hfx⟩ := hfit
    obtain ⟨c, r, hl, hc1, hc2⟩ := render_head (d + 1) x hfx.1
    have hs : skipWs (ws ++ (render d (.arr (x :: xs)) ++ rest)) =
        '[' :: (newline (d + 1) ++ (render (d + 1) x ++ (renderElems d xs ++ rest))) := by
      rw [skipWs_append _ _ hw]
      simp only [render, List.cons_append, List.append_assoc]
      exact skipWs_cons _ _ (by decide)
    have hr : skipWs (newline (d + 1) ++ (render (d + 1) x ++ (renderElems d xs ++ rest))) =
        c :: (r ++ (renderElems d xs ++ rest)) := by
      rw [hl]; exact skipWs_newline _ _ _ hc1
    rw [parseValue_arr f d _ _ c _ hd hs hr hc2]
    have := parse_renderElems (x :: xs) d f [] rest (by simp) hfx
      (by simp only [fuelFor] at hf; omega) rfl ht
    simp only [elemsText, List.nil_append, hl, List.cons_append, List.append_assoc] at this
    rw [this]
    rfl
  | .obj [], d, fuel, ws, rest, hfit, hf, hw, _ => by
    obtain ⟨f, rfl⟩ : ∃ f, fuel = f + 1 := ⟨fuel - 1, by simp [fuelFor] at hf; omega⟩
    refine parseValue_emptyObj f d _ rest hfit.1 ?_
    rw [skipWs_append _ _ hw]
    exact skipWs_cons _ _ (by decide)
  | .obj ((k, x) :: kvs), d, fuel, ws, rest, hfit, hf, hw, ht => by
    obtain ⟨f, rfl⟩ : ∃ f, fuel = f + 1 := ⟨fuel - 1, by simp [fuelFor] at hf; omega⟩
    obtain ⟨hd, hfx⟩ := hfit
    have hs : skipWs (ws ++ (render d (.obj ((k, x) :: kvs)) ++ rest)) =
        Char.ofNat 123 :: (newline (d + 1) ++ (dq :: (quoteBody k.data ++ dq :: ':' :: ' ' ::
          (render (d + 1) x ++ (renderMembers d kvs ++ rest))))) := by
      rw [skipWs_append _ _ hw]
      simp only [render, quote, List.cons_append, List.append_assoc, List.nil_append]
      exact skipWs_cons _ _ (by decide)
    have hr : skipWs (newline (d + 1) ++ (dq :: (quoteBody k.data ++ dq :: ':' :: ' ' ::
          (render (d + 1) x ++ (renderMembers d kvs ++ rest))))) =
        dq :: (quoteBody k.data ++ dq :: ':' :: ' ' ::
          (render (d + 1) x ++ (renderMembers d kvs ++ rest))) :=
      skipWs_newline _ _ _ (by decide)
    rw [parseValue_obj f d _ _ dq _ hd hs hr (by decide)]
    have := parse_renderMembers ((k, x) :: kvs) d f [] rest (by simp) hfx
      (by simp only [fuelFor] at hf; omega) rfl ht
    simp only [membersText, quote, List.nil_append, List.cons_append, List.append_assoc]
      at this
    rw [this]
    rfl
theorem parse_renderElems : ∀ (l : List JSON) (d fuel : Nat) (ws rest : List Char),
    l ≠ [] → fitsElems (d + 1) l → fuelForElems l ≤ fuel → ws.all isSpace = true →
    terminated rest = true →
    parseElems fuel (d + 1) (ws ++ (elemsText d l ++ rest)) = some (l, rest)
  | [], _, _, _, _, hne, _, _, _, _ => absurd rfl hne
  | [x], d, fuel, ws, rest, _, hfit, hf, hw, _ => by
    obtain ⟨f, rfl⟩ : ∃ f, fuel = f + 1 := ⟨fuel - 1, by simp [fuelForElems] at hf; omega⟩
    have hv := parse_render x (d + 1) f ws (renderElems d [] ++ rest) hfit.1
      (by simp only [fuelForElems] at hf; omega) hw (by simp [renderElems, newline, terminated])
    simp only [elemsText, List.append_assoc]
    refine parseElems_last f (d + 1) _ _ rest x hv ?_
    simp only [renderElems, List.append_assoc, List.cons_append, List.nil_append]
    exact skipWs_newline _ _ _ (by decide)
  | x :: y :: ys, d, fuel, ws, rest, _, hfit, hf, hw, ht => by
    obtain ⟨f, rfl⟩ : ∃ f, fuel = f + 1 := ⟨fuel - 1, by simp [fuelForElems] at hf; omega⟩
    have hv := parse_render x (d + 1) f ws (renderElems d (y :: ys) ++ rest) hfit.1
      (by simp only [fuelForElems] at hf; omega) hw (by simp [renderElems, terminated])
    simp only [elemsText, List.append_assoc]
    have hr : skipWs (renderElems d (y :: ys) ++ rest) =
        ',' :: (newline (d + 1) ++ (elemsText d (y :: ys) ++ rest)) := by
      simp only [renderElems, elemsText, List.cons_append, List.append_assoc]
      exact skipWs_cons _ _ (by decide)
    rw [parseElems_more f (d + 1) _ _ _ x hv hr]
    rw [parse_renderElems (y :: ys) d f (newline (d + 1)) rest (by simp) hfit.2
      (by simp only [fuelForElems] at hf ⊢; omega) (newline_allSpace _) ht]
    rfl
theorem parse_renderMembers : ∀ (l : List (String × JSON)) (d fuel : Nat) (ws rest : List Char),
    l ≠ [] → fitsMembers (d + 1) l → fuelForMembers l ≤ fuel → ws.all isSpace = true →
    terminated rest = true →
    parseMembers fuel (d + 1) (ws ++ (membersText d l ++ rest)) = some (l, rest)
  | [], _, _, _, _, hne, _, _, _, _ => absurd rfl hne
  | [(k, x)], d, fuel, ws, rest, _, hfit, hf, hw, _ => by
    obtain ⟨f, rfl⟩ : ∃ f, fuel = f + 1 := ⟨fuel - 1, by simp [fuelForMembers] at hf; omega⟩
    have hv := parse_render x (d + 1) f [' '] (renderMembers d [] ++ rest) hfit.1
      (by simp only [fuelForMembers] at hf; omega) rfl
      (by simp [renderMembers, newline, terminated])
    have hs : skipWs (ws ++ (membersText d [(k, x)] ++ rest)) =
        quote k ++ ':' :: ([' '] ++ (render (d + 1) x ++ (renderMembers d [] ++ rest))) := by
      rw [skipWs_append _ _ hw]
      simp only [membersText, quote, List.cons_append, List.append_assoc, List.nil_append]
      exact skipWs_cons _ _ (by decide)
    rw [parseMembers_key f (d + 1) _ k _ hs, hv]
    have hr : skipWs (renderMembers d [] ++ rest) = Char.ofNat 125 :: rest := by
      simp only [renderMembers, List.append_assoc, List.cons_append, List.nil_append]
      exact skipWs_newline _ _ _ (by decide)
    have h1 : Char.ofNat 125 ≠ ',' := by decide
    simp only [hr, h1, if_false, if_true]
  | (k, x) :: y :: ys, d, fuel, ws, rest, _, hfit, hf, hw, ht => by
    obtain ⟨f, rfl⟩ : ∃ f, fuel = f + 1 := ⟨fuel - 1, by simp [fuelForMembers] at hf; omega⟩
    have hv := parse_render x (d + 1) f [' '] (renderMembers d (y :: ys) ++ rest) hfit.1
      (by simp only [fuelForMembers] at hf; omega) rfl
      (by obtain ⟨k2, x2⟩ := y; simp [renderMembers, terminated])
    have hs : skipWs (ws ++ (membersText d ((k, x) :: y :: ys) ++ rest)) =
        quote k ++ ':' :: ([' '] ++ (render (d + 1) x ++
          (renderMembers d (y :: ys) ++ rest))) := by
      rw [skipWs_append _ _ hw]
      simp only [membersText, quote, List.cons_append, List.append_assoc, List.nil_append]
      exact skipWs_cons _ _ (by decide)
    rw [parseMembers_key f (d + 1) _ k _ hs, hv]
    have hr : skipWs (renderMembers d (y :: ys) ++ rest) =
        ',' :: (newline (d + 1) ++ (membersText d (y :: ys) ++ rest)) := by
      obtain ⟨k2, x2⟩ := y
      simp only [renderMembers, membersText, List.cons_append, List.append_assoc]
      exact skipWs_cons _ _ (by decide)
    simp only [hr, if_true]
    rw [parse_renderMembers (y :: ys) d f (newline (d + 1)) rest (by simp) hfit.2
      (by obtain ⟨k2, x2⟩ := y; simp only [fuelForMembers] at hf ⊢; omega)
      (newline_allSpace _) ht]
    rfl
end

theorem newline_length (d : Nat) : 1 ≤ (newline d).length := by
  simp [newline]

mutual
theorem fuelFor_le : ∀ (j : JSON) (d : Nat), fits d j → fuelFor j ≤ (render d j).length
  | .null, d, _ => by simp [fuelFor, render]
  | .bool b, d, _ => by cases b <;> simp [fuelFor, render]
  | .num lit, d, h => by
    obtain ⟨i, rfl⟩ := h
    obtain ⟨c, r, hl, _⟩ := intLit_head i
    simp [fuelFor, render, hl]
  | .str s, d, _ => by simp [fuelFor, render, quote]
  | .arr [], d, _ => by simp [fuelFor, render, fuelForElems]
  | .arr (x :: xs), d, h => by
    have h1 := fuelFor_le x (d + 1) h.2.1
    have h2 := fuelForElems_le xs d h.2.2
    have h3 := newline_length (d + 1)
    simp only [fuelFor, fuelForElems, render, List.length_cons, List.length_append]
    omega
  | .obj [], d, _ => by simp [fuelFor, render, fuelForMembers]
  | .obj ((k, x) :: kvs), d, h => by
    have h1 := fuelFor_le x (d + 1) h.2.1
    have h2 := fuelForMembers_le kvs d h.2.2
    have h3 := newline_length (d + 1)
    simp only [fuelFor, fuelForMembers, render, List.length_cons, List.length_append]
    omega
theorem fuelForElems_le : ∀ (xs : List JSON) (d : Nat), fitsElems (d + 1) xs →
    fuelForElems xs + 1 ≤ (renderElems d xs).length
  | [], d, _ => by simp [fuelForElems, renderElems]
  | x :: xs, d, h => by
    have h1 := fuelFor_le x (d + 1) h.1
    have h2 := fuelForElems_le xs d h.2
    have h3 := newline_length (d + 1)
    simp only [fuelForElems, renderElems, List.length_cons, List.length_append]
    omega
theorem fuelForMembers_le : ∀ (kvs : List (String × JSON)) (d : Nat), fitsMembers (d + 1) kvs →
    fuelForMembers kvs + 1 ≤ (renderMembers d kvs).length
  | [], d, _ => by simp [fuelForMembers, renderMembers]
  | (k, x) :: kvs, d, h => by
    have h1 := fuelFor_le x (d + 1) h.1
    have h2 := fuelForMembers_le kvs d h.2
    have h3 := newline_length (d + 1)
    simp only [fuelForMembers, renderMembers, List.length_cons, List.length_append]
    omega
end

theorem firstValue_render (j : JSON) (h : fits 0 j) : firstValue (render 0 j) = some j := by
  have hf := fuelFor_le j 0 h
  have := parse_render j 0 (2 * (render 0 j).length + 2) [] [] h (by omega) rfl rfl
  simp only [List.nil_append, List.append_nil] at this
  simp [firstValue, this]

mutual
theorem encode_fits : ∀ (T : Ty) (v : Val) (j : JSON) (d : Nat),
    encode T v = .ok j → d + tyDepth T ≤ maxNestingDepth → fits d j
  | .string, v, j, d, h, _ => by
    cases v <;> simp [encode] at h; subst h; simp [fits]
  | .bool, v, j, d, h, _ => by
    cases v <;> simp [encode] at h; subst h; simp [fits]
  | .int64, v, j, d, h, _ => by
    cases v <;> simp [encode] at h; subst h; exact ⟨_, rfl⟩
  | .int, v, j, d, h, _ => by
    cases v <;> simp [encode] at h; subst h; exact ⟨_, rfl⟩
  | .uint64, v, j, d, h, _ => by
    cases v <;> simp [encode] at h; subst h; exact ⟨_, rfl⟩
  | .duration, v, j, d, h, _ => by
    cases v <;> simp [encode] at h; subst h; exact ⟨_, rfl⟩
  | .time, v, j, d, h, _ => by
    cases v <;> simp only [encode] at h <;> try (simp at h)
    split at h
    · simp at h
    · injection h with h; subst h; simp [fits]
  | .ptr t, v, j, d, h, hd => by
    cases v <;> simp only [encode] at h <;> try (simp at h)
    case nilPtr => subst h; simp [fits]
    case ptr w =>
      simp only [tyDepth] at hd
      exact encode_fits t w j d h hd
  | .slice t, v, j, d, h, hd => by
    cases v <;> simp only [encode] at h <;> try (simp at h)
    case nilSlice => subst h; simp [fits]
    case slice xs =>
      simp only [tyDepth] at hd
      split at h
      · simp at h
      · rename_i js hjs
        injection h with h; subst h
        refine ⟨by omega, ?_⟩
        exact mapE_forall (encode t) (fun _ => True) (fun js => fitsElems (d + 1) js)
          trivial
          (fun x j js _ hj hjs => ⟨encode_fits t x j (d + 1) hj (by omega), hjs⟩)
          xs js (fun _ _ => trivial) hjs
  | .struct fs, v, j, d, h, hd => by
    cases v <;> simp only [encode] at h <;> try (simp at h)
    case struct vs =>
      simp only [tyDepth] at hd
      split at h
      · simp at h
      · rename_i kvs hkvs
        injection h with h; subst h
        exact ⟨by omega, encodeFields_fits fs vs kvs (d + 1) hkvs (by omega)⟩
theorem encodeFields_fits : ∀ (fs : Fields) (vs : List Val) (kvs : List (String × JSON))
    (d : Nat), encodeFields fs vs = .ok kvs → d + fieldsDepth fs ≤ maxNestingDepth →
    fitsMembers d kvs
  | .nil, vs, kvs, d, h, _ => by
    cases vs <;> simp [encodeFields] at h
    subst h; trivial
  | .cons k om t rest, [], kvs, d, h, _ => by simp [encodeFields] at h
  | .cons k om t rest, v :: vs, kvs, d, h, hd => by
    simp only [fieldsDepth] at hd
    simp only [encodeFields] at h
    split at h
    · exact encodeFields_fits rest vs kvs d h (by omega)
    · split at h
      · simp at h
      · rename_i j hj
        split at h
        · simp at h
        · rename_i kvs2 hkvs2
          injection h with h; subst h
          exact ⟨encode_fits t v j d hj (by omega),
            encodeFields_fits rest vs kvs2 d hkvs2 (by omega)⟩
end

theorem tyDepth_LogT : tyDepth (.ptr LogT) ≤ 10 := by decide

theorem newLog_dump_text (L : Val) (j : JSON) (h : encode (.ptr LogT) L = .ok j) :
    firstValue (render 0 (.obj [("log", j)])) = some (.obj [("log", j)]) := by
  apply firstValue_render
  have hd := tyDepth_LogT
  refine ⟨by decide, ?_, trivial⟩
  exact encode_fits (.ptr LogT) L j 1 h (by simp only [maxNestingDepth]; omega)

/-! ### Keys left out of the written document -/

/-- C5 (amended): for every `Log` whose optional fields (`Comment`, `Browser`,
`Pages`, every `Cache`, every nested `Comment`) are unset, the text written by
`Dump` is the text of a JSON document in which no object, at any depth, has a
member with the key `"comment"`, `"browser"` or `"pages"`; and an `Entry`
whose `Cache` is nil is written with the member `"cache": null`. -/
theorem dump_omits_unset_optional_fields :
    (∀ (w w2 : Writer) (L : Val) (text : List Char),
      unset ["comment", "browser", "pages", "cache"] (.ptr LogT) L = true →
      Dump w L = (w2, none) → w2.written = w.written ++ text →
      ∃ j, encode (.ptr LogT) L = .ok j ∧ text = render 0 (.obj [("log", j)]) ∧
        firstValue text = some (.obj [("log", j)]) ∧
        hasKey "comment" (.obj [("log", j)]) = false ∧
        hasKey "browser" (.obj [("log", j)]) = false ∧
        hasKey "pages" (.obj [("log", j)]) = false) ∧
    (∀ (e : Val) (j : JSON), encode EntryT e = .ok j →
      field EntryT "cache" e = some .nilPtr → member "cache" j = some .null) := by
  constructor
  · intro w w2 L text hu hd ht
    obtain ⟨_, j, he, hw⟩ := dump_written w w2 L hd
    have htext : text = render 0 (.obj [("log", j)]) :=
      List.append_cancel_left (ht.symm.trans hw)
    refine ⟨j, he, htext, by rw [htext]; exact newLog_dump_text L j he, ?_, ?_, ?_⟩
    · have := encode_noKey ["comment", "browser", "pages", "cache"] "comment" rfl (.ptr LogT) L j hu rfl he
      simp [hasKey, hasKeyMembers, this]
    · have := encode_noKey ["comment", "browser", "pages", "cache"] "browser" rfl (.ptr LogT) L j hu rfl he
      simp [hasKey, hasKeyMembers, this]
    · have := encode_noKey ["comment", "browser", "pages", "cache"] "pages" rfl (.ptr LogT) L j hu rfl he
      simp [hasKey, hasKeyMembers, this]
  · intro e j he hf
    have := member_encode _ e j "cache" .nilPtr false (.ptr CacheT) he (by decide) hf rfl
    simpa [encode, okValue] using this

set_option maxRecDepth 100000 in
theorem dump_omits_unset_optional_fields_witness :
    (∃ j, encode (.ptr LogT) (.ptr oneEntryLog) = .ok j ∧
      (Dump ⟨true, []⟩ (.ptr oneEntryLog)).1.written = render 0 (.obj [("log", j)]) ∧
      firstValue (Dump ⟨true, []⟩ (.ptr oneEntryLog)).1.written = some (.obj [("log", j)]) ∧
      hasKey "comment" (.obj [("log", j)]) = false ∧
      hasKey "browser" (.obj [("log", j)]) = false ∧
      hasKey "pages" (.obj [("log", j)]) = false) ∧
    member "cache" (.obj [("cache", .null)]) = some .null :=
  ⟨dump_omits_unset_optional_fields.1 ⟨true, []⟩ (Dump ⟨true, []⟩ (.ptr oneEntryLog)).1
      (.ptr oneEntryLog) (Dump ⟨true, []⟩ (.ptr oneEntryLog)).1.written rfl rfl rfl,
   rfl⟩

/-! ### Timestamps: `fmtTime` and `parseTime` -/

theorem digitChar_val (d : Nat) : (digitChar d).toNat - 48 = d % 10 := by
  rw [digitChar_toNat]; omega

theorem getnum2_pad2 (n : Nat) (rest : List Char) (h : n < 100) :
    getnum2 (pad2 n ++ rest) = some (n, rest) := by
  simp only [pad2, List.cons_append, List.nil_append, getnum2, isDigit_digitChar,
    Bool.and_self, if_true, digitChar_val]
  congr 2
  omega

theorem getnum12_pad2 (n : Nat) (rest : List Char) (h : n < 100) :
    getnum12 (pad2 n ++ rest) = some (n, rest) := by
  simp only [pad2, List.cons_append, List.nil_append, getnum12, isDigit_digitChar,
    if_true, digitChar_val]
  congr 2
  omega

theorem getYear_pad4 (n : Nat) (rest : List Char) (h : n ≤ 9999) :
    getYear (pad4 n ++ rest) = some (n, rest) := by
  simp only [pad4, List.cons_append, List.nil_append, getYear, parseDigits, isDigit_digitChar,
    if_true, digitChar_val, Option.map]
  congr 2
  omega

theorem expectChar_cons (c : Char) (rest : List Char) : expectChar c (c :: rest) = some rest := by
  simp [expectChar]

theorem parseDigits_pad9 (n : Nat) (h : n < 1000000000) : parseDigits (pad9 n) 0 = some n := by
  simp only [pad9, parseDigits, isDigit_digitChar, if_true, digitChar_val]
  congr 1
  omega

theorem takeWhile_digits_of (l rest : List Char) (hl : l.all isDigit = true)
    (hr : ∀ c r, rest = c :: r → isDigit c = false) :
    (l ++ rest).takeWhile isDigit = l ∧ (l ++ rest).dropWhile isDigit = rest := by
  induction l with
  | nil =>
    cases rest with
    | nil => simp
    | cons c r => simp [List.takeWhile, List.dropWhile, hr c r rfl]
  | cons c cs ih =>
    simp only [List.all_cons, Bool.and_eq_true] at hl
    obtain ⟨h1, h2⟩ := ih hl.2
    simp [List.takeWhile, List.dropWhile, hl.1, h1, h2]

theorem parseDigits_zeros (zs : List Char) (hz : ∀ c ∈ zs, c = '0') : ∀ a : Nat,
    parseDigits zs a = some (a * 10 ^ zs.length) := by
  induction zs with
  | nil => intro a; simp [parseDigits]
  | cons c cs ih =>
    intro a
    have hc : c = '0' := hz c (List.mem_cons_self _ _)
    subst hc
    have h0 : isDigit '0' = true := rfl
    have h1 : ('0' : Char).toNat - 48 = 0 := rfl
    simp only [parseDigits, h0, if_true, h1, Nat.add_zero]
    rw [ih (fun c hc => hz c (List.mem_cons_of_mem _ hc))]
    simp only [List.length_cons, pow_succ]
    congr 1
    ring

theorem trimZeros_split (l : List Char) :
    ∃ zs, l = trimZeros l ++ zs ∧ ∀ c ∈ zs, c = '0' := by
  refine ⟨(l.reverse.takeWhile (fun c => decide (c = '0'))).reverse, ?_, ?_⟩
  · have h := List.takeWhile_append_dropWhile (fun c => decide (c = '0')) l.reverse
    have h2 := congrArg List.reverse h
    simp only [List.reverse_append, List.reverse_reverse] at h2
    exact h2.symm
  · intro c hc
    rw [List.mem_reverse] at hc
    have := List.mem_takeWhile_imp hc
    simpa using this

theorem pad9_all_digits (n : Nat) : (pad9 n).all isDigit = true := by
  simp [pad9, isDigit_digitChar]

theorem getFrac_fmtNano (n : Nat) (z : List Char) (hn : n < 1000000000)
    (hz : ∃ c r, z = c :: r ∧ isDigit c = false ∧ c ≠ '.' ∧ c ≠ ',') :
    getFrac (fmtNano n ++ z) = (n, z) := by
  obtain ⟨c, r, rfl, hc1, hc2, hc3⟩ := hz
  unfold fmtNano
  by_cases h0 : n = 0
  · subst h0
    simp only [Nat.zero_mod, if_true, List.nil_append]
    cases r with
    | nil => rfl
    | cons d r2 => simp [getFrac, hc2, hc3]
  · have hm : n % 1000000000 ≠ 0 := by omega
    rw [if_neg hm]
    obtain ⟨zs, hsplit, hzs⟩ := trimZeros_split (pad9 n)
    have hall := pad9_all_digits n
    have hlen : (pad9 n).length = 9 := rfl
    have hp := parseDigits_pad9 n hn
    rw [hsplit, parseDigits_append] at hp
    rw [hsplit] at hall hlen
    simp only [List.all_append, Bool.and_eq_true] at hall
    simp only [List.length_append] at hlen
    cases ht : parseDigits (trimZeros (pad9 n)) 0 with
    | none => simp [ht] at hp
    | some a =>
      simp only [ht, Option.bind, parseDigits_zeros zs hzs] at hp
      have ha : a * 10 ^ zs.length = n := Option.some.inj hp
      cases htl : trimZeros (pad9 n) with
      | nil =>
        rw [htl] at ht
        simp [parseDigits] at ht
        subst ht
        omega
      | cons d ds =>
        rw [htl] at hall ht hlen
        have hd : isDigit d = true := by
          have := hall.1
          simp only [List.all_cons, Bool.and_eq_true] at this
          exact this.1
        obtain ⟨h1, h2⟩ := takeWhile_digits_of (d :: ds) (c :: r) hall.1
          (by intro c2 r2 h; injection h with h _; subst h; exact hc1)
        have hk : (d :: ds).take 9 = d :: ds := List.take_of_length_le (by omega)
        have hz9 : 9 - (d :: ds).length = zs.length := by omega
        simp only [List.cons_append, getFrac, true_or, hd, and_self, if_true]
        simp only [List.cons_append] at h1 h2
        rw [h1, h2, hk, ht, hz9]
        simp [ha]

theorem getZone_fmtZone (off : Int) (h60 : off % 60 = 0) (h24 : off.natAbs / 60 / 60 < 24) :
    getZone (fmtZone off) = some (off, []) := by
  unfold fmtZone
  by_cases h0 : off = 0
  · subst h0; rfl
  · rw [if_neg h0]
    simp only
    have hh : off.natAbs / 60 / 60 < 100 := by omega
    have hm : off.natAbs / 60 % 60 < 100 := by omega
    have g1 := getnum2_pad2 (off.natAbs / 60 / 60) [] hh
    have g2 := getnum2_pad2 (off.natAbs / 60 % 60) [] hm
    simp only [pad2, List.cons_append, List.nil_append] at g1 g2
    have hval : (off.natAbs / 60 / 60 * 60 + off.natAbs / 60 % 60) * 60 = off.natAbs := by
      omega
    by_cases hneg : off ≤ -60
    · rw [if_pos hneg]
      have c1 : ('-' : Char) ≠ 'Z' := by decide
      have c2 : ('-' : Char) ≠ '+' := by decide
      simp only [pad2, List.cons_append, List.nil_append, getZone, c1, c2, if_false, if_true,
        g1, g2, Option.bind]
      rw [if_neg (by omega), hval]
      congr 2
      omega
    · rw [if_neg hneg]
      have c1 : ('+' : Char) ≠ 'Z' := by decide
      simp only [pad2, List.cons_append, List.nil_append, getZone, c1, if_false, if_true,
        g1, g2, Option.bind]
      rw [if_neg (by omega), hval]
      congr 2
      omega

theorem fmtZone_head (off : Int) :
    ∃ c r, fmtZone off = c :: r ∧ isDigit c = false ∧ c ≠ '.' ∧ c ≠ ',' := by
  unfold fmtZone
  split
  · exact ⟨'Z', [], rfl, by decide, by decide, by decide⟩
  · simp only
    split
    · exact ⟨'-', _, rfl, by decide, by decide, by decide⟩
    · exact ⟨'+', _, rfl, by decide, by decide, by decide⟩

theorem getDate_fmt (y m d : Nat) (rest : List Char) (hy : y ≤ 9999) (hm : m < 100)
    (hd : d < 100) :
    getDate (pad4 y ++ '-' :: (pad2 m ++ '-' :: (pad2 d ++ 'T' :: rest))) =
      some ((y, m, d), rest) := by
  simp only [getDate, getYear_pad4 y _ hy, Option.bind, expectChar_cons, getnum2_pad2 m _ hm,
    getnum2_pad2 d _ hd, Option.map]

theorem getClock_fmt (h mi s n : Nat) (z : List Char) (hh : h < 100) (hmi : mi < 100)
    (hs : s < 100) (hn : n < 1000000000)
    (hz : ∃ c r, z = c :: r ∧ isDigit c = false ∧ c ≠ '.' ∧ c ≠ ',') :
    getClock (pad2 h ++ ':' :: (pad2 mi ++ ':' :: (pad2 s ++ (fmtNano n ++ z)))) =
      some ((h, mi, s, n), z) := by
  simp only [getClock, getnum12_pad2 h _ hh, Option.bind, expectChar_cons,
    getnum2_pad2 mi _ hmi, getnum2_pad2 s _ hs, Option.map, getFrac_fmtNano n z hn hz]

theorem parseTime_fmtTime (t : Time) (h : timeValid t = true) :
    parseTime (fmtTime t) = some t := by
  simp only [timeValid, yearInRange, Bool.and_eq_true, decide_eq_true_eq] at h
  obtain ⟨⟨⟨⟨⟨⟨⟨⟨⟨⟨⟨hy0, hy1⟩, hm1⟩, hm2⟩, hd1⟩, hd2⟩, hh⟩, hmi⟩, hs⟩, hn⟩, ho1⟩, ho2⟩ := h
  have hd3 : t.day < 100 := by
    have : daysIn t.month t.year ≤ 31 := by
      unfold daysIn; split_ifs <;> omega
    omega
  have hyn : t.year.toNat ≤ 9999 := by omega
  have hdate := getDate_fmt t.year.toNat t.month t.day
    (pad2 t.hour ++ ':' :: (pad2 t.minute ++ ':' :: (pad2 t.second ++
      (fmtNano t.nano ++ fmtZone t.offset)))) hyn (by omega) hd3
  have hclock := getClock_fmt t.hour t.minute t.second t.nano (fmtZone t.offset)
    (by omega) (by omega) (by omega) hn (fmtZone_head t.offset)
  have hzone := getZone_fmtZone t.offset ho1 ho2
  have hcast : ((t.year.toNat : Nat) : Int) = t.year := Int.toNat_of_nonneg hy0
  have htext : fmtTime t = pad4 t.year.toNat ++ '-' :: (pad2 t.month ++ '-' :: (pad2 t.day ++
      'T' :: (pad2 t.hour ++ ':' :: (pad2 t.minute ++ ':' :: (pad2 t.second ++
      (fmtNano t.nano ++ fmtZone t.offset)))))) := by
    simp [fmtTime]
  rw [htext]
  simp only [parseTime, hdate, Option.bind, hclock, hzone]
  rw [if_neg (by simp), if_neg (by omega), if_neg (by rw [hcast]; omega), hcast]

theorem timeValid_marshal (t : Time) (h : timeValid t = true) :
    (yearInRange t && zoneInRange t) = true := by
  simp only [timeValid, Bool.and_eq_true, decide_eq_true_eq] at h
  simp only [zoneInRange, Bool.and_eq_true, Bool.or_eq_true, decide_eq_true_eq]
  exact ⟨h.1.1.1.1.1.1.1.1.1.1, Or.inr h.2⟩

theorem unmarshal_marshalTime (t : Time) (h : timeValid t = true) :
    ∃ s, marshalTime t = .ok s ∧ unmarshalTime s = .ok t := by
  refine ⟨String.mk (fmtTime t), marshalTime_ok t (timeValid_marshal t h), ?_⟩
  simp [unmarshalTime, parseTime_fmtTime t h]

/-! ### Decoding what `encode` produced -/

theorem string_of_data_nil (s : String) (h : s.data = []) : s = "" := by
  cases s; simp_all

theorem norm_empty (t : Ty) (v : Val) (ht : hasType t v = true) (he : isEmptyValue v = true) :
    norm (zero t) = norm v := by
  cases t <;> cases v <;> simp [hasType] at ht <;> simp [isEmptyValue] at he <;>
    simp_all [zero, norm, string_of_data_nil]

theorem encode_nonnull (t : Ty) (v : Val) (j : JSON) (hn : t.nilable = false)
    (h : encode t v = .ok j) : j.isNull = false := by
  cases t with
  | ptr t => simp [Ty.nilable] at hn
  | slice t => simp [Ty.nilable] at hn
  | time =>
    cases v <;> simp only [encode] at h <;> try (simp at h)
    split at h
    · simp at h
    · injection h with h; subst h; rfl
  | struct fs =>
    cases v <;> simp only [encode] at h <;> try (simp at h)
    split at h
    · simp at h
    · injection h with h; subst h; rfl
  | _ =>
    cases v <;> simp [encode] at h
    all_goals (subst h; rfl)

theorem decode_ptr_nonnull (t : Ty) (cur : Val) (j : JSON) (hn : j.isNull = false) :
    decode (.ptr t) cur j =
      match decode t (pointee (zero t) cur) j with
      | .ok v => .ok (.ptr v)
      | .error e => .error e := by
  cases j <;> simp [JSON.isNull] at hn
  all_goals simp only [decode]

theorem decodeAt_dropF : ∀ (fs : Fields) (n : Nat) (pre : List Val) (c : Val) (post : List Val)
    (j : JSON) (k : String) (om : Bool) (t : Ty) (rest : Fields),
    dropF n fs = .cons k om t rest → pre.length = n →
    decodeAt fs n (pre ++ c :: post) j =
      match decode t c j with
      | .ok w => .ok (pre ++ w :: post)
      | .error e => .error e
  | .nil, 0, pre, c, post, j, k, om, t, rest, hd, _ => by simp [dropF] at hd
  | .nil, n + 1, pre, c, post, j, k, om, t, rest, hd, _ => by simp [dropF] at hd
  | .cons k2 om2 t2 rest2, 0, pre, c, post, j, k, om, t, rest, hd, hp => by
    simp only [dropF, Fields.cons.injEq] at hd
    obtain ⟨_, _, ht, _⟩ := hd
    subst ht
    have : pre = [] := List.length_eq_zero.mp hp
    subst this
    simp only [List.nil_append, decodeAt]
  | .cons k2 om2 t2 rest2, n + 1, [], c, post, j, k, om, t, rest, hd, hp => by simp at hp
  | .cons k2 om2 t2 rest2, n + 1, p :: pre, c, post, j, k, om, t, rest, hd, hp => by
    simp only [dropF] at hd
    simp only [List.length_cons, Nat.add_right_cancel_iff] at hp
    have ih := decodeAt_dropF rest2 n pre c post j k om t rest hd hp
    simp only [List.cons_append, decodeAt, List.append_eq]
    rw [ih]
    cases decode t c j <;> rfl

theorem dropF_succ : ∀ (fs : Fields) (n : Nat) (k : String) (om : Bool) (t : Ty) (rest : Fields),
    dropF n fs = .cons k om t rest → dropF (n + 1) fs = rest
  | .nil, 0, k, om, t, rest, h => by simp [dropF] at h
  | .nil, n + 1, k, om, t, rest, h => by simp [dropF] at h
  | .cons k2 om2 t2 rest2, 0, k, om, t, rest, h => by
    simp only [dropF, Fields.cons.injEq] at h
    simp only [dropF]
    exact h.2.2.2
  | .cons k2 om2 t2 rest2, n + 1, k, om, t, rest, h => by
    simp only [dropF] at h ⊢
    exact dropF_succ rest2 n k om t rest h

theorem normList_append (a b : List Val) : normList (a ++ b) = normList a ++ normList b := by
  induction a with
  | nil => rfl
  | cons x xs ih => simp [normList, ih]

theorem decodeElems_mapE (t : Ty) :
    ∀ (xs : List Val) (js : List JSON),
      (∀ x ∈ xs, ∀ j, encode t x = .ok j →
        ∃ y, decode t (zero t) j = .ok y ∧ norm y = norm x) →
      mapE (encode t) xs = .ok js →
      ∃ ys, decodeElems (decode t) (zero t) [] js = .ok ys ∧ normList ys = normList xs ∧
        ys.length = xs.length := by
  intro xs
  induction xs with
  | nil => intro js _ h; simp [mapE] at h; subst h; exact ⟨[], rfl, rfl, rfl⟩
  | cons x xs ih =>
    intro js hx h
    simp only [mapE] at h
    cases hfx : encode t x with
    | error e => simp [hfx] at h
    | ok j =>
      simp only [hfx] at h
      cases hr : mapE (encode t) xs with
      | error e => simp [hr] at h
      | ok js2 =>
        simp only [hr] at h
        injection h with h; subst h
        obtain ⟨y, hy, hny⟩ := hx x (List.mem_cons_self _ _) j hfx
        obtain ⟨ys, hys, hnys, hl⟩ := ih js2 (fun a ha => hx a (List.mem_cons_of_mem _ ha)) hr
        exact ⟨y :: ys, by simp [decodeElems, hy, hys], by simp [normList, hny, hnys],
          by simp [hl]⟩

mutual
theorem decode_encode : ∀ (T : Ty) (v : Val) (j : JSON),
    soundTy T = true → hasType T v = true → allTimes timeValid v = true →
    encode T v = .ok j → ∃ v2, decode T (zero T) j = .ok v2 ∧ norm v2 = norm v
  | .string, v, j, hs, ht, ha, h => by
    cases v <;> simp [hasType] at ht
    simp only [encode] at h; injection h with h; subst h
    exact ⟨_, rfl, rfl⟩
  | .bool, v, j, hs, ht, ha, h => by
    cases v <;> simp [hasType] at ht
    simp only [encode] at h; injection h with h; subst h
    exact ⟨_, rfl, rfl⟩
  | .int64, v, j, hs, ht, ha, h => by
    cases v <;> simp only [hasType] at ht <;> try (simp at ht)
    rename_i i
    simp only [encode] at h; injection h with h; subst h
    exact ⟨.int i, by simp [decode, parseInt_intLit i ht], rfl⟩
  | .int, v, j, hs, ht, ha, h => by
    cases v <;> simp only [hasType] at ht <;> try (simp at ht)
    rename_i i
    simp only [encode] at h; injection h with h; subst h
    exact ⟨.int i, by simp [decode, parseInt_intLit i ht], rfl⟩
  | .duration, v, j, hs, ht, ha, h => by
    cases v <;> simp only [hasType] at ht <;> try (simp at ht)
    rename_i i
    simp only [encode] at h; injection h with h; subst h
    exact ⟨.int i, by simp [decode, parseInt_intLit i ht], rfl⟩
  | .uint64, v, j, hs, ht, ha, h => by
    cases v <;> simp only [hasType] at ht <;> try (simp at ht)
    rename_i i
    simp only [encode] at h; injection h with h; subst h
    simp only [inUint64, Bool.and_eq_true, decide_eq_true_eq] at ht
    obtain ⟨n, rfl⟩ := Int.eq_ofNat_of_zero_le ht.1
    have hn : n < 2 ^ 64 := by exact_mod_cast ht.2
    have hl : intLit (n : Int) = natLit n := rfl
    exact ⟨.int n, by simp [decode, hl, parseUint_natLit n hn], rfl⟩
  | .time, v, j, hs, ht, ha, h => by
    cases v <;> simp only [hasType] at ht <;> try (simp at ht)
    rename_i t
    simp only [allTimes] at ha
    obtain ⟨s, hm, hu⟩ := unmarshal_marshalTime t ha
    simp only [encode, hm] at h; injection h with h; subst h
    exact ⟨.time t, by simp [decode, hu], rfl⟩
  | .ptr t, v, j, hs, ht, ha, h => by
    simp only [soundTy, Bool.and_eq_true, Bool.not_eq_true'] at hs
    cases v <;> simp only [hasType] at ht <;> try (simp at ht)
    · simp only [encode] at h; injection h with h; subst h
      exact ⟨.nilPtr, rfl, rfl⟩
    · rename_i w
      simp only [encode] at h
      simp only [allTimes] at ha
      obtain ⟨w2, hw2, hn⟩ := decode_encode t w j hs.2 ht ha h
      have hnn := encode_nonnull t w j hs.1 h
      refine ⟨.ptr w2, ?_, by simp [norm, hn]⟩
      rw [decode_ptr_nonnull t _ j hnn]
      simp only [zero, pointee, hw2]
  | .slice t, v, j, hs, ht, ha, h => by
    simp only [soundTy] at hs
    cases v <;> simp only [hasType] at ht <;> try (simp at ht)
    · simp only [encode] at h; injection h with h; subst h
      exact ⟨.nilSlice, rfl, rfl⟩
    · rename_i xs
      simp only [allTimes, allTimesList_iff] at ha
      simp only [encode] at h
      split at h
      · simp at h
      · rename_i js hjs
        injection h with h; subst h
        obtain ⟨ys, hys, hn, hl⟩ := decodeElems_mapE t xs js
          (fun x hx j hj => decode_encode t x j hs (by simpa using ht x hx) (ha x hx) hj) hjs
        refine ⟨.slice ys, by simp [decode, zero, elements, hys], ?_⟩
        have he : ys.isEmpty = xs.isEmpty := by
          cases ys <;> cases xs <;> simp_all
        simp only [norm, he, hn]
  | .struct fs, v, j, hs, ht, ha, h => by
    simp only [soundTy, Bool.and_eq_true] at hs
    cases v <;> simp only [hasType] at ht <;> try (simp at ht)
    rename_i vs
    simp only [allTimes] at ha
    simp only [encode] at h
    split at h
    · simp at h
    · rename_i kvs hkvs
      injection h with h; subst h
      obtain ⟨vs2, hvs2, hn⟩ := decode_encodeFields fs fs 0 [] vs kvs rfl hs.1 hs.2 rfl ht ha hkvs
      simp only [List.nil_append] at hvs2
      exact ⟨.struct vs2, by simp [decode, zero, fieldsOf, hvs2], by simp [norm, hn]⟩
theorem decode_encodeFields : ∀ (rest fs : Fields) (n : Nat) (pre vs : List Val)
    (kvs : List (String × JSON)),
    dropF n fs = rest → indexedFrom fs rest n = true → soundFields rest = true →
    pre.length = n → hasFieldTypes rest vs = true → allTimesList timeValid vs = true →
    encodeFields rest vs = .ok kvs →
    ∃ vs2, foldE (fun vs kv =>
        match fieldIndex fs kv.1 with
        | none => .ok vs
        | some i => decodeAt fs i vs kv.2) (pre ++ zeroFields rest) kvs = .ok (pre ++ vs2) ∧
      normList vs2 = normList vs
  | .nil, fs, n, pre, vs, kvs, hd, hi, hs, hp, ht, ha, h => by
    cases vs <;> simp [hasFieldTypes] at ht
    simp only [encodeFields] at h; injection h with h; subst h
    exact ⟨[], by simp [foldE, zeroFields], rfl⟩
  | .cons k om t rest, fs, n, pre, [], kvs, _, _, _, _, ht, _, _ => by
    simp [hasFieldTypes] at ht
  | .cons k om t rest, fs, n, pre, v :: vs, kvs, hd, hi, hs, hp, ht, ha, h => by
    simp only [indexedFrom, Bool.and_eq_true, decide_eq_true_eq] at hi
    simp only [soundFields, Bool.and_eq_true] at hs
    simp only [hasFieldTypes, Bool.and_eq_true] at ht
    simp only [allTimesList, Bool.and_eq_true] at ha
    have hd2 := dropF_succ fs n k om t rest hd
    simp only [encodeFields] at h
    split at h
    · rename_i hskip
      simp only [Bool.and_eq_true] at hskip
      obtain ⟨vs2, hvs2, hn⟩ := decode_encodeFields rest fs (n + 1) (pre ++ [zero t]) vs kvs
        hd2 hi.2 hs.2 (by simp [hp]) ht.2 ha.2 h
      refine ⟨zero t :: vs2, ?_, ?_⟩
      · simpa [zeroFields, List.append_assoc] using hvs2
      · simp [normList, hn, norm_empty t v ht.1 hskip.2]
    · split at h
      · simp at h
      · rename_i j hj
        split at h
        · simp at h
        · rename_i kvs2 hkvs2
          injection h with h; subst h
          obtain ⟨w, hw, hnw⟩ := decode_encode t v j hs.1 ht.1 ha.1 hj
          obtain ⟨vs2, hvs2, hn⟩ := decode_encodeFields rest fs (n + 1) (pre ++ [w]) vs kvs2
            hd2 hi.2 hs.2 (by simp [hp]) ht.2 ha.2 hkvs2
          refine ⟨w :: vs2, ?_, by simp [normList, hn, hnw]⟩
          have hstep := decodeAt_dropF fs n pre (zero t) (zeroFields rest) j k om t rest hd hp
          simp only [hw] at hstep
          simp only [foldE, zeroFields, hi.1, hstep]
          simpa [List.append_assoc] using hvs2
end

/-! ### Round trip -/

mutual
theorem allTimes_mono (p q : Time → Bool) (hpq : ∀ t, p t = true → q t = true) :
    ∀ v : Val, allTimes p v = true → allTimes q v = true
  | .str _, _ => rfl
  | .bool _, _ => rfl
  | .int _, _ => rfl
  | .time t, h => by simp only [allTimes] at h ⊢; exact hpq t h
  | .nilPtr, _ => rfl
  | .ptr v, h => by simp only [allTimes] at h ⊢; exact allTimes_mono p q hpq v h
  | .nilSlice, _ => rfl
  | .slice xs, h => by simp only [allTimes] at h ⊢; exact allTimesList_mono p q hpq xs h
  | .struct vs, h => by simp only [allTimes] at h ⊢; exact allTimesList_mono p q hpq vs h
theorem allTimesList_mono (p q : Time → Bool) (hpq : ∀ t, p t = true → q t = true) :
    ∀ vs : List Val, allTimesList p vs = true → allTimesList q vs = true
  | [], _ => rfl
  | v :: vs, h => by
    simp only [allTimesList, Bool.and_eq_true] at h ⊢
    exact ⟨allTimes_mono p q hpq v h.1, allTimesList_mono p q hpq vs h.2⟩
end

theorem newLog_render (j : JSON) (L : Val) (h : encode (.ptr LogT) L = .ok j) :
    NewLog (render 0 (.obj [("log", j)])) =
      match decode LogT (zero LogT) j with
      | .ok v => (.ptr v, none)
      | .error e => (.nilPtr, some e) := by
  have hv := newLog_dump_text L j h
  have hl : lookupLast "log" [("log", j)] = some j := by simp [lookupLast]
  simp only [NewLog, decodeRoot, hv, hl, unmarshalLog]
  cases decode LogT (zero LogT) j <;> rfl

set_option maxRecDepth 100000 in
/-- C1 (as stated, refuted): a `Log` with a `Page` whose `StartedDateTime` lies
in the year 10000 is a `Log` value, and `Dump` does not succeed on it: it
writes nothing and returns the error of `Time.MarshalJSON`. -/
theorem dump_fails_on_year_10000 :
    hasType LogT year10000Log = true ∧
      Dump ⟨true, []⟩ (.ptr year10000Log) = (⟨true, []⟩, some .badTime) :=
  ⟨rfl, rfl⟩

theorem roundtrip_core (L : Val) (w : Writer) (ht : hasType LogT L = true)
    (ha : allTimes timeValid L = true) (hw : w.accepts = true) :
    ∃ text L2, Dump w (.ptr L) = (⟨true, w.written ++ text⟩, none) ∧
      NewLog text = (.ptr L2, none) ∧ norm L2 = norm L := by
  have hm : allTimes (fun t => yearInRange t && zoneInRange t) L = true :=
    allTimes_mono timeValid _ timeValid_marshal L ha
  obtain ⟨j, hj⟩ := encode_ok LogT L ht hm
  have hj2 : encode (.ptr LogT) (.ptr L) = .ok j := by simpa [encode] using hj
  obtain ⟨L2, hd, hn⟩ := decode_encode LogT L j rfl ht ha hj
  refine ⟨render 0 (.obj [("log", j)]), L2, dump_of_encode w _ j hw hj2, ?_, hn⟩
  rw [newLog_render j _ hj2, hd]

/-- C1 (amended): for every `Log` value whose timestamps are dates of the
calendar with a year from 0 to 9999 and a zone offset of whole minutes below
24 hours, `Dump` to a writer that accepts every write succeeds, and `NewLog`
applied to the bytes it wrote returns a nil error and a `Log` equal to the
given one field for field, a nil and an empty sequence being treated as
equal (so a nil `Cache` comes back nil and every sequence comes back in the
same order). -/
theorem dump_newLog_roundtrip (L : Val) (w : Writer) (ht : hasType LogT L = true)
    (ha : allTimes timeValid L = true) (hw : w.accepts = true) :
    ∃ text L2, Dump w (.ptr L) = (⟨true, w.written ++ text⟩, none) ∧
      NewLog text = (.ptr L2, none) ∧ norm L2 = norm L :=
  roundtrip_core L w ht ha hw

set_option maxRecDepth 100000 in
theorem dump_newLog_roundtrip_witness :
    ∃ text L2, Dump ⟨true, []⟩ (.ptr sampleLog) = (⟨true, [] ++ text⟩, none) ∧
      NewLog text = (.ptr L2, none) ∧ norm L2 = norm sampleLog :=
  dump_newLog_roundtrip sampleLog ⟨true, []⟩ rfl rfl rfl

/-! ### Times that were read, and writing them again -/

theorem getFrac_bound (s : List Char) : (getFrac s).1 < 1000000000 := by
  unfold getFrac
  split
  · simp
  · simp
  · rename_i c d r
    split
    · simp only
      generalize hk : List.take 9 (List.takeWhile isDigit (d :: r)) = kept
      have hlen : kept.length ≤ 9 := by rw [← hk]; simp [List.length_take]
      cases hp : parseDigits kept 0 with
      | none => simp
      | some a =>
        have hb := parseDigits_bound kept 0 a hp
        simp only [Option.getD, Nat.zero_add, Nat.one_mul] at hb ⊢
        calc a * 10 ^ (9 - kept.length)
            < 10 ^ kept.length * 10 ^ (9 - kept.length) :=
              Nat.mul_lt_mul_of_pos_right hb (by positivity)
          _ = 10 ^ 9 := by rw [← pow_add]; congr 1; omega
          _ = 1000000000 := by norm_num
    · simp

theorem getZone_mod (s : List Char) (z : Int × List Char) (h : getZone s = some z) :
    z.1 % 60 = 0 := by
  unfold getZone at h
  split at h
  · simp at h
  · rename_i c r
    split at h
    · injection h with h; subst h; rfl
    · split at h
      · rename_i h1 h2 col m1 m2 rest
        split at h
        · simp only [Option.bind_eq_some] at h
          obtain ⟨hr, _, mm, _, h⟩ := h
          split at h
          · simp at h
          · split at h
            · injection h with h; subst h
              simp only
              omega
            · split at h
              · injection h with h; subst h
                simp only
                omega
              · simp at h
        · simp at h
      · simp at h

theorem getClock_nano (s : List Char) (c : (Nat × Nat × Nat × Nat) × List Char)
    (h : getClock s = some c) : c.1.2.2.2 < 1000000000 := by
  unfold getClock at h
  simp only [Option.bind_eq_some, Option.map_eq_some'] at h
  obtain ⟨_, _, _, _, _, _, _, _, sec, _, hc⟩ := h
  subst hc
  exact getFrac_bound sec.2

theorem parseTime_parsed (s : List Char) (t : Time) (h : parseTime s = some t) :
    timeParsed t = true := by
  have hy := parseTime_year s t h
  unfold parseTime at h
  simp only [Option.bind_eq_some] at h
  obtain ⟨d, _, c, hc, z, hz, h⟩ := h
  have hn := getClock_nano _ c hc
  have hm := getZone_mod _ z hz
  split at h
  · simp at h
  · split at h
    · simp at h
    · split at h
      · simp at h
      · rename_i h1 h2
        injection h with h
        subst h
        simp only [timeParsed, hy, Bool.true_and, Bool.and_eq_true, decide_eq_true_eq]
        refine ⟨⟨⟨⟨⟨⟨⟨⟨?_, ?_⟩, ?_⟩, ?_⟩, ?_⟩, ?_⟩, ?_⟩, hn⟩, hm⟩ <;> omega

theorem unmarshalTime_parsed (s : String) (t : Time) (h : unmarshalTime s = .ok t) :
    timeParsed t = true := by
  unfold unmarshalTime at h
  cases hp : parseTime s.data with
  | none => simp [hp] at h
  | some u =>
    simp only [hp] at h
    injection h with h
    subst h
    exact parseTime_parsed _ _ hp

theorem mapE_elem (f : Val → Except Err JSON) :
    ∀ (xs : List Val) (js : List JSON), mapE f xs = .ok js → ∀ x ∈ xs, ∃ j, f x = .ok j := by
  intro xs
  induction xs with
  | nil => intro js _ x hx; simp at hx
  | cons a as ih =>
    intro js h x hx
    simp only [mapE] at h
    cases hfa : f a with
    | error e => simp [hfa] at h
    | ok j =>
      simp only [hfa] at h
      cases hr : mapE f as with
      | error e => simp [hr] at h
      | ok js2 =>
        rcases List.mem_cons.mp hx with h1 | h1
        · subst h1; exact ⟨j, hfa⟩
        · exact ih js2 hr x h1
theorem marshalTime_zone (t : Time) (s : String) (h : marshalTime t = .ok s) :
    zoneInRange t = true := by
  unfold marshalTime at h
  split at h
  · simp at h
  · split at h
    · simp at h
    · rename_i h2
      simp only [zoneInRange, Bool.or_eq_true, decide_eq_true_eq]
      by_cases h0 : t.offset = 0
      · exact Or.inl h0
      · exact Or.inr (by
          by_contra hc
          exact h2 ⟨h0, by omega⟩)

theorem allTimes_of_empty (p : Time → Bool) (v : Val) (h : isEmptyValue v = true) :
    allTimes p v = true := by
  cases v <;> simp [isEmptyValue] at h <;> simp [allTimes]
  subst h; rfl

mutual
theorem encode_zones : ∀ (T : Ty) (v : Val) (j : JSON), hasType T v = true →
    encode T v = .ok j → allTimes zoneInRange v = true
  | .string, v, j, ht, _ => by cases v <;> simp [hasType] at ht; rfl
  | .bool, v, j, ht, _ => by cases v <;> simp [hasType] at ht; rfl
  | .int64, v, j, ht, _ => by cases v <;> simp [hasType] at ht; rfl
  | .int, v, j, ht, _ => by cases v <;> simp [hasType] at ht; rfl
  | .uint64, v, j, ht, _ => by cases v <;> simp [hasType] at ht; rfl
  | .duration, v, j, ht, _ => by cases v <;> simp [hasType] at ht; rfl
  | .time, v, j, ht, h => by
    cases v <;> simp [hasType] at ht
    rename_i t
    simp only [encode] at h
    split at h
    · simp at h
    · rename_i s hs
      simpa [allTimes] using marshalTime_zone t s hs
  | .ptr t, v, j, ht, h => by
    cases v <;> simp only [hasType] at ht <;> try (simp at ht)
    · rfl
    · rename_i w
      simp only [encode] at h
      simpa [allTimes] using encode_zones t w j ht h
  | .slice t, v, j, ht, h => by
    cases v <;> simp only [hasType] at ht <;> try (simp at ht)
    · rfl
    · rename_i xs
      simp only [encode] at h
      split at h
      · simp at h
      · rename_i js hjs
        simp only [allTimes]
        exact (allTimesList_iff _ _).2 fun x hx => by
          obtain ⟨jx, hjx⟩ := mapE_elem (encode t) xs js hjs x hx
          exact encode_zones t x jx (by simpa using ht x hx) hjx
  | .struct fs, v, j, ht, h => by
    cases v <;> simp only [hasType] at ht <;> try (simp at ht)
    rename_i vs
    simp only [encode] at h
    split at h
    · simp at h
    · rename_i kvs hkvs
      simpa [allTimes] using encodeFields_zones fs vs kvs ht hkvs
theorem encodeFields_zones : ∀ (fs : Fields) (vs : List Val) (kvs : List (String × JSON)),
    hasFieldTypes fs vs = true → encodeFields fs vs = .ok kvs →
    allTimesList zoneInRange vs = true
  | .nil, vs, kvs, ht, _ => by cases vs <;> simp [hasFieldTypes] at ht; rfl
  | .cons k om t rest, [], kvs, ht, _ => by simp [hasFieldTypes] at ht
  | .cons k om t rest, v :: vs, kvs, ht, h => by
    simp only [hasFieldTypes, Bool.and_eq_true] at ht
    simp only [encodeFields] at h
    simp only [allTimesList, Bool.and_eq_true]
    split at h
    · rename_i hskip
      simp only [Bool.and_eq_true] at hskip
      exact ⟨allTimes_of_empty _ v hskip.2, encodeFields_zones rest vs kvs ht.2 h⟩
    · split at h
      · simp at h
      · rename_i j hj
        split at h
        · simp at h
        · rename_i kvs2 hkvs2
          exact ⟨encode_zones t v j ht.1 hj, encodeFields_zones rest vs kvs2 ht.2 hkvs2⟩
end

/-! ### Order of the records of a sequence -/

theorem decodeElems_forall₂ (f : Val → JSON → Except Err Val) (z : Val) :
    ∀ (xs : List JSON) (olds ys : List Val), decodeElems f z olds xs = .ok ys →
      List.Forall₂ (fun x y => ∃ c, f c x = .ok y) xs ys := by
  intro xs
  induction xs with
  | nil => intro olds ys h; simp [decodeElems] at h; subst h; exact List.Forall₂.nil
  | cons x xs ih =>
    intro olds ys h
    cases olds with
    | nil =>
      simp only [decodeElems] at h
      cases hfx : f z x with
      | error e => simp [hfx] at h
      | ok v =>
        simp only [hfx] at h
        cases hr : decodeElems f z [] xs with
        | error e => simp [hr] at h
        | ok vs =>
          simp only [hr] at h
          injection h with h; subst h
          exact List.Forall₂.cons ⟨z, hfx⟩ (ih [] vs hr)
    | cons o os =>
      simp only [decodeElems] at h
      cases hfx : f o x with
      | error e => simp [hfx] at h
      | ok v =>
        simp only [hfx] at h
        cases hr : decodeElems f z os xs with
        | error e => simp [hr] at h
        | ok vs =>
          simp only [hr] at h
          injection h with h; subst h
          exact List.Forall₂.cons ⟨o, hfx⟩ (ih os vs hr)

theorem mapE_forall₂ (f : Val → Except Err JSON) :
    ∀ (ys : List Val) (js : List JSON), mapE f ys = .ok js →
      List.Forall₂ (fun y j => f y = .ok j) ys js := by
  intro ys
  induction ys with
  | nil => intro js h; simp [mapE] at h; subst h; exact List.Forall₂.nil
  | cons y ys ih =>
    intro js h
    simp only [mapE] at h
    cases hfy : f y with
    | error e => simp [hfy] at h
    | ok j =>
      simp only [hfy] at h
      cases hr : mapE f ys with
      | error e => simp [hr] at h
      | ok js2 =>
        simp only [hr] at h
        injection h with h; subst h
        exact List.Forall₂.cons hfy (ih js2 hr)

theorem timeValid_of_parsed (t : Time) (h : (timeParsed t && zoneInRange t) = true) :
    timeValid t = true := by
  simp only [timeParsed, zoneInRange, Bool.and_eq_true, Bool.or_eq_true, decide_eq_true_eq] at h
  simp only [timeValid, Bool.and_eq_true, decide_eq_true_eq]
  refine ⟨h.1, ?_⟩
  rcases h.2 with h0 | h0
  · rw [h0]; decide
  · exact h0

theorem reread_core (r : List Char) (L : Val) (w w2 : Writer) (hn : NewLog r = (L, none))
    (hd : Dump w L = (w2, none)) :
    ∃ text L2, w2.written = w.written ++ text ∧ NewLog text = (L2, none) ∧
      norm L2 = norm L := by
  obtain ⟨kvs, j, v, _, _, hdec, rfl⟩ := newLog_ok r L hn
  have ht : hasType LogT v = true := decode_typed LogT _ j v (hasType_zero LogT) hdec
  have hp : allTimes timeParsed v = true :=
    decode_allTimes timeParsed rfl unmarshalTime_parsed LogT _ j v
      (allTimes_zero timeParsed rfl LogT) hdec
  obtain ⟨hw, j2, he, _⟩ := dump_written w w2 _ hd
  have hz : allTimes zoneInRange v = true := by
    have := encode_zones (.ptr LogT) (.ptr v) j2 (by simpa [hasType] using ht) he
    simpa [allTimes] using this
  have ha : allTimes timeValid v = true :=
    allTimes_mono _ _ timeValid_of_parsed v (allTimes_and _ _ v hp hz)
  obtain ⟨text, L2, hd2, hn2, hnorm⟩ := roundtrip_core v w ht ha hw
  rw [hd] at hd2
  injection hd2 with h1 _
  refine ⟨text, .ptr L2, by rw [h1], hn2, by simp [norm, hnorm]⟩

/-! ### Sequences are read and written in order -/

theorem indexWhere_lt (p : String → Bool) : ∀ (ks : List String) (i : Nat),
    indexWhere p ks = some i → i < ks.length := by
  intro ks
  induction ks with
  | nil => intro i h; simp [indexWhere] at h
  | cons k ks ih =>
    intro i h
    simp only [indexWhere] at h
    split at h
    · injection h with h; subst h; simp
    · cases hr : indexWhere p ks with
      | none => simp [hr] at h
      | some m =>
        simp only [hr, Option.map_some', Option.some.injEq] at h
        subst h
        have := ih m hr
        simp only [List.length_cons]; omega

theorem fieldIndex_lt (fs : Fields) (key : String) (i : Nat) (h : fieldIndex fs key = some i) :
    i < fs.keys.length := by
  unfold fieldIndex at h
  split at h
  · rename_i m hm
    injection h with h; subst h
    exact indexWhere_lt _ _ _ hm
  · exact indexWhere_lt _ _ _ h

theorem zeroFields_length : ∀ fs : Fields, (zeroFields fs).length = fs.keys.length
  | .nil => rfl
  | .cons k om t rest => by simp [zeroFields, Fields.keys, zeroFields_length rest]

theorem decodeElems_nil_forall₂ (f : Val → JSON → Except Err Val) (z : Val) :
    ∀ (xs : List JSON) (ys : List Val), decodeElems f z [] xs = .ok ys →
      List.Forall₂ (fun x y => f z x = .ok y) xs ys := by
  intro xs
  induction xs with
  | nil => intro ys h; simp [decodeElems] at h; subst h; exact List.Forall₂.nil
  | cons x xs ih =>
    intro ys h
    simp only [decodeElems] at h
    cases hfx : f z x with
    | error e => simp [hfx] at h
    | ok v =>
      simp only [hfx] at h
      cases hr : decodeElems f z [] xs with
      | error e => simp [hr] at h
      | ok vs =>
        simp only [hr] at h
        injection h with h; subst h
        exact List.Forall₂.cons hfx (ih vs hr)

theorem decodeAt_frame : ∀ (fs : Fields) (i : Nat) (vs : List Val) (j : JSON) (vs2 : List Val),
    decodeAt fs i vs j = .ok vs2 → ∀ m, m ≠ i → vs2.get? m = vs.get? m
  | .nil, i, vs, j, vs2, h => by
    simp only [decodeAt] at h
    injection h with h; subst h; intro m _; rfl
  | .cons k om t rest, i, [], j, vs2, h => by
    cases i <;> simp only [decodeAt] at h <;> (injection h with h; subst h; intro m _; rfl)
  | .cons k om t rest, 0, v :: vs, j, vs2, h => by
    simp only [decodeAt] at h
    split at h
    · injection h with h; subst h
      intro m hm
      cases m with
      | zero => exact absurd rfl hm
      | succ m => rfl
    · simp at h
  | .cons k om t rest, i + 1, v :: vs, j, vs2, h => by
    simp only [decodeAt] at h
    split at h
    · rename_i w hw
      injection h with h; subst h
      intro m hm
      cases m with
      | zero => rfl
      | succ m =>
        simp only [List.get?_cons_succ]
        exact decodeAt_frame rest i vs j w hw m (by omega)
    · simp at h

theorem inOrderAt_none : ∀ (fs : Fields) (i : Nat) (j : JSON) (vs : List Val),
    vs.get? i = none → inOrderAt fs i j vs → False
  | .nil, i, j, vs, _, h => by simp [inOrderAt] at h
  | .cons k om t rest, i, j, [], _, h => by cases i <;> simp [inOrderAt] at h
  | .cons k om t rest, 0, j, v :: vs, hg, _ => by simp at hg
  | .cons k om t rest, i + 1, j, v :: vs, hg, h => by
    simp only [List.get?_cons_succ] at hg
    simp only [inOrderAt] at h
    exact inOrderAt_none rest i j vs hg h

theorem inOrderAt_congr : ∀ (fs : Fields) (i : Nat) (j : JSON) (vs vs2 : List Val),
    vs2.get? i = vs.get? i → inOrderAt fs i j vs → inOrderAt fs i j vs2
  | .nil, i, j, vs, vs2, _, h => by simp [inOrderAt] at h
  | .cons k om t rest, i, j, [], vs2, _, h => by cases i <;> simp [inOrderAt] at h
  | .cons k om t rest, 0, j, v :: vs, [], hg, _ => by simp at hg
  | .cons k om t rest, 0, j, v :: vs, v2 :: vs2, hg, h => by
    simp only [List.get?_cons_zero, Option.some.injEq] at hg
    subst hg
    simpa only [inOrderAt] using h
  | .cons k om t rest, i + 1, j, v :: vs, [], hg, h => by
    exfalso
    simp only [inOrderAt] at h
    simp only [List.get?_cons_succ, List.get?_nil] at hg
    revert hg h
    exact fun hg h => inOrderAt_none rest i j vs hg.symm h
  | .cons k om t rest, i + 1, j, v :: vs, v2 :: vs2, hg, h => by
    simp only [List.get?_cons_succ] at hg
    simp only [inOrderAt] at h ⊢
    exact inOrderAt_congr rest i j vs vs2 hg h
theorem noRepeat_cons (i : Nat) (is : List Nat) (h : noRepeat (i :: is) = true) :
    i ∉ is ∧ noRepeat is = true := by
  simp only [noRepeat, Bool.and_eq_true, Bool.not_eq_true', List.contains_eq_any_beq,
    List.any_eq_false, beq_iff_eq] at h
  refine ⟨fun hm => ?_, h.2⟩
  exact h.1 i hm rfl

theorem foldE_inOrder (fs : Fields)
    (H : ∀ (i : Nat) (vs : List Val) (x : JSON) (vs2 : List Val),
      somewhereAt repeatedKey fs i x = false → vs.get? i = (zeroFields fs).get? i →
      i < fs.keys.length →
      decodeAt fs i vs x = .ok vs2 → inOrderAt fs i x vs2) :
    ∀ (kvs : List (String × JSON)) (s vs : List Val),
      foldE (fun vs kv => match fieldIndex fs kv.1 with
          | none => .ok vs
          | some i => decodeAt fs i vs kv.2) s kvs = .ok vs →
      noRepeat (targets fs kvs) = true →
      (∀ i ∈ targets fs kvs, s.get? i = (zeroFields fs).get? i) →
      (∀ kv ∈ kvs, ∀ i, fieldIndex fs kv.1 = some i →
        somewhereAt repeatedKey fs i kv.2 = false) →
      (∀ kv ∈ kvs, ∀ i, fieldIndex fs kv.1 = some i → inOrderAt fs i kv.2 vs) ∧
        (∀ m, m ∉ targets fs kvs → vs.get? m = s.get? m) := by
  intro kvs
  induction kvs with
  | nil =>
    intro s vs h _ _ _
    simp only [foldE] at h
    injection h with h; subst h
    exact ⟨fun kv hkv => absurd hkv (List.not_mem_nil _), fun m _ => rfl⟩
  | cons kv kvs ih =>
    intro s vs h hn hz hs
    simp only [foldE] at h
    cases hi : fieldIndex fs kv.1 with
    | none =>
      simp only [hi] at h
      have ht : targets fs (kv :: kvs) = targets fs kvs := by
        simp [targets, List.filterMap_cons, hi]
      rw [ht] at hn hz ⊢
      obtain ⟨h1, h2⟩ := ih s vs h hn hz
        (fun kv2 hkv2 => hs kv2 (List.mem_cons_of_mem _ hkv2))
      refine ⟨?_, h2⟩
      intro kv2 hkv2 i hi2
      rcases List.mem_cons.mp hkv2 with h3 | h3
      · subst h3; rw [hi] at hi2; exact absurd hi2 (by simp)
      · exact h1 kv2 h3 i hi2
    | some i =>
      simp only [hi] at h
      have ht : targets fs (kv :: kvs) = i :: targets fs kvs := by
        simp [targets, List.filterMap_cons, hi]
      rw [ht] at hn hz ⊢
      obtain ⟨hni, hn2⟩ := noRepeat_cons i _ hn
      cases hd : decodeAt fs i s kv.2 with
      | error e => simp [hd] at h
      | ok s2 =>
        simp only [hd] at h
        have hfr := decodeAt_frame fs i s kv.2 s2 hd
        obtain ⟨h1, h2⟩ := ih s2 vs h hn2
          (fun m hm => by
            rw [hfr m (fun hmi => hni (hmi ▸ hm))]
            exact hz m (List.mem_cons_of_mem _ hm))
          (fun kv2 hkv2 => hs kv2 (List.mem_cons_of_mem _ hkv2))
        have hkv : inOrderAt fs i kv.2 vs := by
          refine inOrderAt_congr fs i kv.2 s2 vs (h2 i hni) ?_
          exact H i s kv.2 s2 (hs kv (List.mem_cons_self _ _) i hi)
            (hz i (List.mem_cons_self _ _)) (fieldIndex_lt fs kv.1 i hi) hd
        refine ⟨?_, ?_⟩
        · intro kv2 hkv2 i2 hi2
          rcases List.mem_cons.mp hkv2 with h3 | h3
          · subst h3
            rw [hi] at hi2
            injection hi2 with hi2
            subst hi2
            exact hkv
          · exact h1 kv2 h3 i2 hi2
        · intro m hm
          simp only [List.mem_cons, not_or] at hm
          rw [h2 m hm.2]
          exact hfr m hm.1

theorem somewhere_struct_false (p : Ty → JSON → Bool) (fs : Fields)
    (kvs : List (String × JSON)) (h : somewhere p (.struct fs) (.obj kvs) = false) :
    p (.struct fs) (.obj kvs) = false ∧
      ∀ kv ∈ kvs, ∀ i, fieldIndex fs kv.1 = some i → somewhereAt p fs i kv.2 = false := by
  simp only [somewhere, Bool.or_eq_false_iff, List.any_eq_false] at h
  refine ⟨h.1, ?_⟩
  intro kv hkv i hi
  have := h.2 kv hkv
  simp only [hi] at this
  simpa using this

theorem somewhere_slice_false (p : Ty → JSON → Bool) (t : Ty) (xs : List JSON)
    (h : somewhere p (.slice t) (.arr xs) = false) :
    ∀ x ∈ xs, somewhere p t x = false := by
  simp only [somewhere, Bool.or_eq_false_iff, List.any_eq_false] at h
  intro x hx
  simpa using h.2 x hx

theorem somewhere_ptr_false (p : Ty → JSON → Bool) (t : Ty) (j : JSON)
    (h : somewhere p (.ptr t) j = false) (hn : j.isNull = false) :
    somewhere p t j = false := by
  simp only [somewhere, Bool.or_eq_false_iff, Bool.and_eq_false_iff, Bool.not_eq_false'] at h
  rcases h.2 with h2 | h2
  · rw [hn] at h2; exact absurd h2 (by simp)
  · exact h2
theorem forall₂_imp_mem {α β : Type} (R S : α → β → Prop) :
    ∀ (xs : List α) (ys : List β), List.Forall₂ R xs ys →
      (∀ x ∈ xs, ∀ y, R x y → S x y) → List.Forall₂ S xs ys := by
  intro xs ys h
  induction h with
  | nil => intro _; exact List.Forall₂.nil
  | cons hr _ ih =>
    intro hs
    exact List.Forall₂.cons (hs _ (List.mem_cons_self _ _) _ hr)
      (ih fun x hx y hxy => hs x (List.mem_cons_of_mem _ hx) y hxy)

mutual
theorem decode_inOrder : ∀ (T : Ty) (j : JSON) (v : Val),
    somewhere repeatedKey T j = false → decode T (zero T) j = .ok v → inOrder T j v
  | .string, j, v, _, _ => by simp [inOrder]
  | .bool, j, v, _, _ => by simp [inOrder]
  | .int64, j, v, _, _ => by simp [inOrder]
  | .int, j, v, _, _ => by simp [inOrder]
  | .uint64, j, v, _, _ => by simp [inOrder]
  | .duration, j, v, _, _ => by simp [inOrder]
  | .time, j, v, _, _ => by simp [inOrder]
  | .ptr t, j, v, hs, h => by
    cases hn : j.isNull with
    | true =>
      cases j <;> simp [JSON.isNull] at hn
      simp only [decode] at h
      injection h with h; subst h
      simp [inOrder]
    | false =>
      obtain ⟨w, hw, rfl⟩ := decode_ptr_ok t _ j v hn h
      have := decode_inOrder t j w (somewhere_ptr_false _ t j hs hn)
        (by simpa [zero, pointee] using hw)
      cases j <;> first | (simp [JSON.isNull] at hn; done) | simpa only [inOrder] using this
  | .slice t, j, v, hs, h => by
    cases j <;> simp only [decode] at h <;> try (simp at h; done)
    case null => injection h with h; subst h; simp [inOrder]
    case arr xs =>
      split at h
      · rename_i ys hys
        injection h with h; subst h
        simp only [inOrder]
        have h2 := decodeElems_nil_forall₂ (decode t) (zero t) xs ys
          (by simpa [zero, elements] using hys)
        exact forall₂_imp_mem _ _ xs ys h2 fun x hx y hxy =>
          ⟨hxy, decode_inOrder t x y (somewhere_slice_false _ t xs hs x hx) hxy⟩
      · simp at h
  | .struct fs, j, v, hs, h => by
    cases j <;> simp only [decode] at h <;> try (simp at h; done)
    case null => simp [inOrder]
    case obj kvs =>
      split at h
      · rename_i vs hvs
        injection h with h; subst h
        simp only [inOrder]
        obtain ⟨hp, hall⟩ := somewhere_struct_false _ fs kvs hs
        have hnr : noRepeat (targets fs kvs) = true := by
          simpa [repeatedKey] using hp
        exact (foldE_inOrder fs
          (fun i vs x vs2 h1 h2 h3 h4 => decodeAt_inOrder fs i vs x vs2 h1 h2 h3 h4)
          kvs _ vs (by simpa [zero, fieldsOf] using hvs) hnr
          (fun i _ => by simp [zero, fieldsOf]) hall).1
      · simp at h
theorem decodeAt_inOrder : ∀ (fs : Fields) (i : Nat) (vs : List Val) (x : JSON)
    (vs2 : List Val), somewhereAt repeatedKey fs i x = false →
    vs.get? i = (zeroFields fs).get? i → i < fs.keys.length →
    decodeAt fs i vs x = .ok vs2 → inOrderAt fs i x vs2
  | .nil, i, vs, x, vs2, _, _, hi, _ => by simp [Fields.keys] at hi
  | .cons k om t rest, 0, [], x, vs2, _, hz, _, _ => by simp [zeroFields] at hz
  | .cons k om t rest, i + 1, [], x, vs2, _, hz, hi, _ => by
    exfalso
    simp only [zeroFields, List.get?_cons_succ, List.get?_nil] at hz
    simp only [Fields.keys, List.length_cons] at hi
    have := zeroFields_length rest
    have h2 : i < (zeroFields rest).length := by omega
    rw [List.get?_eq_get h2] at hz
    simp at hz
  | .cons k om t rest, 0, v :: vs, x, vs2, hs, hz, _, h => by
    simp only [zeroFields, List.get?_cons_zero, Option.some.injEq] at hz
    subst hz
    simp only [somewhereAt] at hs
    simp only [decodeAt] at h
    split at h
    · rename_i w hw
      injection h with h; subst h
      simp only [inOrderAt]
      exact ⟨hw, decode_inOrder t x w hs hw⟩
    · simp at h
  | .cons k om t rest, i + 1, v :: vs, x, vs2, hs, hz, hi, h => by
    simp only [zeroFields, List.get?_cons_succ] at hz
    simp only [somewhereAt] at hs
    simp only [Fields.keys, List.length_cons] at hi
    simp only [decodeAt] at h
    split at h
    · rename_i w hw
      injection h with h; subst h
      simp only [inOrderAt]
      exact decodeAt_inOrder rest i vs x w hs hz (by omega) hw
    · simp at h
end
mutual
theorem encode_outOrder : ∀ (T : Ty) (v : Val) (j : JSON),
    plainKeys T = true → encode T v = .ok j → outOrder T v j
  | .string, v, j, _, _ => by simp [outOrder]
  | .bool, v, j, _, _ => by simp [outOrder]
  | .int64, v, j, _, _ => by simp [outOrder]
  | .int, v, j, _, _ => by simp [outOrder]
  | .uint64, v, j, _, _ => by simp [outOrder]
  | .duration, v, j, _, _ => by simp [outOrder]
  | .time, v, j, _, _ => by simp [outOrder]
  | .ptr t, v, j, hp, h => by
    simp only [plainKeys] at hp
    cases v <;> simp only [encode] at h <;> try (simp at h; done)
    case nilPtr => injection h with h; subst h; simp [outOrder]
    case ptr w => simpa only [outOrder] using encode_outOrder t w j hp h
  | .slice t, v, j, hp, h => by
    simp only [plainKeys] at hp
    cases v <;> simp only [encode] at h <;> try (simp at h; done)
    case nilSlice => injection h with h; subst h; simp [outOrder]
    case slice ys =>
      split at h
      · simp at h
      · rename_i zs hzs
        injection h with h; subst h
        simp only [outOrder]
        exact forall₂_imp_mem _ _ ys zs (mapE_forall₂ (encode t) ys zs hzs)
          fun y _ z hyz => ⟨hyz, encode_outOrder t y z hp hyz⟩
  | .struct fs, v, j, hp, h => by
    simp only [plainKeys, Bool.and_eq_true, decide_eq_true_eq] at hp
    cases v <;> simp only [encode] at h <;> try (cases h)
    case struct vs =>
      split at h
      · simp at h
      · rename_i kvs hkvs
        injection h with h; subst h
        simp only [outOrder]
        exact encodeFields_outOrder fs vs kvs hp.1 hp.2 hkvs
theorem encodeFields_outOrder : ∀ (fs : Fields) (vs : List Val) (kvs : List (String × JSON)),
    fs.keys.Nodup → plainKeysFields fs = true → encodeFields fs vs = .ok kvs →
    ∀ kv ∈ kvs, outOrderAt fs kv.1 vs kv.2
  | .nil, vs, kvs, _, _, h => by
    cases vs <;> simp [encodeFields] at h
    subst h; simp
  | .cons k om t rest, [], kvs, _, _, h => by simp [encodeFields] at h
  | .cons k om t rest, v :: vs, kvs, hnd, hp, h => by
    simp only [Fields.keys, List.nodup_cons] at hnd
    simp only [plainKeysFields, Bool.and_eq_true] at hp
    simp only [encodeFields] at h
    have tail : ∀ kvs2, encodeFields rest vs = .ok kvs2 → ∀ kv ∈ kvs2,
        outOrderAt (.cons k om t rest) kv.1 (v :: vs) kv.2 := by
      intro kvs2 h2 kv hkv
      have hk : k ≠ kv.1 := fun hk => hnd.1 (hk ▸ encodeFields_keys rest vs kvs2 h2 kv hkv)
      simp only [outOrderAt, hk, if_false]
      exact encodeFields_outOrder rest vs kvs2 hnd.2 hp.2 h2 kv hkv
    split at h
    · exact tail kvs h
    · split at h
      · simp at h
      · rename_i j hj
        split at h
        · simp at h
        · rename_i kvs2 hkvs2
          injection h with h; subst h
          intro kv hkv
          rcases List.mem_cons.mp hkv with h1 | h1
          · subst h1
            simp only [outOrderAt, if_true]
            exact ⟨hj, encode_outOrder t v j hp.1 hj⟩
          · exact tail kvs2 hkvs2 kv h1
end

theorem plainKeys_LogT : plainKeys (.ptr LogT) = true := by decide
set_option maxRecDepth 100000 in
/-- C9 (as stated, refuted): on a document whose timestamp has the zone
`+24:00`, `NewLog` succeeds and `Dump` of the returned `Log` fails and writes
nothing, so no record of the input is in the output; and on a document that
repeats the key `"pages"`, `NewLog` succeeds and the page at position 0 of
`Log.Pages` has the title of element 0 of the first array and the id of
element 0 of the second, so it is the record decoded from neither element. -/
theorem sequence_order_lost :
    (NewLog zone24Text).2 = none ∧
      Dump ⟨true, []⟩ (NewLog zone24Text).1 = (⟨true, []⟩, some .badTime) ∧
      (NewLog repeatedPagesText).2 = none ∧
      (match (NewLog repeatedPagesText).1 with
        | .ptr L => field LogT "pages" L
        | _ => none) =
        some (.slice [withField PageT "id" (.str "b")
          (withField PageT "title" (.str "T") (zero PageT))]) ∧
      decode PageT (zero PageT) (.obj [("id", .str "a"), ("title", .str "T")]) =
        .ok (withField PageT "id" (.str "a")
          (withField PageT "title" (.str "T") (zero PageT))) ∧
      decode PageT (zero PageT) (.obj [("id", .str "b")]) =
        .ok (withField PageT "id" (.str "b") (zero PageT)) :=
  ⟨rfl, rfl, rfl, rfl, rfl, rfl⟩

/-- C9 (amended): for every input on which `NewLog` succeeds and in whose
`"log"` value no object has two members stored in the same field, every
sequence of the returned `Log` holds, position by position, the records
decoded from the elements of the JSON array at its place in the input; and
when `Dump` of the returned `Log` succeeds, the text it writes is the text of
a document whose `"log"` value holds, for every sequence of the `Log`, an array
with the JSON of the records of the sequence position by position; reading
that text again gives the same `Log` (a nil and an empty sequence being
treated as equal). -/
theorem sequence_order_preserved (r : List Char) (kvs : List (String × JSON)) (j : JSON)
    (L : Val) (w w2 : Writer)
    (hv : firstValue r = some (.obj kvs)) (hl : lookupLast "log" kvs = some j)
    (hk : somewhere repeatedKey LogT j = false)
    (hn : NewLog r = (.ptr L, none)) (hd : Dump w (.ptr L) = (w2, none)) :
    inOrder LogT j L ∧
      ∃ j2, encode LogT L = .ok j2 ∧
        w2.written = w.written ++ render 0 (.obj [("log", j2)]) ∧
        firstValue (render 0 (.obj [("log", j2)])) = some (.obj [("log", j2)]) ∧
        outOrder LogT L j2 ∧
        ∃ L2, NewLog (render 0 (.obj [("log", j2)])) = (.ptr L2, none) ∧
          norm L2 = norm L := by
  have hdec : decode LogT (zero LogT) j = .ok L := by
    simp only [NewLog, decodeRoot, hv, hl, unmarshalLog] at hn
    cases hd2 : decode LogT (zero LogT) j with
    | error e => simp [hd2] at hn
    | ok v =>
      simp only [hd2, Prod.mk.injEq, Val.ptr.injEq, and_true] at hn
      rw [hn]
  refine ⟨decode_inOrder LogT j L hk hdec, ?_⟩
  obtain ⟨_, j2, he, hw⟩ := dump_written w w2 _ hd
  have he2 : encode LogT L = .ok j2 := by simpa only [encode] using he
  obtain ⟨text, L2, ht, hn2, hnorm⟩ := reread_core r (.ptr L) w w2 hn hd
  have htext : text = render 0 (.obj [("log", j2)]) :=
    List.append_cancel_left (ht.symm.trans hw)
  subst htext
  have ho : outOrder LogT L j2 := by
    have := encode_outOrder (.ptr LogT) (.ptr L) j2 plainKeys_LogT he
    simpa only [outOrder] using this
  refine ⟨j2, he2, hw, newLog_dump_text _ j2 he, ho, ?_⟩
  cases L2 with
  | ptr L3 =>
    simp only [norm] at hnorm
    injection hnorm with hnorm
    exact ⟨L3, hn2, hnorm⟩
  | slice xs =>
    simp only [norm] at hnorm
    split at hnorm <;> simp at hnorm
  | _ => simp [norm] at hnorm

set_option maxRecDepth 100000 in
theorem sequence_order_preserved_witness :
    inOrder LogT
        (.obj [("entries", .arr [
          .obj [("request", .obj [("headers", .arr [
            .obj [("name", .str "a"), ("value", .str "1")],
            .obj [("name", .str "b"), ("value", .str "2")]])])],
          .obj [("pageref", .str "p")]])])
        (pointee (zero LogT) (NewLog orderText).1) ∧
      ∃ j2, encode LogT (pointee (zero LogT) (NewLog orderText).1) = .ok j2 ∧
        (Dump ⟨true, []⟩ (NewLog orderText).1).1.written =
          [] ++ render 0 (.obj [("log", j2)]) ∧
        firstValue (render 0 (.obj [("log", j2)])) = some (.obj [("log", j2)]) ∧
        outOrder LogT (pointee (zero LogT) (NewLog orderText).1) j2 ∧
        ∃ L2, NewLog (render 0 (.obj [("log", j2)])) = (.ptr L2, none) ∧
          norm L2 = norm (pointee (zero LogT) (NewLog orderText).1) :=
  sequence_order_preserved orderText
    [("log", .obj [("entries", .arr [
      .obj [("request", .obj [("headers", .arr [
        .obj [("name", .str "a"), ("value", .str "1")],
        .obj [("name", .str "b"), ("value", .str "2")]])])],
      .obj [("pageref", .str "p")]])])]
    _ (pointee (zero LogT) (NewLog orderText).1) ⟨true, []⟩
    (Dump ⟨true, []⟩ (NewLog orderText).1).1 rfl rfl rfl rfl rfl

/-! ### The reader and the grammar: white space, literal names and numbers -/

theorem skipWs_split (s : List Char) :
    s = s.takeWhile isSpace ++ skipWs s ∧ (s.takeWhile isSpace).all isSpace = true := by
  refine ⟨(List.takeWhile_append_dropWhile isSpace s).symm, ?_⟩
  simp only [List.all_eq_true]
  intro c hc
  exact List.mem_takeWhile_imp hc

theorem skipWs_head (s : List Char) (c : Char) (r : List Char) (h : skipWs s = c :: r) :
    isSpace c = false := by
  have := List.head_dropWhile_not isSpace s (by rw [show List.dropWhile isSpace s = skipWs s from rfl, h]; simp)
  simp only [show List.dropWhile isSpace s = skipWs s from rfl, h, List.head_cons] at this
  simpa using this

theorem skipWs_idem (s : List Char) : skipWs (skipWs s) = skipWs s := by
  cases h : skipWs s with
  | nil => rfl
  | cons c r => exact skipWs_cons c r (skipWs_head s c r h)

theorem expectChars_eq : ∀ (cs s rest : List Char), expectChars cs s = some rest →
    s = cs ++ rest := by
  intro cs
  induction cs with
  | nil => intro s rest h; simp [expectChars] at h; simp [h]
  | cons c cs ih =>
    intro s rest h
    cases s with
    | nil => simp [expectChars] at h
    | cons d s =>
      simp only [expectChars] at h
      split at h
      · rename_i hcd; subst hcd; rw [ih s rest h]; rfl
      · simp at h

theorem takeWhile_all (p : Char → Bool) (s : List Char) : (s.takeWhile p).all p = true := by
  simp only [List.all_eq_true]
  intro c hc
  exact List.mem_takeWhile_imp hc

theorem scanDigits_sound (s ds r : List Char) (h : scanDigits s = some (ds, r)) :
    s = ds ++ r ∧ isDigits1 ds = true := by
  unfold scanDigits at h
  split at h
  · simp at h
  · rename_i hne
    injection h with h
    injection h with h1 h2
    subst h1; subst h2
    refine ⟨(List.takeWhile_append_dropWhile isDigit s).symm, ?_⟩
    simp only [isDigits1, Bool.and_eq_true, Bool.not_eq_true', takeWhile_all, and_true]
    cases hq : List.takeWhile isDigit s with
    | nil => exact absurd hq (hne)
    | cons a b => rfl

theorem scanIntPart_sound (s a r : List Char) (h : scanIntPart s = some (a, r)) :
    s = a ++ r ∧ isIntText a = true := by
  unfold scanIntPart at h
  split at h
  · simp at h
  · rename_i c t
    split at h
    · rename_i hc
      injection h with h; injection h with h1 h2
      subst h1; subst h2; subst hc
      exact ⟨rfl, rfl⟩
    · rename_i hc
      split at h
      · rename_i hd
        injection h with h; injection h with h1 h2
        subst h1; subst h2
        refine ⟨by simp [List.takeWhile_append_dropWhile], ?_⟩
        simp only [isIntText, hc, if_false, hd, Bool.true_and, takeWhile_all]
      · simp at h

theorem scanFrac_sound (s b r : List Char) (h : scanFrac s = some (b, r)) :
    s = b ++ r ∧ isFracText b = true := by
  unfold scanFrac at h
  split at h
  · injection h with h; injection h with h1 h2; subst h1; subst h2; exact ⟨rfl, rfl⟩
  · rename_i c t
    split at h
    · rename_i hc
      simp only [Option.map_eq_some'] at h
      obtain ⟨⟨ds, r2⟩, hq, he⟩ := h
      injection he with h1 h2
      subst h1; subst h2
      obtain ⟨h3, h4⟩ := scanDigits_sound t ds r2 hq
      refine ⟨by rw [h3]; rfl, ?_⟩
      simp [isFracText, hc, h4]
    · injection h with h; injection h with h1 h2; subst h1; subst h2; exact ⟨rfl, rfl⟩

theorem scanExp_sound (s c r : List Char) (h : scanExp s = some (c, r)) :
    s = c ++ r ∧ isExpText c = true := by
  unfold scanExp at h
  split at h
  · injection h with h; injection h with h1 h2; subst h1; subst h2; exact ⟨rfl, rfl⟩
  · rename_i e t
    split at h
    · rename_i he
      split at h
      · simp at h
      · rename_i g r2
        split at h
        · rename_i hg
          simp only [Option.map_eq_some'] at h
          obtain ⟨⟨ds, r3⟩, hq, hh⟩ := h
          injection hh with h1 h2
          subst h1; subst h2
          obtain ⟨h3, h4⟩ := scanDigits_sound r2 ds r3 hq
          refine ⟨by rw [h3]; rfl, ?_⟩
          have he2 : (decide (e = 'e') || decide (e = 'E')) = true := by simpa using he
          simp only [isExpText, he2, Bool.true_and, hg, if_true, h4]
        · rename_i hg
          simp only [Option.map_eq_some'] at h
          obtain ⟨⟨ds, r3⟩, hq, hh⟩ := h
          injection hh with h1 h2
          subst h1; subst h2
          obtain ⟨h3, h4⟩ := scanDigits_sound (g :: r2) ds r3 hq
          have he2 : (decide (e = 'e') || decide (e = 'E')) = true := by simpa using he
          cases ds with
          | nil => simp [isDigits1] at h4
          | cons g2 ds2 =>
            simp only [List.cons_append, List.cons.injEq] at h3
            obtain ⟨h5, h6⟩ := h3
            subst h5
            refine ⟨by rw [h6]; rfl, ?_⟩
            simp only [isExpText, he2, Bool.true_and, hg, if_false, h4]
    · injection h with h; injection h with h1 h2; subst h1; subst h2; exact ⟨rfl, rfl⟩

theorem scanUnsigned_sound (s t r : List Char) (h : scanUnsigned s = some (t, r)) :
    s = t ++ r ∧ ∃ a b c, t = a ++ (b ++ c) ∧ isIntText a = true ∧ isFracText b = true ∧
      isExpText c = true := by
  unfold scanUnsigned at h
  simp only [Option.bind_eq_some, Option.map_eq_some'] at h
  obtain ⟨⟨a, r1⟩, ha, ⟨b, r2⟩, hb, ⟨c, r3⟩, hc, he⟩ := h
  simp only [Prod.mk.injEq] at he
  obtain ⟨h1, h2⟩ := he
  subst h1; subst h2
  obtain ⟨ha1, ha2⟩ := scanIntPart_sound s a r1 ha
  obtain ⟨hb1, hb2⟩ := scanFrac_sound r1 b r2 hb
  obtain ⟨hc1, hc2⟩ := scanExp_sound r2 c r3 hc
  refine ⟨by rw [ha1, hb1, hc1]; simp, a, b, c, by simp, ha2, hb2, hc2⟩

theorem scanNumber_sound (s t r : List Char) (h : scanNumber s = some (t, r)) :
    s = t ++ r ∧ NumberText t := by
  unfold scanNumber at h
  split at h
  · simp at h
  · rename_i c u
    split at h
    · rename_i hc
      simp only [Option.map_eq_some'] at h
      obtain ⟨⟨t2, r2⟩, hq, he⟩ := h
      injection he with h1 h2
      subst h1; subst h2; subst hc
      obtain ⟨h3, a, b, e, h4, h5, h6, h7⟩ := scanUnsigned_sound u t2 r2 hq
      exact ⟨by rw [h3]; rfl, ['-'], a, b, e, by rw [h4]; rfl, Or.inr rfl, h5, h6, h7⟩
    · obtain ⟨h3, a, b, e, h4, h5, h6, h7⟩ := scanUnsigned_sound (c :: u) t r h
      exact ⟨h3, [], a, b, e, by rw [h4]; rfl, Or.inl rfl, h5, h6, h7⟩

theorem scanDigits_complete (ds r : List Char) (hd : isDigits1 ds = true)
    (hr : ∀ c t, r = c :: t → isDigit c = false) :
    scanDigits (ds ++ r) = some (ds, r) := by
  simp only [isDigits1, Bool.and_eq_true, Bool.not_eq_true'] at hd
  obtain ⟨h1, h2⟩ := takeWhile_digits_of ds r hd.2 hr
  unfold scanDigits
  rw [h1, h2]
  cases ds with
  | nil => simp at hd
  | cons a b => rfl

theorem scanIntPart_complete (a r : List Char) (ha : isIntText a = true)
    (hr : ∀ c t, r = c :: t → isDigit c = false) :
    scanIntPart (a ++ r) = some (a, r) := by
  cases a with
  | nil => simp [isIntText] at ha
  | cons c ds =>
    simp only [isIntText] at ha
    by_cases hc : c = '0'
    · simp only [hc, if_true, List.isEmpty_eq_true] at ha
      subst ha; subst hc
      rfl
    · simp only [hc, if_false, Bool.and_eq_true] at ha
      obtain ⟨h1, h2⟩ := takeWhile_digits_of ds r ha.2 hr
      simp only [List.cons_append, scanIntPart, hc, if_false, ha.1, if_true, h1, h2]

theorem numStop_head (r : List Char) (h : numStop r = true) :
    (∀ c t, r = c :: t → isDigit c = false) ∧ (∀ c t, r = c :: t → c ≠ '.') ∧
      (∀ c t, r = c :: t → ¬ (c = 'e' ∨ c = 'E')) := by
  cases r with
  | nil => simp
  | cons c t =>
    simp only [numStop, Bool.and_eq_true, Bool.not_eq_true', decide_eq_false_iff_not] at h
    obtain ⟨⟨⟨h1, h2⟩, h3⟩, h4⟩ := h
    refine ⟨?_, ?_, ?_⟩
    · intro c2 t2 he; injection he with he _; subst he; exact h1
    · intro c2 t2 he; injection he with he _; subst he; exact h2
    · intro c2 t2 he; injection he with he _; subst he
      intro ho; rcases ho with ho | ho
      · exact h3 ho
      · exact h4 ho

theorem scanFrac_complete (b r : List Char) (hb : isFracText b = true)
    (hr : ∀ c t, r = c :: t → isDigit c = false) (hp : ∀ c t, r = c :: t → c ≠ '.') :
    scanFrac (b ++ r) = some (b, r) := by
  cases b with
  | nil =>
    cases r with
    | nil => rfl
    | cons c t => simp [scanFrac, hp c t rfl]
  | cons c ds =>
    simp only [isFracText, Bool.and_eq_true, decide_eq_true_eq] at hb
    obtain ⟨hc, hd⟩ := hb
    subst hc
    simp [scanFrac, scanDigits_complete ds r hd hr]

theorem scanExp_complete (e r : List Char) (he : isExpText e = true)
    (hr : ∀ c t, r = c :: t → isDigit c = false)
    (hp : ∀ c t, r = c :: t → ¬ (c = 'e' ∨ c = 'E')) :
    scanExp (e ++ r) = some (e, r) := by
  cases e with
  | nil =>
    cases r with
    | nil => rfl
    | cons c t => simp only [List.nil_append, scanExp, hp c t rfl, if_false]
  | cons c u =>
    simp only [isExpText, Bool.and_eq_true, Bool.or_eq_true, decide_eq_true_eq] at he
    obtain ⟨hc, hu⟩ := he
    cases u with
    | nil => simp at hu
    | cons g ds =>
      simp only at hu
      by_cases hg : g = '+' ∨ g = '-'
      · simp only [hg, if_true] at hu
        simp only [List.cons_append, scanExp, hc, if_true, hg,
          scanDigits_complete ds r hu hr, Option.map_some']
      · simp only [hg, if_false] at hu
        have := scanDigits_complete (g :: ds) r hu hr
        simp only [List.cons_append] at this
        simp only [List.cons_append, scanExp, hc, if_true, hg, if_false, this,
          Option.map_some']

theorem isFracText_head (b : List Char) (hb : isFracText b = true) :
    ∀ c t, b = c :: t → c = '.' := by
  intro c t h
  subst h
  simp only [isFracText, Bool.and_eq_true, decide_eq_true_eq] at hb
  exact hb.1

theorem isExpText_head (e : List Char) (he : isExpText e = true) :
    ∀ c t, e = c :: t → c = 'e' ∨ c = 'E' := by
  intro c t h
  subst h
  simp only [isExpText, Bool.and_eq_true, Bool.or_eq_true, decide_eq_true_eq] at he
  exact he.1

theorem scanUnsigned_complete (a b e r : List Char) (ha : isIntText a = true)
    (hb : isFracText b = true) (he : isExpText e = true) (hr : numStop r = true) :
    scanUnsigned (a ++ (b ++ (e ++ r))) = some (a ++ (b ++ e), r) := by
  obtain ⟨hr1, hr2, hr3⟩ := numStop_head r hr
  have he1 : ∀ c t, e ++ r = c :: t → isDigit c = false := by
    intro c t h
    cases e with
    | nil => exact hr1 c t h
    | cons c2 t2 =>
      injection h with h _
      subst h
      rcases isExpText_head _ he c2 t2 rfl with h | h <;> subst h <;> rfl
  have he2 : ∀ c t, e ++ r = c :: t → c ≠ '.' := by
    intro c t h
    cases e with
    | nil => exact hr2 c t h
    | cons c2 t2 =>
      injection h with h _
      subst h
      rcases isExpText_head _ he c2 t2 rfl with h | h <;> subst h <;> decide
  have hb1 : ∀ c t, b ++ (e ++ r) = c :: t → isDigit c = false := by
    intro c t h
    cases b with
    | nil => exact he1 c t h
    | cons c2 t2 =>
      injection h with h _
      subst h
      rw [isFracText_head _ hb c2 t2 rfl]
      rfl
  simp only [scanUnsigned, scanIntPart_complete a _ ha hb1, Option.bind,
    scanFrac_complete b _ hb he1 he2, scanExp_complete e r he hr1 hr3, Option.map]
  simp

theorem scanNumber_complete (t r : List Char) (ht : NumberText t) (hr : numStop r = true) :
    scanNumber (t ++ r) = some (t, r) := by
  obtain ⟨sign, a, b, e, rfl, hs, ha, hb, he⟩ := ht
  have hu := scanUnsigned_complete a b e r ha hb he hr
  rcases hs with hs | hs
  · subst hs
    cases a with
    | nil => simp [isIntText] at ha
    | cons c ds =>
      have hc : c ≠ '-' := by
        simp only [isIntText] at ha
        by_cases h0 : c = '0'
        · subst h0; decide
        · simp only [h0, if_false, Bool.and_eq_true] at ha
          exact (isDigit_ne_minus c ha.1).1
      simp only [List.nil_append, List.cons_append, List.append_assoc] at hu ⊢
      simp only [scanNumber, hc, if_false]
      exact hu
  · subst hs
    simp only [List.cons_append, List.nil_append, List.append_assoc] at hu ⊢
    simp only [scanNumber, if_true, hu, Option.map_some']

theorem numberText_head (t : List Char) (ht : NumberText t) :
    ∃ c u, t = c :: u ∧ (isDigit c = true ∨ c = '-') := by
  obtain ⟨sign, a, b, e, rfl, hs, ha, _, _⟩ := ht
  cases a with
  | nil => simp [isIntText] at ha
  | cons c ds =>
    rcases hs with hs | hs
    · subst hs
      refine ⟨c, _, rfl, Or.inl ?_⟩
      simp only [isIntText] at ha
      by_cases h0 : c = '0'
      · subst h0; rfl
      · simp only [h0, if_false, Bool.and_eq_true] at ha
        exact ha.1
    · subst hs
      exact ⟨'-', _, rfl, Or.inr rfl⟩

/-! ### The reader and the grammar: string literals -/

theorem lowSurrogate_sound (s : List Char) (m : Nat) (r4 : List Char)
    (h : lowSurrogate s = some (m, r4)) :
    ∃ g1 g2 g3 g4, s = bs :: 'u' :: g1 :: g2 :: g3 :: g4 :: r4 ∧
      (hex4 g1 g2 g3 g4).isSome = true := by
  unfold lowSurrogate at h
  split at h
  · rename_i b u g1 g2 g3 g4 r
    split at h
    · rename_i hbu
      split at h
      · rename_i m2 hm
        split at h
        · injection h with h
          injection h with _ h2
          subst h2
          obtain ⟨hb, hu⟩ := hbu
          subst hb; subst hu
          exact ⟨g1, g2, g3, g4, rfl, by rw [hm]; rfl⟩
        · simp at h
      · simp at h
    · simp at h
  · simp at h

theorem parseStringBody_sound : ∀ (f : Nat) (s x rest : List Char),
    parseStringBody f s = some (x, rest) → ∃ raw, s = raw ++ dq :: rest ∧ StringBody raw := by
  intro f
  induction f with
  | zero => intro s x rest h; simp [parseStringBody] at h
  | succ n ih =>
    intro s x rest h
    cases s with
    | nil => simp [parseStringBody] at h
    | cons c r =>
      simp only [parseStringBody] at h
      have key : ∀ (t : List Char) (a : Char),
          (parseStringBody n t).map (fun p => (a :: p.1, p.2)) = some (x, rest) →
          ∃ raw, t = raw ++ dq :: rest ∧ StringBody raw := by
        intro t a hm
        cases hp : parseStringBody n t with
        | none => simp [hp] at hm
        | some p =>
          simp only [hp, Option.map_some', Option.some.injEq, Prod.mk.injEq] at hm
          obtain ⟨raw, h1, h2⟩ := ih t p.1 p.2 (by rw [hp])
          exact ⟨raw, by rw [h1, hm.2], h2⟩
      split at h
      · rename_i hc
        injection h with h; injection h with _ h2
        subst h2; subst hc
        exact ⟨[], rfl, StringBody.nil⟩
      · rename_i hc
        split at h
        · rename_i hb
          subst hb
          split at h
          · simp at h
          · rename_i e r2
            split at h
            · rename_i he
              subst he
              split at h
              · rename_i h1 h2 h3 h4 r3
                split at h
                · simp at h
                · rename_i nn hn
                  have hx : (hex4 h1 h2 h3 h4).isSome = true := by rw [hn]; rfl
                  split at h
                  · split at h
                    · rename_i m r4 hl
                      have hl2 : lowSurrogate r3 = some (m, r4) := by
                        split at hl
                        · exact hl
                        · simp at hl
                      obtain ⟨g1, g2, g3, g4, hr3, hg⟩ := lowSurrogate_sound r3 m r4 hl2
                      obtain ⟨raw, hr, hs⟩ := key r4 _ h
                      refine ⟨bs :: 'u' :: h1 :: h2 :: h3 :: h4 ::
                        bs :: 'u' :: g1 :: g2 :: g3 :: g4 :: raw, ?_, ?_⟩
                      · rw [hr3, hr]; rfl
                      · exact StringBody.unicode _ _ _ _ _ hx
                          (StringBody.unicode _ _ _ _ _ hg hs)
                    · obtain ⟨raw, hr, hs⟩ := key r3 _ h
                      exact ⟨bs :: 'u' :: h1 :: h2 :: h3 :: h4 :: raw, by rw [hr]; rfl,
                        StringBody.unicode _ _ _ _ _ hx hs⟩
                  · obtain ⟨raw, hr, hs⟩ := key r3 _ h
                    exact ⟨bs :: 'u' :: h1 :: h2 :: h3 :: h4 :: raw, by rw [hr]; rfl,
                      StringBody.unicode _ _ _ _ _ hx hs⟩
              · simp at h
            · split at h
              · simp at h
              · rename_i y hy
                obtain ⟨raw, hr, hs⟩ := key r2 _ h
                exact ⟨bs :: e :: raw, by rw [hr]; rfl,
                  StringBody.escape _ _ (by rw [hy]; rfl) hs⟩
        · rename_i hb
          split at h
          · simp at h
          · rename_i h32
            obtain ⟨raw, hr, hs⟩ := key r _ h
            exact ⟨c :: raw, by rw [hr]; rfl, StringBody.plain _ _ hc hb (by omega) hs⟩

theorem lowSurrogate_none_of_head (c : Char) (t : List Char) (hc : c ≠ bs) :
    lowSurrogate (c :: t) = none := by
  unfold lowSurrogate
  split
  · rename_i b u g1 g2 g3 g4 r heq
    injection heq with h1 _
    subst h1
    simp [hc]
  · rfl

theorem lowSurrogate_none_of_second (e : Char) (t : List Char) (he : e ≠ 'u') :
    lowSurrogate (bs :: e :: t) = none := by
  unfold lowSurrogate
  split
  · rename_i b u g1 g2 g3 g4 r heq
    injection heq with h1 h2
    injection h2 with h2 _
    subst h1; subst h2
    simp [he]
  · rfl

theorem simpleEscape_ne_u (e : Char) (h : (simpleEscape e).isSome = true) : e ≠ 'u' := by
  intro he
  subst he
  revert h
  decide

theorem lowSurrogate_body (r : List Char) (hs : StringBody r) :
    (∀ rest, lowSurrogate (r ++ dq :: rest) = none) ∨
      ∃ m r2, r2.length < r.length ∧ StringBody r2 ∧
        ∀ rest, lowSurrogate (r ++ dq :: rest) = some (m, r2 ++ dq :: rest) := by
  cases hs with
  | nil => exact Or.inl fun rest => lowSurrogate_none_of_head dq rest (by decide)
  | plain c t h1 h2 _ _ => exact Or.inl fun rest => lowSurrogate_none_of_head c _ h2
  | escape e t he _ =>
    exact Or.inl fun rest => lowSurrogate_none_of_second e _ (simpleEscape_ne_u e he)
  | unicode a b c d t hx ht =>
    cases hn : hex4 a b c d with
    | none => simp [hn] at hx
    | some m =>
      by_cases hm : 0xDC00 ≤ m ∧ m < 0xE000
      · refine Or.inr ⟨m, t, by simp only [List.length_cons]; omega, ht, fun rest => ?_⟩
        simp only [List.cons_append, lowSurrogate, true_and, if_true, hn, hm, and_self]
      · refine Or.inl fun rest => ?_
        simp only [List.cons_append, lowSurrogate, true_and, if_true, hn, hm, if_false]

theorem parseStringBody_pair (fuel : Nat) (a b c d : Char) (n m : Nat) (rest r4 : List Char)
    (hn : hex4 a b c d = some n) (hs : 0xD800 ≤ n ∧ n < 0xE000)
    (hl : (if n < 0xDC00 then lowSurrogate rest else none) = some (m, r4)) :
    parseStringBody (fuel + 1) (bs :: 'u' :: a :: b :: c :: d :: rest) =
      (parseStringBody fuel r4).map fun p =>
        (Char.ofNat ((n - 0xD800) * 1024 + (m - 0xDC00) + 0x10000) :: p.1, p.2) := by
  have h1 : bs ≠ dq := by decide
  simp only [parseStringBody, h1, if_false, if_true, hn, hs, and_self, hl]

theorem parseStringBody_lone (fuel : Nat) (a b c d : Char) (n : Nat) (rest : List Char)
    (hn : hex4 a b c d = some n) (hs : 0xD800 ≤ n ∧ n < 0xE000)
    (hl : (if n < 0xDC00 then lowSurrogate rest else none) = none) :
    parseStringBody (fuel + 1) (bs :: 'u' :: a :: b :: c :: d :: rest) =
      (parseStringBody fuel rest).map fun p => (Char.ofNat 0xFFFD :: p.1, p.2) := by
  have h1 : bs ≠ dq := by decide
  simp only [parseStringBody, h1, if_false, if_true, hn, hs, and_self, hl]

theorem parseStringBody_complete : ∀ (n : Nat) (raw : List Char), raw.length ≤ n →
    StringBody raw → ∃ x, ∀ (fuel : Nat) (rest : List Char), raw.length + 1 ≤ fuel →
      parseStringBody fuel (raw ++ dq :: rest) = some (x, rest) := by
  intro n
  induction n using Nat.strong_induction_on with
  | _ n ih =>
    intro raw hlen hs
    have step : ∀ (t : List Char), t.length < raw.length → StringBody t →
        ∃ x, ∀ (f : Nat) (rest : List Char), t.length + 1 ≤ f →
          parseStringBody f (t ++ dq :: rest) = some (x, rest) := by
      intro t hlt ht
      by_cases h0 : n = 0
      · omega
      · exact ih (n - 1) (by omega) t (by omega) ht
    cases hs with
    | nil =>
      refine ⟨[], fun fuel rest hf => ?_⟩
      obtain ⟨f, rfl⟩ : ∃ f, fuel = f + 1 := ⟨fuel - 1, by simp at hf; omega⟩
      simp [parseStringBody]
    | plain c t h1 h2 h3 ht =>
      obtain ⟨x, hx⟩ := step t (by simp only [List.length_cons]; omega) ht
      refine ⟨c :: x, fun fuel rest hf => ?_⟩
      obtain ⟨f, rfl⟩ : ∃ f, fuel = f + 1 := ⟨fuel - 1, by omega⟩
      simp only [List.length_cons] at hf
      rw [List.cons_append, parseStringBody_plain f c _ h1 h2 (by omega), hx f rest (by omega)]
      rfl
    | escape e t he ht =>
      obtain ⟨x, hx⟩ := step t (by simp only [List.length_cons]; omega) ht
      cases hy : simpleEscape e with
      | none => simp [hy] at he
      | some y =>
        refine ⟨y :: x, fun fuel rest hf => ?_⟩
        obtain ⟨f, rfl⟩ : ∃ f, fuel = f + 1 := ⟨fuel - 1, by omega⟩
        simp only [List.length_cons] at hf
        rw [List.cons_append, List.cons_append,
          parseStringBody_escape f e y _ (simpleEscape_ne_u e he) hy, hx f rest (by omega)]
        rfl
    | unicode a b c d t hx4 ht =>
      cases hn : hex4 a b c d with
      | none => simp [hn] at hx4
      | some m =>
        by_cases hsur : 0xD800 ≤ m ∧ m < 0xE000
        · by_cases hhi : m < 0xDC00
          · rcases lowSurrogate_body t ht with hnone | ⟨m2, t2, hlt, ht2, hsome⟩
            · obtain ⟨x, hx⟩ := step t (by simp only [List.length_cons]; omega) ht
              refine ⟨Char.ofNat 0xFFFD :: x, fun fuel rest hf => ?_⟩
              obtain ⟨f, rfl⟩ : ∃ f, fuel = f + 1 := ⟨fuel - 1, by omega⟩
              simp only [List.length_cons] at hf
              rw [List.cons_append, List.cons_append, List.cons_append, List.cons_append,
                List.cons_append, List.cons_append,
                parseStringBody_lone f a b c d m _ hn hsur (by rw [if_pos hhi]; exact hnone rest),
                hx f rest (by omega)]
              rfl
            · obtain ⟨x, hx⟩ := step t2 (by simp only [List.length_cons]; omega) ht2
              refine ⟨Char.ofNat ((m - 0xD800) * 1024 + (m2 - 0xDC00) + 0x10000) :: x,
                fun fuel rest hf => ?_⟩
              obtain ⟨f, rfl⟩ : ∃ f, fuel = f + 1 := ⟨fuel - 1, by omega⟩
              simp only [List.length_cons] at hf
              rw [List.cons_append, List.cons_append, List.cons_append, List.cons_append,
                List.cons_append, List.cons_append,
                parseStringBody_pair f a b c d m m2 _ _ hn hsur
                  (by rw [if_pos hhi]; exact hsome rest),
                hx f rest (by omega)]
              rfl
          · obtain ⟨x, hx⟩ := step t (by simp only [List.length_cons]; omega) ht
            refine ⟨Char.ofNat 0xFFFD :: x, fun fuel rest hf => ?_⟩
            obtain ⟨f, rfl⟩ : ∃ f, fuel = f + 1 := ⟨fuel - 1, by omega⟩
            simp only [List.length_cons] at hf
            rw [List.cons_append, List.cons_append, List.cons_append, List.cons_append,
              List.cons_append, List.cons_append,
              parseStringBody_lone f a b c d m _ hn hsur (by rw [if_neg hhi]),
              hx f rest (by omega)]
            rfl
        · obtain ⟨x, hx⟩ := step t (by simp only [List.length_cons]; omega) ht
          refine ⟨Char.ofNat m :: x, fun fuel rest hf => ?_⟩
          obtain ⟨f, rfl⟩ : ∃ f, fuel = f + 1 := ⟨fuel - 1, by omega⟩
          simp only [List.length_cons] at hf
          rw [List.cons_append, List.cons_append, List.cons_append, List.cons_append,
            List.cons_append, List.cons_append,
            parseStringBody_hex f a b c d m _ hn hsur, hx f rest (by omega)]
          rfl

/-! ### The reader and the grammar: what the reader accepts is a JSON text -/

theorem skipWs_eq (s t : List Char) (h : skipWs s = t) :
    ∃ ws, s = ws ++ t ∧ ws.all isSpace = true :=
  ⟨s.takeWhile isSpace, by rw [← h]; exact (skipWs_split s).1, (skipWs_split s).2⟩

theorem parseValue_sound_step (n : Nat)
    (IHE : ∀ d s vs rest, parseElems n d s = some (vs, rest) →
      ∃ items : Items, s = items.text ++ rest ∧ items.wf d)
    (IHM : ∀ d s kvs rest, parseMembers n d s = some (kvs, rest) →
      ∃ ms : Members, s = ms.text ++ rest ∧ ms.wf d) :
    ∀ d s v rest, parseValue (n + 1) d s = some (v, rest) →
      ∃ ws c, s = ws ++ (Tree.text c ++ rest) ∧ ws.all isSpace = true ∧ Tree.wf d c ∧
        c.isObject = v.isObj := by
  intro d s v rest h
  simp only [parseValue] at h
  split at h
  · simp at h
  · rename_i c r hsk
    obtain ⟨ws, hs, hws⟩ := skipWs_eq s _ hsk
    subst hs
    split at h
    · rename_i hc
      subst hc
      split at h
      · simp at h
      · rename_i hd
        split at h
        · simp at h
        · rename_i c2 r2 hsk2
          obtain ⟨ws2, hr, hws2⟩ := skipWs_eq r _ hsk2
          subst hr
          split at h
          · rename_i hc2
            subst hc2
            injection h with h; injection h with h1 h2
            subst h1; subst h2
            exact ⟨ws, .emptyObject ws2, by simp [Tree.text], hws,
              ⟨by omega, hws2⟩, rfl⟩
          · simp only [Option.map_eq_some'] at h
            obtain ⟨⟨kvs, r3⟩, hp, he⟩ := h
            injection he with h1 h2
            subst h1; subst h2
            obtain ⟨ms, hm, hwf⟩ := IHM (d + 1) _ kvs r3 hp
            refine ⟨ws, .object ws2 ms, ?_, hws, ⟨by omega, hws2, hwf⟩, rfl⟩
            rw [hm]; simp [Tree.text]
    · rename_i hc
      split at h
      · rename_i hc1
        subst hc1
        split at h
        · simp at h
        · rename_i hd
          split at h
          · simp at h
          · rename_i c2 r2 hsk2
            obtain ⟨ws2, hr, hws2⟩ := skipWs_eq r _ hsk2
            subst hr
            split at h
            · rename_i hc2
              subst hc2
              injection h with h; injection h with h1 h2
              subst h1; subst h2
              exact ⟨ws, .emptyArray ws2, by simp [Tree.text], hws,
                ⟨by omega, hws2⟩, rfl⟩
            · simp only [Option.map_eq_some'] at h
              obtain ⟨⟨vs, r3⟩, hp, he⟩ := h
              injection he with h1 h2
              subst h1; subst h2
              obtain ⟨items, hm, hwf⟩ := IHE (d + 1) _ vs r3 hp
              refine ⟨ws, .array ws2 items, ?_, hws, ⟨by omega, hws2, hwf⟩, rfl⟩
              rw [hm]; simp [Tree.text]
      · split at h
        · rename_i hq
          subst hq
          simp only [Option.map_eq_some'] at h
          obtain ⟨⟨x, r3⟩, hp, he⟩ := h
          injection he with h1 h2
          subst h1; subst h2
          obtain ⟨raw, hr, hsb⟩ := parseStringBody_sound _ r x r3 hp
          subst hr
          exact ⟨ws, .scalar (dq :: (raw ++ [dq])), by simp [Tree.text], hws,
            Or.inr (Or.inr (Or.inr (Or.inr ⟨raw, rfl, hsb⟩))), rfl⟩
        · split at h
          · rename_i ht
            subst ht
            simp only [Option.map_eq_some'] at h
            obtain ⟨r3, hp, he⟩ := h
            injection he with h1 h2
            subst h1; subst h2
            have := expectChars_eq _ _ _ hp
            subst this
            exact ⟨ws, .scalar ['t', 'r', 'u', 'e'], by simp [Tree.text], hws,
              Or.inr (Or.inl rfl), rfl⟩
          · split at h
            · rename_i hf
              subst hf
              simp only [Option.map_eq_some'] at h
              obtain ⟨r3, hp, he⟩ := h
              injection he with h1 h2
              subst h1; subst h2
              have := expectChars_eq _ _ _ hp
              subst this
              exact ⟨ws, .scalar ['f', 'a', 'l', 's', 'e'], by simp [Tree.text], hws,
                Or.inr (Or.inr (Or.inl rfl)), rfl⟩
            · split at h
              · rename_i hn
                subst hn
                simp only [Option.map_eq_some'] at h
                obtain ⟨r3, hp, he⟩ := h
                injection he with h1 h2
                subst h1; subst h2
                have := expectChars_eq _ _ _ hp
                subst this
                exact ⟨ws, .scalar ['n', 'u', 'l', 'l'], by simp [Tree.text], hws,
                  Or.inl rfl, rfl⟩
              · simp only [Option.map_eq_some'] at h
                obtain ⟨⟨lit, r3⟩, hp, he⟩ := h
                injection he with h1 h2
                subst h1; subst h2
                obtain ⟨hr, hnum⟩ := scanNumber_sound _ lit r3 hp
                refine ⟨ws, .scalar lit, ?_, hws,
                  Or.inr (Or.inr (Or.inr (Or.inl hnum))), rfl⟩
                rw [hr]; simp [Tree.text]

theorem parseElems_sound_step (n : Nat)
    (IHV : ∀ d s v rest, parseValue n d s = some (v, rest) →
      ∃ ws c, s = ws ++ (Tree.text c ++ rest) ∧ ws.all isSpace = true ∧ Tree.wf d c ∧
        c.isObject = v.isObj)
    (IHE : ∀ d s vs rest, parseElems n d s = some (vs, rest) →
      ∃ items : Items, s = items.text ++ rest ∧ items.wf d) :
    ∀ d s vs rest, parseElems (n + 1) d s = some (vs, rest) →
      ∃ items : Items, s = items.text ++ rest ∧ items.wf d := by
  intro d s vs rest h
  simp only [parseElems] at h
  split at h
  · simp at h
  · rename_i v r hv
    obtain ⟨ws, c, hs, hws, hwf, _⟩ := IHV d s v r hv
    split at h
    · simp at h
    · rename_i c2 r2 hsk
      obtain ⟨wsb, hr, hwsb⟩ := skipWs_eq r _ hsk
      split at h
      · rename_i hc
        subst hc
        simp only [Option.map_eq_some'] at h
        obtain ⟨⟨vs2, r3⟩, hp, he⟩ := h
        injection he with h1 h2
        subst h1; subst h2
        obtain ⟨items, hi, hiwf⟩ := IHE d r2 vs2 r3 hp
        refine ⟨.more ws c wsb items, ?_, ⟨hws, hwf, hwsb, hiwf⟩⟩
        rw [hs, hr, hi]; simp [Items.text]
      · split at h
        · rename_i hc
          subst hc
          injection h with h; injection h with h1 h2
          subst h1; subst h2
          refine ⟨.last ws c wsb, ?_, ⟨hws, hwf, hwsb⟩⟩
          rw [hs, hr]; simp [Items.text]
        · simp at h

theorem parseMembers_sound_step (n : Nat)
    (IHV : ∀ d s v rest, parseValue n d s = some (v, rest) →
      ∃ ws c, s = ws ++ (Tree.text c ++ rest) ∧ ws.all isSpace = true ∧ Tree.wf d c ∧
        c.isObject = v.isObj)
    (IHM : ∀ d s kvs rest, parseMembers n d s = some (kvs, rest) →
      ∃ ms : Members, s = ms.text ++ rest ∧ ms.wf d) :
    ∀ d s kvs rest, parseMembers (n + 1) d s = some (kvs, rest) →
      ∃ ms : Members, s = ms.text ++ rest ∧ ms.wf d := by
  intro d s kvs rest h
  simp only [parseMembers] at h
  split at h
  · simp at h
  · rename_i q r hsk
    obtain ⟨wa, hs, hwa⟩ := skipWs_eq s _ hsk
    split at h
    · rename_i hq
      subst hq
      split at h
      · simp at h
      · rename_i k r2 hk
        obtain ⟨raw, hr, hsb⟩ := parseStringBody_sound _ r k r2 hk
        split at h
        · simp at h
        · rename_i col r3 hsk2
          obtain ⟨m1, hr2, hm1⟩ := skipWs_eq r2 _ hsk2
          split at h
          · rename_i hcol
            subst hcol
            split at h
            · simp at h
            · rename_i v r4 hv
              obtain ⟨m2, c, hr3, hm2, hwf, _⟩ := IHV d r3 v r4 hv
              split at h
              · simp at h
              · rename_i c5 r5 hsk3
                obtain ⟨wb, hr4, hwb⟩ := skipWs_eq r4 _ hsk3
                split at h
                · rename_i hc
                  subst hc
                  simp only [Option.map_eq_some'] at h
                  obtain ⟨⟨kvs2, r6⟩, hp, he⟩ := h
                  injection he with h1 h2
                  subst h1; subst h2
                  obtain ⟨ms, hm, hmwf⟩ := IHM d r5 kvs2 r6 hp
                  refine ⟨.more wa raw m1 m2 c wb ms, ?_,
                    ⟨hwa, hsb, hm1, hm2, hwf, hwb, hmwf⟩⟩
                  rw [hs, hr, hr2, hr3, hr4, hm]; simp [Members.text]
                · split at h
                  · rename_i hc
                    subst hc
                    injection h with h; injection h with h1 h2
                    subst h1; subst h2
                    refine ⟨.last wa raw m1 m2 c wb, ?_, ⟨hwa, hsb, hm1, hm2, hwf, hwb⟩⟩
                    rw [hs, hr, hr2, hr3, hr4]; simp [Members.text]
                  · simp at h
          · simp at h
    · simp at h

theorem parse_sound : ∀ n : Nat,
    (∀ d s v rest, parseValue n d s = some (v, rest) →
      ∃ ws c, s = ws ++ (Tree.text c ++ rest) ∧ ws.all isSpace = true ∧ Tree.wf d c ∧
        c.isObject = v.isObj) ∧
    (∀ d s vs rest, parseElems n d s = some (vs, rest) →
      ∃ items : Items, s = items.text ++ rest ∧ items.wf d) ∧
    (∀ d s kvs rest, parseMembers n d s = some (kvs, rest) →
      ∃ ms : Members, s = ms.text ++ rest ∧ ms.wf d) := by
  intro n
  induction n with
  | zero =>
    refine ⟨?_, ?_, ?_⟩
    · intro d s v rest h; simp [parseValue] at h
    · intro d s v rest h; simp [parseElems] at h
    · intro d s v rest h; simp [parseMembers] at h
  | succ n ih =>
    obtain ⟨ihv, ihe, ihm⟩ := ih
    exact ⟨parseValue_sound_step n ihe ihm, parseElems_sound_step n ihv ihe,
      parseMembers_sound_step n ihv ihm⟩

/-! ### The reader and the grammar: every JSON text is accepted -/

theorem parseValue_skipWs (f d : Nat) (s : List Char) :
    parseValue f d (skipWs s) = parseValue f d s := by
  cases f with
  | zero => simp [parseValue]
  | succ n => simp only [parseValue, skipWs_idem]

theorem parseElems_skipWs (f d : Nat) (s : List Char) :
    parseElems f d (skipWs s) = parseElems f d s := by
  cases f with
  | zero => simp [parseElems]
  | succ n => simp only [parseElems, parseValue_skipWs]

theorem parseMembers_skipWs (f d : Nat) (s : List Char) :
    parseMembers f d (skipWs s) = parseMembers f d s := by
  cases f with
  | zero => simp [parseMembers]
  | succ n => simp only [parseMembers, skipWs_idem]

theorem parseValue_emptyArray (f d : Nat) (s r rest : List Char) (hd : d < maxNestingDepth)
    (hs : skipWs s = '[' :: r) (hr : skipWs r = ']' :: rest) :
    parseValue (f + 1) d s = some (.arr [], rest) := by
  have h1 : '[' ≠ Char.ofNat 123 := by decide
  have h2 : ¬ maxNestingDepth ≤ d := by omega
  simp only [parseValue, hs, h1, h2, hr, if_false, if_true]

theorem parseValue_emptyObject (f d : Nat) (s r rest : List Char) (hd : d < maxNestingDepth)
    (hs : skipWs s = Char.ofNat 123 :: r) (hr : skipWs r = Char.ofNat 125 :: rest) :
    parseValue (f + 1) d s = some (.obj [], rest) := by
  have h2 : ¬ maxNestingDepth ≤ d := by omega
  simp only [parseValue, hs, h2, hr, if_false, if_true]

theorem parseValue_array (f d : Nat) (s r : List Char) (c2 : Char) (r2 : List Char)
    (hd : d < maxNestingDepth) (hs : skipWs s = '[' :: r) (hr : skipWs r = c2 :: r2)
    (hc : c2 ≠ ']') :
    parseValue (f + 1) d s = (parseElems f (d + 1) r).map fun p => (.arr p.1, p.2) := by
  rw [parseValue_arr f d s r c2 r2 hd hs hr hc, ← hr, parseElems_skipWs]

theorem parseValue_object (f d : Nat) (s r : List Char) (c2 : Char) (r2 : List Char)
    (hd : d < maxNestingDepth) (hs : skipWs s = Char.ofNat 123 :: r) (hr : skipWs r = c2 :: r2)
    (hc : c2 ≠ Char.ofNat 125) :
    parseValue (f + 1) d s = (parseMembers f (d + 1) r).map fun p => (.obj p.1, p.2) := by
  rw [parseValue_obj f d s r c2 r2 hd hs hr hc, ← hr, parseMembers_skipWs]

theorem parseValue_number (f d : Nat) (s t rest : List Char) (hs : skipWs s = t ++ rest)
    (ht : NumberText t) (hr : numStop rest = true) :
    parseValue (f + 1) d s = some (.num t, rest) := by
  obtain ⟨c, u, hl, hc⟩ := numberText_head t ht
  obtain ⟨_, h2, h3, h4, h5, h6, h7, _⟩ := digit_not_special c hc
  have hn := scanNumber_complete t rest ht hr
  rw [hl] at hs hn
  simp only [List.cons_append] at hs hn
  simp only [parseValue, hs, h2, h3, h4, h5, h6, h7, if_false, hn, Option.map, hl]

theorem parseValue_string (f d : Nat) (s r r2 x : List Char) (hs : skipWs s = dq :: r)
    (hp : parseStringBody r.length r = some (x, r2)) :
    parseValue (f + 1) d s = some (.str (String.mk x), r2) := by
  have h1 : dq ≠ Char.ofNat 123 := by decide
  have h2 : dq ≠ '[' := by decide
  simp only [parseValue, hs, h1, h2, if_false, if_true, hp]
  rfl

theorem parseMembers_one (f d : Nat) (s r r2 r3 r4 rest x : List Char) (v : JSON)
    (hs : skipWs s = dq :: r) (hp : parseStringBody r.length r = some (x, r2))
    (hc : skipWs r2 = ':' :: r3) (hv : parseValue f d r3 = some (v, r4))
    (he : skipWs r4 = Char.ofNat 125 :: rest) :
    parseMembers (f + 1) d s = some ([(String.mk x, v)], rest) := by
  have h1 : Char.ofNat 125 ≠ ',' := by decide
  simp only [parseMembers, hs, if_true, hp, hc, hv, he, h1, if_false]

theorem parseMembers_next (f d : Nat) (s r r2 r3 r4 r5 x : List Char) (v : JSON)
    (hs : skipWs s = dq :: r) (hp : parseStringBody r.length r = some (x, r2))
    (hc : skipWs r2 = ':' :: r3) (hv : parseValue f d r3 = some (v, r4))
    (he : skipWs r4 = ',' :: r5) :
    parseMembers (f + 1) d s =
      (parseMembers f d r5).map fun p => ((String.mk x, v) :: p.1, p.2) := by
  simp only [parseMembers, hs, if_true, hp, hc, hv, he]

theorem skipWs_append_cons (ws : List Char) (c : Char) (s : List Char)
    (hw : ws.all isSpace = true) (hc : isSpace c = false) :
    skipWs (ws ++ c :: s) = c :: s := by
  rw [skipWs_append _ _ hw, skipWs_cons c s hc]

theorem numStop_after (b : List Char) (c : Char) (s : List Char) (hb : b.all isSpace = true)
    (hc : c = ',' ∨ c = ']' ∨ c = Char.ofNat 125) : numStop (b ++ c :: s) = true := by
  cases b with
  | nil => rcases hc with h | h | h <;> subst h <;> rfl
  | cons e t =>
    simp only [List.all_cons, Bool.and_eq_true] at hb
    have he := hb.1
    simp only [isSpace, Bool.or_eq_true, decide_eq_true_eq] at he
    rcases he with ((h | h) | h) | h <;> subst h <;> rfl

theorem scalar_head (t : List Char) (h : ScalarText t) :
    ∃ c u, t = c :: u ∧ isSpace c = false ∧ c ≠ ']' ∧ c ≠ Char.ofNat 125 := by
  rcases h with h | h | h | h | ⟨raw, h, _⟩
  · subst h; exact ⟨_, _, rfl, by decide, by decide, by decide⟩
  · subst h; exact ⟨_, _, rfl, by decide, by decide, by decide⟩
  · subst h; exact ⟨_, _, rfl, by decide, by decide, by decide⟩
  · obtain ⟨c, u, hl, hc⟩ := numberText_head t h
    refine ⟨c, u, hl, (digit_not_special c hc).1, (digit_not_special c hc).2.2.2.2.2.2.2, ?_⟩
    rcases hc with hc | hc
    · intro h2; subst h2; revert hc; decide
    · subst hc; decide
  · subst h; exact ⟨_, _, rfl, by decide, by decide, by decide⟩

theorem tree_head (c : Tree) (d : Nat) (h : c.wf d) :
    ∃ ch u, c.text = ch :: u ∧ isSpace ch = false ∧ ch ≠ ']' ∧ ch ≠ Char.ofNat 125 := by
  cases c with
  | scalar t => exact scalar_head t h
  | emptyArray ws => exact ⟨_, _, rfl, by decide, by decide, by decide⟩
  | array ws items => exact ⟨_, _, rfl, by decide, by decide, by decide⟩
  | emptyObject ws => exact ⟨_, _, rfl, by decide, by decide, by decide⟩
  | object ws ms => exact ⟨_, _, rfl, by decide, by decide, by decide⟩

theorem items_head (items : Items) (d : Nat) (h : items.wf d) :
    ∃ a ch u, items.text = a ++ ch :: u ∧ a.all isSpace = true ∧ isSpace ch = false ∧
      ch ≠ ']' := by
  cases items with
  | last a v b =>
    obtain ⟨ch, u, ht, h1, h2, _⟩ := tree_head v d h.2.1
    exact ⟨a, ch, u ++ (b ++ [']']), by simp [Items.text, ht], h.1, h1, h2⟩
  | more a v b rest =>
    obtain ⟨ch, u, ht, h1, h2, _⟩ := tree_head v d h.2.1
    exact ⟨a, ch, u ++ (b ++ ',' :: rest.text), by simp [Items.text, ht], h.1, h1, h2⟩

theorem members_head (ms : Members) (d : Nat) (h : ms.wf d) :
    ∃ a u, ms.text = a ++ dq :: u ∧ a.all isSpace = true := by
  cases ms with
  | last a k m1 m2 v b => exact ⟨a, _, rfl, h.1⟩
  | more a k m1 m2 v b rest => exact ⟨a, _, rfl, h.1⟩

theorem all_append_space (a b : List Char) (ha : a.all isSpace = true)
    (hb : b.all isSpace = true) : (a ++ b).all isSpace = true := by
  simp only [List.all_append, ha, hb, Bool.and_self]

mutual
theorem tree_complete : ∀ (c : Tree) (d : Nat), c.wf d →
    ∃ v : JSON, v.isObj = c.isObject ∧ ∀ (fuel : Nat) (ws rest : List Char), c.fuel ≤ fuel →
      ws.all isSpace = true → (c.isScalar = true → numStop rest = true) →
      parseValue fuel d (ws ++ (c.text ++ rest)) = some (v, rest)
  | .scalar t, d, h => by
    rcases h with h | h | h | h | ⟨raw, h, hsb⟩
    · subst h
      refine ⟨.null, rfl, fun fuel ws rest hf hw _ => ?_⟩
      obtain ⟨f, rfl⟩ : ∃ f, fuel = f + 1 := ⟨fuel - 1, by simp [Tree.fuel] at hf; omega⟩
      exact parseValue_null f d _ rest (by
        rw [skipWs_append _ _ hw]; exact skipWs_cons _ _ (by decide))
    · subst h
      refine ⟨.bool true, rfl, fun fuel ws rest hf hw _ => ?_⟩
      obtain ⟨f, rfl⟩ : ∃ f, fuel = f + 1 := ⟨fuel - 1, by simp [Tree.fuel] at hf; omega⟩
      exact parseValue_true f d _ rest (by
        rw [skipWs_append _ _ hw]; exact skipWs_cons _ _ (by decide))
    · subst h
      refine ⟨.bool false, rfl, fun fuel ws rest hf hw _ => ?_⟩
      obtain ⟨f, rfl⟩ : ∃ f, fuel = f + 1 := ⟨fuel - 1, by simp [Tree.fuel] at hf; omega⟩
      exact parseValue_false f d _ rest (by
        rw [skipWs_append _ _ hw]; exact skipWs_cons _ _ (by decide))
    · refine ⟨.num t, rfl, fun fuel ws rest hf hw hn => ?_⟩
      obtain ⟨f, rfl⟩ : ∃ f, fuel = f + 1 := ⟨fuel - 1, by simp [Tree.fuel] at hf; omega⟩
      obtain ⟨c, u, hl, hc⟩ := numberText_head t h
      refine parseValue_number f d _ t rest ?_ h (hn rfl)
      rw [skipWs_append _ _ hw]
      simp only [Tree.text, hl, List.cons_append]
      exact skipWs_cons _ _ (digit_not_special c hc).1
    · subst h
      obtain ⟨x, hx⟩ := parseStringBody_complete raw.length raw (Nat.le_refl _) hsb
      refine ⟨.str (String.mk x), rfl, fun fuel ws rest hf hw _ => ?_⟩
      obtain ⟨f, rfl⟩ : ∃ f, fuel = f + 1 := ⟨fuel - 1, by simp [Tree.fuel] at hf; omega⟩
      refine parseValue_string f d _ (raw ++ dq :: rest) rest x ?_
        (hx _ rest (by simp))
      rw [skipWs_append _ _ hw]
      simp only [Tree.text, List.cons_append, List.append_assoc, List.nil_append]
      exact skipWs_cons _ _ (by decide)
  | .emptyArray w, d, h => by
    refine ⟨.arr [], rfl, fun fuel ws rest hf hw _ => ?_⟩
    obtain ⟨f, rfl⟩ : ∃ f, fuel = f + 1 := ⟨fuel - 1, by simp [Tree.fuel] at hf; omega⟩
    refine parseValue_emptyArray f d _ (w ++ ']' :: rest) rest h.1 ?_
      (skipWs_append_cons w ']' rest h.2 (by decide))
    rw [skipWs_append _ _ hw]
    simp only [Tree.text, List.cons_append, List.append_assoc, List.nil_append]
    exact skipWs_cons _ _ (by decide)
  | .emptyObject w, d, h => by
    refine ⟨.obj [], rfl, fun fuel ws rest hf hw _ => ?_⟩
    obtain ⟨f, rfl⟩ : ∃ f, fuel = f + 1 := ⟨fuel - 1, by simp [Tree.fuel] at hf; omega⟩
    refine parseValue_emptyObject f d _ (w ++ Char.ofNat 125 :: rest) rest h.1 ?_
      (skipWs_append_cons w _ rest h.2 (by decide))
    rw [skipWs_append _ _ hw]
    simp only [Tree.text, List.cons_append, List.append_assoc, List.nil_append]
    exact skipWs_cons _ _ (by decide)
  | .array w items, d, h => by
    obtain ⟨vs, hvs⟩ := items_complete items (d + 1) h.2.2
    refine ⟨.arr vs, rfl, fun fuel ws rest hf hw _ => ?_⟩
    obtain ⟨f, rfl⟩ : ∃ f, fuel = f + 1 := ⟨fuel - 1, by simp [Tree.fuel] at hf; omega⟩
    obtain ⟨a, ch, u, ht, ha, hch, hne⟩ := items_head items (d + 1) h.2.2
    have hs : skipWs (ws ++ (Tree.text (.array w items) ++ rest)) =
        '[' :: (w ++ (items.text ++ rest)) := by
      rw [skipWs_append _ _ hw]
      simp only [Tree.text, List.cons_append, List.append_assoc]
      exact skipWs_cons _ _ (by decide)
    have hr : skipWs (w ++ (items.text ++ rest)) = ch :: (u ++ rest) := by
      rw [ht, skipWs_append _ _ h.2.1]
      simp only [List.append_assoc, List.cons_append]
      exact skipWs_append_cons a ch _ ha hch
    rw [parseValue_array f d _ _ ch _ h.1 hs hr hne,
      hvs f w rest (by simp only [Tree.fuel] at hf; omega) h.2.1]
    rfl
  | .object w ms, d, h => by
    obtain ⟨kvs, hkvs⟩ := members_complete ms (d + 1) h.2.2
    refine ⟨.obj kvs, rfl, fun fuel ws rest hf hw _ => ?_⟩
    obtain ⟨f, rfl⟩ : ∃ f, fuel = f + 1 := ⟨fuel - 1, by simp [Tree.fuel] at hf; omega⟩
    obtain ⟨a, u, ht, ha⟩ := members_head ms (d + 1) h.2.2
    have hs : skipWs (ws ++ (Tree.text (.object w ms) ++ rest)) =
        Char.ofNat 123 :: (w ++ (ms.text ++ rest)) := by
      rw [skipWs_append _ _ hw]
      simp only [Tree.text, List.cons_append, List.append_assoc]
      exact skipWs_cons _ _ (by decide)
    have hr : skipWs (w ++ (ms.text ++ rest)) = dq :: (u ++ rest) := by
      rw [ht, skipWs_append _ _ h.2.1]
      simp only [List.append_assoc, List.cons_append]
      exact skipWs_append_cons a dq _ ha (by decide)
    rw [parseValue_object f d _ _ dq _ h.1 hs hr (by decide),
      hkvs f w rest (by simp only [Tree.fuel] at hf; omega) h.2.1]
    rfl
theorem items_complete : ∀ (items : Items) (d : Nat), items.wf d →
    ∃ vs : List JSON, ∀ (fuel : Nat) (ws rest : List Char), items.fuel ≤ fuel →
      ws.all isSpace = true →
      parseElems fuel d (ws ++ (items.text ++ rest)) = some (vs, rest)
  | .last a v b, d, h => by
    obtain ⟨x, _, hx⟩ := tree_complete v d h.2.1
    refine ⟨[x], fun fuel ws rest hf hw => ?_⟩
    obtain ⟨f, rfl⟩ : ∃ f, fuel = f + 1 := ⟨fuel - 1, by simp [Items.fuel] at hf; omega⟩
    have hv := hx f (ws ++ a) (b ++ ']' :: rest) (by simp only [Items.fuel] at hf; omega)
      (all_append_space _ _ hw h.1)
      (fun _ => numStop_after b ']' rest h.2.2 (Or.inr (Or.inl rfl)))
    have e : ws ++ (Items.text (.last a v b) ++ rest) =
        (ws ++ a) ++ (v.text ++ (b ++ ']' :: rest)) := by
      simp [Items.text]
    rw [e]
    exact parseElems_last f d _ _ rest x hv (skipWs_append_cons b ']' rest h.2.2 (by decide))
  | .more a v b items, d, h => by
    obtain ⟨x, _, hx⟩ := tree_complete v d h.2.1
    obtain ⟨vs, hvs⟩ := items_complete items d h.2.2.2
    refine ⟨x :: vs, fun fuel ws rest hf hw => ?_⟩
    obtain ⟨f, rfl⟩ : ∃ f, fuel = f + 1 := ⟨fuel - 1, by simp [Items.fuel] at hf; omega⟩
    have hv := hx f (ws ++ a) (b ++ ',' :: (items.text ++ rest))
      (by simp only [Items.fuel] at hf; omega) (all_append_space _ _ hw h.1)
      (fun _ => numStop_after b ',' _ h.2.2.1 (Or.inl rfl))
    have e : ws ++ (Items.text (.more a v b items) ++ rest) =
        (ws ++ a) ++ (v.text ++ (b ++ ',' :: (items.text ++ rest))) := by
      simp [Items.text]
    rw [e, parseElems_more f d _ _ _ x hv (skipWs_append_cons b ',' _ h.2.2.1 (by decide))]
    have := hvs f [] rest (by simp only [Items.fuel] at hf; omega) rfl
    simp only [List.nil_append] at this
    rw [this]
    rfl
theorem members_complete : ∀ (ms : Members) (d : Nat), ms.wf d →
    ∃ kvs : List (String × JSON), ∀ (fuel : Nat) (ws rest : List Char), ms.fuel ≤ fuel →
      ws.all isSpace = true →
      parseMembers fuel d (ws ++ (ms.text ++ rest)) = some (kvs, rest)
  | .last a k m1 m2 v b, d, h => by
    obtain ⟨x, _, hx⟩ := tree_complete v d h.2.2.2.2.1
    obtain ⟨xk, hxk⟩ := parseStringBody_complete k.length k (Nat.le_refl _) h.2.1
    refine ⟨[(String.mk xk, x)], fun fuel ws rest hf hw => ?_⟩
    obtain ⟨f, rfl⟩ : ∃ f, fuel = f + 1 := ⟨fuel - 1, by simp [Members.fuel] at hf; omega⟩
    have hv := hx f m2 (b ++ Char.ofNat 125 :: rest)
      (by simp only [Members.fuel] at hf; omega) h.2.2.2.1
      (fun _ => numStop_after b _ rest h.2.2.2.2.2 (Or.inr (Or.inr rfl)))
    have e : ws ++ (Members.text (.last a k m1 m2 v b) ++ rest) =
        (ws ++ a) ++ dq :: (k ++ dq :: (m1 ++ ':' :: (m2 ++ (v.text ++
          (b ++ Char.ofNat 125 :: rest))))) := by
      simp [Members.text]
    rw [e]
    exact parseMembers_one f d _ _ _ _ _ rest xk x
      (skipWs_append_cons _ dq _ (all_append_space _ _ hw h.1) (by decide))
      (hxk _ _ (by simp))
      (skipWs_append_cons m1 ':' _ h.2.2.1 (by decide)) hv
      (skipWs_append_cons b _ rest h.2.2.2.2.2 (by decide))
  | .more a k m1 m2 v b ms, d, h => by
    obtain ⟨x, _, hx⟩ := tree_complete v d h.2.2.2.2.1
    obtain ⟨xk, hxk⟩ := parseStringBody_complete k.length k (Nat.le_refl _) h.2.1
    obtain ⟨kvs, hkvs⟩ := members_complete ms d h.2.2.2.2.2.2
    refine ⟨(String.mk xk, x) :: kvs, fun fuel ws rest hf hw => ?_⟩
    obtain ⟨f, rfl⟩ : ∃ f, fuel = f + 1 := ⟨fuel - 1, by simp [Members.fuel] at hf; omega⟩
    have hv := hx f m2 (b ++ ',' :: (ms.text ++ rest))
      (by simp only [Members.fuel] at hf; omega) h.2.2.2.1
      (fun _ => numStop_after b ',' _ h.2.2.2.2.2.1 (Or.inl rfl))
    have e : ws ++ (Members.text (.more a k m1 m2 v b ms) ++ rest) =
        (ws ++ a) ++ dq :: (k ++ dq :: (m1 ++ ':' :: (m2 ++ (v.text ++
          (b ++ ',' :: (ms.text ++ rest)))))) := by
      simp [Members.text]
    rw [e, parseMembers_next f d _ _ _ _ _ _ xk x
      (skipWs_append_cons _ dq _ (all_append_space _ _ hw h.1) (by decide))
      (hxk _ _ (by simp))
      (skipWs_append_cons m1 ':' _ h.2.2.1 (by decide)) hv
      (skipWs_append_cons b ',' _ h.2.2.2.2.2.1 (by decide))]
    have := hkvs f [] rest (by simp only [Members.fuel] at hf; omega) rfl
    simp only [List.nil_append] at this
    rw [this]
    rfl
end

mutual
theorem tree_fuel_le : ∀ (c : Tree) (d : Nat), c.wf d → c.fuel ≤ c.text.length
  | .scalar t, d, h => by
    obtain ⟨ch, u, ht, _⟩ := scalar_head t h
    simp [Tree.fuel, Tree.text, ht]
  | .emptyArray w, d, _ => by simp [Tree.fuel, Tree.text]
  | .emptyObject w, d, _ => by simp [Tree.fuel, Tree.text]
  | .array w items, d, h => by
    have := items_fuel_le items (d + 1) h.2.2
    simp only [Tree.fuel, Tree.text, List.length_cons, List.length_append]
    omega
  | .object w ms, d, h => by
    have := members_fuel_le ms (d + 1) h.2.2
    simp only [Tree.fuel, Tree.text, List.length_cons, List.length_append]
    omega
theorem items_fuel_le : ∀ (items : Items) (d : Nat), items.wf d →
    items.fuel ≤ items.text.length
  | .last a v b, d, h => by
    have := tree_fuel_le v d h.2.1
    simp only [Items.fuel, Items.text, List.length_cons, List.length_append, List.length_nil]
    omega
  | .more a v b rest, d, h => by
    have := tree_fuel_le v d h.2.1
    have := items_fuel_le rest d h.2.2.2
    simp only [Items.fuel, Items.text, List.length_cons, List.length_append]
    omega
theorem members_fuel_le : ∀ (ms : Members) (d : Nat), ms.wf d →
    ms.fuel ≤ ms.text.length
  | .last a k m1 m2 v b, d, h => by
    have := tree_fuel_le v d h.2.2.2.2.1
    simp only [Members.fuel, Members.text, List.length_cons, List.length_append,
      List.length_nil]
    omega
  | .more a k m1 m2 v b rest, d, h => by
    have := tree_fuel_le v d h.2.2.2.2.1
    have := members_fuel_le rest d h.2.2.2.2.2.2
    simp only [Members.fuel, Members.text, List.length_cons, List.length_append]
    omega
end

theorem isObj_eq_true (v : JSON) (h : v.isObj = true) : ∃ kvs, v = .obj kvs := by
  cases v <;> simp [JSON.isObj] at h
  exact ⟨_, rfl⟩

/-- The value `json.Decoder.Decode` reads from a text that starts with the text
of a JSON object does not depend on what follows the object. -/
theorem firstValue_object (ws : List Char) (c : Tree) (hw : ws.all isSpace = true)
    (hwf : c.wf 0) (ho : c.isObject = true) :
    ∃ kvs, ∀ rest, firstValue (ws ++ (c.text ++ rest)) = some (.obj kvs) := by
  obtain ⟨v, hv, hp⟩ := tree_complete c 0 hwf
  obtain ⟨kvs, rfl⟩ := isObj_eq_true v (by rw [hv, ho])
  refine ⟨kvs, fun rest => ?_⟩
  have hf := tree_fuel_le c 0 hwf
  have hs : c.isScalar = true → numStop rest = true := by
    intro h
    cases c <;> simp [Tree.isObject, Tree.isScalar] at ho h
  have := hp (2 * (ws ++ (c.text ++ rest)).length + 2) ws rest
    (by simp only [List.length_append]; omega) hw hs
  simp only [firstValue, this, Option.map_some']

/-- A text starts with a JSON object exactly when `json.Decoder.Decode` reads
an object from it. -/
theorem startsWithObject_iff (r : List Char) :
    startsWithObject r ↔ ∃ kvs, firstValue r = some (.obj kvs) := by
  constructor
  · rintro ⟨ws, c, rest, rfl, hw, hwf, ho⟩
    obtain ⟨kvs, hk⟩ := firstValue_object ws c hw hwf ho
    exact ⟨kvs, hk rest⟩
  · rintro ⟨kvs, hk⟩
    simp only [firstValue, Option.map_eq_some'] at hk
    obtain ⟨⟨v, rest⟩, hp, hv⟩ := hk
    simp only at hv
    subst hv
    obtain ⟨ws, c, hs, hw, hwf, ho⟩ := (parse_sound _).1 0 r _ rest hp
    exact ⟨ws, c, rest, hs, hw, hwf, by rw [ho]; rfl⟩

/-! ### Input that does not start with a JSON object -/

/-- C3 (as stated, refuted): the input `{"log":{}}]` is not a well-formed JSON
document, yet `NewLog` returns a `Log` and a nil error: the decoder stops
reading at the end of the first value. -/
theorem newLog_accepts_trailing_text :
    isObjectText "\x7b\"log\":\x7b\x7d\x7d]".data = false ∧
      NewLog "\x7b\"log\":\x7b\x7d\x7d]".data = (.ptr (zero LogT), none) :=
  ⟨rfl, rfl⟩

/-- C3 (amended): for every input that does not start, after optional white
space, with the text of a well-formed JSON object (the grammar of RFC 8259,
nested at most `maxNestingDepth` deep), `NewLog` returns a nil `*Log` and a
non-nil error: so for malformed and truncated input and for input that starts
with an array, a number, a string, `true`, `false` or `null`.  What follows
the object is not read: an input that starts with a well-formed object and
goes on with any text gives what the object alone gives. -/
theorem newLog_rejects_non_object :
    (∀ r : List Char, ¬ startsWithObject r →
      (NewLog r).1 = .nilPtr ∧ (NewLog r).2 ≠ none) ∧
    (∀ (ws : List Char) (c : Tree) (tail : List Char), ws.all isSpace = true → c.wf 0 →
      c.isObject = true → NewLog (ws ++ (c.text ++ tail)) = NewLog (ws ++ c.text)) := by
  constructor
  · intro r h
    have hn : ∀ kvs, firstValue r ≠ some (.obj kvs) :=
      fun kvs hk => h ((startsWithObject_iff r).2 ⟨kvs, hk⟩)
    unfold NewLog decodeRoot
    cases hv : firstValue r with
    | none => simp
    | some v =>
      cases v with
      | obj kvs => exact absurd hv (hn kvs)
      | null => simp [lookupLast, unmarshalLog]
      | bool b => simp
      | num l => simp
      | str s => simp
      | arr xs => simp
  · intro ws c tail hw hwf ho
    obtain ⟨kvs, hk⟩ := firstValue_object ws c hw hwf ho
    have h1 := hk tail
    have h2 := hk []
    simp only [List.append_nil] at h2
    simp only [NewLog, decodeRoot, h1, h2]

theorem newLog_rejects_non_object_witness :
    ((NewLog "\x7b\"log\":".data).1 = .nilPtr ∧ (NewLog "\x7b\"log\":".data).2 ≠ none) ∧
    ((NewLog "[1, 2]".data).1 = .nilPtr ∧ (NewLog "[1, 2]".data).2 ≠ none) ∧
    NewLog ([] ++ (Tree.text (.object [] (.last [] "log".data [] [] (.emptyObject []) []))
        ++ "] and more".data)) =
      NewLog ([] ++ Tree.text (.object [] (.last [] "log".data [] [] (.emptyObject []) []))) :=
  ⟨newLog_rejects_non_object.1 _ (fun h => by
      obtain ⟨kvs, hk⟩ := (startsWithObject_iff _).1 h
      rw [show firstValue "\x7b\"log\":".data = none from rfl] at hk
      exact absurd hk (by simp)),
   newLog_rejects_non_object.1 _ (fun h => by
      obtain ⟨kvs, hk⟩ := (startsWithObject_iff _).1 h
      rw [show firstValue "[1, 2]".data = some (.arr [.num ['1'], .num ['2']]) from rfl] at hk
      exact absurd hk (by simp)),
   newLog_rejects_non_object.2 [] _ _ rfl
     ⟨by decide, rfl, rfl,
       StringBody.plain _ _ (by decide) (by decide) (by decide)
         (StringBody.plain _ _ (by decide) (by decide) (by decide)
           (StringBody.plain _ _ (by decide) (by decide) (by decide) StringBody.nil)),
       rfl, rfl, ⟨by decide, rfl⟩, rfl⟩ rfl⟩

end Har
